import Mathlib

/-!
# Scanline decoders of `pico/render_hires.c`

A shallow embedding of the high-resolution line renderers and of the two frame
routines, followed by the properties proved about them.

Conventions of the embedding

* C unsigned 32-bit values are natural numbers; every conversion to `uint32_t`
  is written `u32`.
* Memory pages and lookup tables are functions from an index to a value.  A
  byte read from a page is reduced modulo 256.
* `sl->data[sl_pos++] = w` appends `w` to the list of words written so far and
  increments `sl_pos`; both are kept, as in the source.
* Constants, tables, flags and pages that live in headers outside the
  translated file are fields of `Env`.
* The counters `i`, `sl_pos` and `dotc` are kept unreduced: on every run they
  stay below 41, 285 and 33 (see the loop invariants), far from wrapping.
* A `while` loop is a recursive function on the loop state, with its
  termination proof; a counted `for` loop is `for_loop`.
-/

namespace AppleVGA

/-! ## Data model -/

/-- Conversion to `uint32_t`. -/
def u32 (x : Nat) : Nat := x % 2 ^ 32

/-- Modelled from the spec: the add-on card sub-mode selector, an enumerated
value whose declaration is in a header that is not among the sources.  The
source names three of the values; every other value takes the default
(140x192) branch. -/
inductive Video7Mode
  | VIDEO7_MODE_140x192
  | VIDEO7_MODE_160x192
  | VIDEO7_MODE_560x192
  | VIDEO7_MODE_MIX
  deriving DecidableEq, Repr

/-- Everything `render_hires.c` reads from its headers and from global state. -/
structure Env where
  /-- Whether the file is compiled with `APPLE_MODEL_IIE` defined. -/
  APPLE_MODEL_IIE : Bool
  /-- Word flag of `vga.h`: hold until the next horizontal sync. -/
  THEN_WAIT_HSYNC : Nat
  /-- Word flag of `vga.h`: repeat the pixel once more. -/
  THEN_EXTEND_1 : Nat
  /-- Word flag of `vga.h`: repeat the pixel three more times. -/
  THEN_EXTEND_3 : Nat
  /-- Word flag of `vga.h`: repeat the pixel seven more times. -/
  THEN_EXTEND_7 : Nat
  /-- Table `hires_dot_patterns[256]`. -/
  hires_dot_patterns : Nat → Nat
  /-- Table `hires_color_patterns[512]`. -/
  hires_color_patterns : Nat → Nat
  /-- Table `dhgr_palette[16]`. -/
  dhgr_palette : Nat → Nat
  /-- Table `lores_palette[16]`. -/
  lores_palette : Nat → Nat
  mono_bg_color : Nat
  mono_fg_color : Nat
  /-- The test `soft_switches & SOFTSW_PAGE_2`. -/
  SOFTSW_PAGE_2 : Bool
  soft_80store : Bool
  soft_80col : Bool
  soft_dhires : Bool
  soft_monochrom : Bool
  soft_scanline_emulation : Bool
  soft_video7_mode : Video7Mode
  hgr_p1 : Nat → Nat
  hgr_p2 : Nat → Nat
  hgr_p3 : Nat → Nat
  hgr_p4 : Nat → Nat

/-- What one renderer call leaves in the scanline buffer it borrowed: the words
`data[0 .. sl_pos)` it wrote, the `length` it stored, and the `repeat_count` it
stored (`none` when the call did not touch that field). -/
structure vga_scanline where
  data : List Nat
  length : Nat
  repeat_count : Option Nat
  deriving DecidableEq, Repr

/-- Calls made to the signal driver and to the text renderer, in order. -/
inductive vga_call
  | vga_prepare_frame
  | vga_skip_lines (n : Nat)
  | vga_submit_scanline (sl : vga_scanline)
  | render_text_line (line : Nat)
  deriving DecidableEq, Repr

/-- Loop `for (i = start; i < start + count; i++) s = body i s`. -/
def for_loop {σ : Type} (body : Nat → σ → σ) : Nat → Nat → σ → σ
  | 0, _, s => s
  | count + 1, start, s => for_loop body count (start + 1) (body start s)

/-! ## Line addressing -/

/-- Source: `hires_line_to_mem_offset`.  For a 32-bit `line` no intermediate
value exceeds 32 bits, so no reduction is needed. -/
def hires_line_to_mem_offset (line : Nat) : Nat :=
  ((line &&& 0x07) <<< 10) ||| ((line &&& 0x38) <<< 4) ||| (((line &&& 0xc0) >>> 6) * 40)

/-- The pointer `page` of both line renderers. -/
def display_page (E : Env) : Nat → Nat :=
  if E.SOFTSW_PAGE_2 && !E.soft_80store then E.hgr_p2 else E.hgr_p1

/-- The pointer `aux_page` of `render_dhires_line`. -/
def display_aux_page (E : Env) : Nat → Nat :=
  if E.SOFTSW_PAGE_2 && !E.soft_80store then E.hgr_p4 else E.hgr_p3

/-- Byte `line_mem[i]` (`line_mem_even[i]`): the main page at the line. -/
def line_mem_even (E : Env) (line i : Nat) : Nat :=
  display_page E (hires_line_to_mem_offset line + i) % 256

/-- Byte `line_mem_odd[i]`: the auxiliary page at the line. -/
def line_mem_odd (E : Env) (line i : Nat) : Nat :=
  display_aux_page E (hires_line_to_mem_offset line + i) % 256

/-! ## Buffer words shared by the renderers -/

/-- The 16-slot padding word `(0 | THEN_EXTEND_7) | ((0 | THEN_EXTEND_7) << 16)`. -/
def pad_word_7 (E : Env) : Nat :=
  u32 ((0 ||| E.THEN_EXTEND_7) ||| ((0 ||| E.THEN_EXTEND_7) <<< 16))

/-- The 8-slot padding word `(0 | THEN_EXTEND_3) | ((0 | THEN_EXTEND_3) << 16)`. -/
def pad_word_3 (E : Env) : Nat :=
  u32 ((0 ||| E.THEN_EXTEND_3) ||| ((0 ||| E.THEN_EXTEND_3) <<< 16))

/-- The three words that pad 40 slots on the left. -/
def left_padding (E : Env) : List Nat := [pad_word_7 E, pad_word_7 E, pad_word_3 E]

/-- The common tail of both line renderers: the marker or the repeat count,
then `sl->length = sl_pos`. -/
def finish_scanline (E : Env) (data : List Nat) (sl_pos : Nat) : vga_scanline :=
  if E.soft_scanline_emulation then
    { data := data ++ [u32 E.THEN_WAIT_HSYNC], length := sl_pos + 1, repeat_count := none }
  else
    { data := data, length := sl_pos, repeat_count := some 1 }

/-! ## Single-resolution renderer -/

/-- Locals of `render_hires_line` that change in its loops. -/
structure HiresState where
  data : List Nat
  sl_pos : Nat
  dots : Nat
  oddness : Nat
  deriving DecidableEq, Repr

/-- Body of the loop over `j` in `render_hires_line`: one pixel. -/
def hires_pixel (E : Env) (s : HiresState) : HiresState :=
  let dot_pattern := s.oddness ||| ((s.dots >>> 24) &&& 0xff)
  { data := s.data ++ [u32 (E.hires_color_patterns dot_pattern)]
    sl_pos := s.sl_pos + 1
    dots := u32 (s.dots <<< 2)
    oddness := s.oddness ^^^ 0x100 }

/-- Body of the loop over `i` in `render_hires_line`: load 14 dots, emit 7 pixels. -/
def hires_byte (E : Env) (line i : Nat) (s : HiresState) : HiresState :=
  let b := if i < 40 then line_mem_even E line i else 0
  let dots1 := if b &&& 0x80 ≠ 0 then s.dots ||| ((s.dots &&& (1 <<< 15)) >>> 1) else s.dots
  let dots2 := dots1 ||| u32 (u32 (E.hires_dot_patterns b) <<< 1)
  for_loop (fun _ => hires_pixel E) 7 0 { s with dots := dots2 }

/-- State of `render_hires_line` when its loop over `i` is entered. -/
def hires_start (E : Env) (line : Nat) : HiresState :=
  { data := left_padding E
    sl_pos := 3
    dots := 0 ||| u32 (u32 (E.hires_dot_patterns (line_mem_even E line 0)) <<< 15)
    oddness := 0 }

/-- Source: `render_hires_line`. -/
def render_hires_line (E : Env) (line : Nat) : vga_scanline :=
  let s := for_loop (hires_byte E line) 40 1 (hires_start E line)
  finish_scanline E s.data s.sl_pos

/-! ## Double-resolution renderer -/

/-- Locals of `render_dhires_line` that change in its loops. -/
structure DhiresState where
  data : List Nat
  sl_pos : Nat
  i : Nat
  dotc : Nat
  dots : Nat
  pixelmode : Nat
  deriving DecidableEq, Repr

/-- The local table `bits_to_pixels[4]` of the 560x192 branch. -/
def bits_to_pixels (E : Env) (v : Nat) : Nat :=
  match v with
  | 0 => u32 (u32 (u32 E.mono_bg_color <<< 16) ||| E.mono_bg_color)
  | 1 => u32 (u32 (u32 E.mono_bg_color <<< 16) ||| E.mono_fg_color)
  | 2 => u32 (u32 (u32 E.mono_fg_color <<< 16) ||| E.mono_bg_color)
  | _ => u32 (u32 (u32 E.mono_fg_color <<< 16) ||| E.mono_fg_color)

/-- Body of the loop over `j` in the 560x192 branch. -/
def mono560_pixels (E : Env) (s : DhiresState) : DhiresState :=
  { s with
    data := s.data ++ [bits_to_pixels E (s.dots &&& 0x03)]
    sl_pos := s.sl_pos + 1
    dots := s.dots >>> 2 }

/-- Body of the loop over `i` in the 560x192 branch. -/
def mono560_column (E : Env) (line i : Nat) (s : DhiresState) : DhiresState :=
  let dots := u32 ((line_mem_odd E line i &&& 0x7f) ||| (u32 (u32 (line_mem_even E line i) &&& 0x7f) <<< 7))
  for_loop (fun _ => mono560_pixels E) 7 0 { s with dots := dots }

/-- The word the 160x192 branch builds from one byte `b`; `uint_fast16_t` is the
32-bit `unsigned int` on the target. -/
def color160_word (E : Env) (b : Nat) : Nat :=
  let pix1 := u32 (E.lores_palette (b &&& 0xf) ||| E.THEN_EXTEND_3)
  let pix2 := u32 (E.lores_palette ((b >>> 4) &&& 0xf) ||| E.THEN_EXTEND_3)
  pix1 ||| u32 (pix2 <<< 16)

/-- Body of the loop over `i` in the 160x192 branch. -/
def color160_column (E : Env) (line i : Nat) (s : DhiresState) : DhiresState :=
  let s1 := { s with data := s.data ++ [color160_word E (line_mem_odd E line i)], sl_pos := s.sl_pos + 1 }
  { s1 with data := s1.data ++ [color160_word E (line_mem_even E line i)], sl_pos := s1.sl_pos + 1 }

/-- Body of the loading loop of the mixed branch. -/
def mix_load_pair (E : Env) (line : Nat) (s : DhiresState) : DhiresState :=
  let dots1 := s.dots ||| u32 ((line_mem_odd E line s.i &&& 0x7f) <<< s.dotc)
  let pm1 := s.pixelmode |||
    u32 ((if line_mem_odd E line s.i &&& 0x80 ≠ 0 then 0x7f else 0x00) <<< s.dotc)
  let dotc1 := s.dotc + 7
  let dots2 := dots1 ||| u32 ((line_mem_even E line s.i &&& 0x7f) <<< dotc1)
  let pm2 := pm1 |||
    u32 ((if line_mem_even E line s.i &&& 0x80 ≠ 0 then 0x7f else 0x00) <<< dotc1)
  { s with dots := dots2, pixelmode := pm2, dotc := dotc1 + 7, i := s.i + 1 }

/-- Loop `while ((dotc <= 18) && (i < 40))` of the mixed branch. -/
def mix_load (E : Env) (line : Nat) (s : DhiresState) : DhiresState :=
  if s.dotc ≤ 18 ∧ s.i < 40 then mix_load E line (mix_load_pair E line s) else s
termination_by 40 - s.i
decreasing_by
  simp_wf
  simp only [mix_load_pair]
  omega

/-- The half-word `(dots & 1) ? dhgr_palette[15] : dhgr_palette[0]`. -/
def mix_mono_color (E : Env) (dots : Nat) : Nat :=
  if dots &&& 1 ≠ 0 then E.dhgr_palette 15 else E.dhgr_palette 0

/-- Body of the consuming loop of the mixed branch. -/
def mix_draw_group (E : Env) (s : DhiresState) : DhiresState :=
  if s.pixelmode ≠ 0 then
    let pixeldata := u32 (E.dhgr_palette (s.dots &&& 0xf) ||| E.THEN_EXTEND_1)
    let pixeldata := pixeldata ||| u32 (pixeldata <<< 16)
    { s with
      dots := s.dots >>> 4
      pixelmode := s.pixelmode >>> 4
      data := s.data ++ [pixeldata]
      sl_pos := s.sl_pos + 1
      dotc := s.dotc - 4 }
  else
    let pixeldata := u32 (mix_mono_color E s.dots)
    let dots := s.dots >>> 1
    let pixelmode := s.pixelmode >>> 1
    let pixeldata := pixeldata ||| u32 (u32 (mix_mono_color E dots) <<< 16)
    let dots := dots >>> 1
    let pixelmode := pixelmode >>> 1
    let data := s.data ++ [pixeldata]
    let sl_pos := s.sl_pos + 1
    let dotc := s.dotc - 2
    let pixeldata := u32 (mix_mono_color E dots)
    let dots := dots >>> 1
    let pixelmode := pixelmode >>> 1
    let pixeldata := pixeldata ||| u32 (u32 (mix_mono_color E dots) <<< 16)
    let dots := dots >>> 1
    let pixelmode := pixelmode >>> 1
    { s with
      dots := dots
      pixelmode := pixelmode
      data := data ++ [pixeldata]
      sl_pos := sl_pos + 1
      dotc := dotc - 2 }

/-- Loop `while (dotc >= 4)` of the mixed branch. -/
def mix_draw (E : Env) (s : DhiresState) : DhiresState :=
  if s.dotc ≥ 4 then mix_draw E (mix_draw_group E s) else s
termination_by s.dotc
decreasing_by
  simp_wf
  unfold mix_draw_group
  split <;> simp only <;> omega

/-- Body of the loading loop of the 140x192 branch. -/
def color140_load_pair (E : Env) (line : Nat) (s : DhiresState) : DhiresState :=
  let dots1 := s.dots ||| u32 ((line_mem_odd E line s.i &&& 0x7f) <<< s.dotc)
  let dotc1 := s.dotc + 7
  let dots2 := dots1 ||| u32 ((line_mem_even E line s.i &&& 0x7f) <<< dotc1)
  { s with dots := dots2, dotc := dotc1 + 7, i := s.i + 1 }

/-- Loop `while ((dotc <= 18) && (i < 40))` of the 140x192 branch. -/
def color140_load (E : Env) (line : Nat) (s : DhiresState) : DhiresState :=
  if s.dotc ≤ 18 ∧ s.i < 40 then color140_load E line (color140_load_pair E line s) else s
termination_by 40 - s.i
decreasing_by
  simp_wf
  simp only [color140_load_pair]
  omega

/-- Body of the consuming loop of the 140x192 branch. -/
def color140_draw_pair (E : Env) (s : DhiresState) : DhiresState :=
  let pixeldata := u32 (E.dhgr_palette (s.dots &&& 0xf) ||| E.THEN_EXTEND_3)
  let dots := s.dots >>> 4
  let pixeldata := pixeldata ||| u32 ((E.dhgr_palette (dots &&& 0xf) ||| E.THEN_EXTEND_3) <<< 16)
  let dots := dots >>> 4
  { s with
    dots := dots
    data := s.data ++ [pixeldata]
    sl_pos := s.sl_pos + 1
    dotc := s.dotc - 8 }

/-- Loop `while (dotc >= 8)` of the 140x192 branch. -/
def color140_draw (E : Env) (s : DhiresState) : DhiresState :=
  if s.dotc ≥ 8 then color140_draw E (color140_draw_pair E s) else s
termination_by s.dotc
decreasing_by
  simp_wf
  simp only [color140_draw_pair]
  omega

/-- Loop `while (i < 40)` of the mixed branch: load, then consume. -/
def mix_loop (E : Env) (line : Nat) (s : DhiresState) : DhiresState :=
  if s.i < 40 then mix_loop E line (mix_draw E (mix_load E line s)) else s
termination_by (40 - s.i) * 2 + (if s.dotc ≤ 18 then 0 else 1)
decreasing_by
  simp_wf
  have hdraw : ∀ t : DhiresState, (mix_draw E t).i = t.i ∧ (mix_draw E t).dotc < 4 := by
    intro t
    induction t using mix_draw.induct E with
    | case1 t h ih =>
      rw [mix_draw, if_pos h]
      refine ⟨ih.1.trans ?_, ih.2⟩
      unfold mix_draw_group
      split <;> rfl
    | case2 t h =>
      rw [mix_draw, if_neg h]
      exact ⟨rfl, by omega⟩
  have hload : ∀ t : DhiresState, t.i ≤ (mix_load E line t).i := by
    intro t
    induction t using mix_load.induct E line with
    | case1 t h ih =>
      rw [mix_load, if_pos h]
      have : (mix_load_pair E line t).i = t.i + 1 := rfl
      omega
    | case2 t h =>
      rw [mix_load, if_neg h]
  obtain ⟨hi, hd⟩ := hdraw (mix_load E line s)
  rw [hi, if_pos (by omega : (mix_draw E (mix_load E line s)).dotc ≤ 18)]
  by_cases hc : s.dotc ≤ 18
  · have h1 : (mix_load_pair E line s).i = s.i + 1 := rfl
    have h2 := hload (mix_load_pair E line s)
    rw [mix_load, if_pos ⟨hc, by assumption⟩, if_pos hc]
    omega
  · rw [mix_load, if_neg (fun h => hc h.1), if_neg hc]
    omega

/-- Loop `while (i < 40)` of the 140x192 branch: load, then consume. -/
def color140_loop (E : Env) (line : Nat) (s : DhiresState) : DhiresState :=
  if s.i < 40 then color140_loop E line (color140_draw E (color140_load E line s)) else s
termination_by (40 - s.i) * 2 + (if s.dotc ≤ 18 then 0 else 1)
decreasing_by
  simp_wf
  have hdraw : ∀ t : DhiresState,
      (color140_draw E t).i = t.i ∧ (color140_draw E t).dotc < 8 := by
    intro t
    induction t using color140_draw.induct E with
    | case1 t h ih =>
      rw [color140_draw, if_pos h]
      exact ⟨ih.1.trans rfl, ih.2⟩
    | case2 t h =>
      rw [color140_draw, if_neg h]
      exact ⟨rfl, by omega⟩
  have hload : ∀ t : DhiresState, t.i ≤ (color140_load E line t).i := by
    intro t
    induction t using color140_load.induct E line with
    | case1 t h ih =>
      rw [color140_load, if_pos h]
      have : (color140_load_pair E line t).i = t.i + 1 := rfl
      omega
    | case2 t h =>
      rw [color140_load, if_neg h]
  obtain ⟨hi, hd⟩ := hdraw (color140_load E line s)
  rw [hi, if_pos (by omega : (color140_draw E (color140_load E line s)).dotc ≤ 18)]
  by_cases hc : s.dotc ≤ 18
  · have h1 : (color140_load_pair E line s).i = s.i + 1 := rfl
    have h2 := hload (color140_load_pair E line s)
    rw [color140_load, if_pos ⟨hc, by assumption⟩, if_pos hc]
    omega
  · rw [color140_load, if_neg (fun h => hc h.1), if_neg hc]
    omega

/-- The sub-mode `render_dhires_line` works in:
`soft_monochrom ? VIDEO7_MODE_560x192 : soft_video7_mode`. -/
def dhires_mode (E : Env) : Video7Mode :=
  if E.soft_monochrom then Video7Mode.VIDEO7_MODE_560x192 else E.soft_video7_mode

/-- Locals of `render_dhires_line` as initialised at its top. -/
def dhires_start : DhiresState :=
  { data := [], sl_pos := 0, i := 0, dotc := 0, dots := 0, pixelmode := 0 }

/-- The left padding of `render_dhires_line`, skipped in 160x192 mode. -/
def dhires_pad (E : Env) (s : DhiresState) : DhiresState :=
  if dhires_mode E ≠ Video7Mode.VIDEO7_MODE_160x192 then
    { s with data := s.data ++ left_padding E, sl_pos := s.sl_pos + 3 }
  else s

/-- The branch of `render_dhires_line` chosen by the sub-mode. -/
def dhires_decode (E : Env) (line : Nat) (s : DhiresState) : DhiresState :=
  if dhires_mode E = Video7Mode.VIDEO7_MODE_560x192 then
    for_loop (mono560_column E line) 40 0 s
  else if dhires_mode E = Video7Mode.VIDEO7_MODE_160x192 then
    for_loop (color160_column E line) 40 0 s
  else if dhires_mode E = Video7Mode.VIDEO7_MODE_MIX then
    mix_loop E line { s with pixelmode := 0 }
  else
    color140_loop E line s

/-- Source: `render_dhires_line`. -/
def render_dhires_line (E : Env) (line : Nat) : vga_scanline :=
  let s := dhires_decode E line (dhires_pad E dhires_start)
  finish_scanline E s.data s.sl_pos

/-! ## Frame routines -/

/-- Whether the frame routines take the double-resolution branch: it exists only
under `APPLE_MODEL_IIE` and is guarded by `soft_80col && soft_dhires`. -/
def use_dhires (E : Env) : Bool :=
  E.APPLE_MODEL_IIE && (E.soft_80col && E.soft_dhires)

/-- The graphics loops of the frame routines: lines `0 .. count - 1`, each
rendered and submitted. -/
def render_lines (E : Env) (count : Nat) (calls : List vga_call) : List vga_call :=
  if use_dhires E then
    for_loop (fun line cs => cs ++ [vga_call.vga_submit_scanline (render_dhires_line E line)])
      count 0 calls
  else
    for_loop (fun line cs => cs ++ [vga_call.vga_submit_scanline (render_hires_line E line)])
      count 0 calls

/-- Source: `render_hires`. -/
def render_hires (E : Env) : List vga_call :=
  render_lines E 192 [vga_call.vga_prepare_frame, vga_call.vga_skip_lines 48]

/-- Source: `render_mixed_hires`. -/
def render_mixed_hires (E : Env) : List vga_call :=
  let calls := render_lines E 160 [vga_call.vga_prepare_frame, vga_call.vga_skip_lines 48]
  for_loop (fun line cs => cs ++ [vga_call.render_text_line line]) 4 20 calls

/-! ## Reference notions used to state the properties -/

/-! ### Output buffers -/

/-- What the common tail appends after the words of a line: the line-hold
marker when scanline emulation is on, nothing otherwise. -/
def line_hold_tail (E : Env) : List Nat :=
  if E.soft_scanline_emulation then [u32 E.THEN_WAIT_HSYNC] else []

/-- Low (`h = 0`) or high (`h = 1`) half-word of a 32-bit buffer word. -/
def halfword (w h : Nat) : Nat := (w >>> (16 * h)) % 2 ^ 16

/-- The buffer word `lo | (hi << 16)`: `lo` is shown first, `hi` second. -/
def pixel_pair (lo hi : Nat) : Nat := lo ||| (hi <<< 16)

/-- Slots a buffer word occupies on screen, given the extend count `ext` the
driver reads from a half-word: the line-hold marker shows nothing, any other
word shows each of its two half-words once plus its extend count. -/
def word_width (E : Env) (ext : Nat → Nat) (w : Nat) : Nat :=
  if w = u32 E.THEN_WAIT_HSYNC then 0
  else (1 + ext (halfword w 0)) + (1 + ext (halfword w 1))

/-- Total width of a buffer: the sum of the widths of its words. -/
def buffer_width (E : Env) (ext : Nat → Nat) (ws : List Nat) : Nat :=
  (ws.map (word_width E ext)).sum

/-! ### Single-resolution reference: the dot stream -/

/-- Byte `b[m]` of a single-resolution line, with the virtual byte `b[40] = 0`. -/
def hires_line_byte (E : Env) (line m : Nat) : Nat :=
  if m < 40 then line_mem_even E line m else 0

/-- Dot `14 m + t` before the carry: bit `13 - t` of `hires_dot_patterns[b[m]]`. -/
def raw_dot (E : Env) (line p : Nat) : Bool :=
  (E.hires_dot_patterns (hires_line_byte E line (p / 14))).testBit (13 - p % 14)

/-- The reference dot stream `D[p]`, `p ≥ 0`: the raw dot, and at the first dot of
a byte `m ≥ 1` whose bit 7 is set, OR-ed with the dot before it. -/
def dot_stream (E : Env) (line : Nat) : Nat → Bool
  | 0 => raw_dot E line 0
  | p + 1 =>
    raw_dot E line (p + 1)
      || (decide ((p + 1) % 14 = 0) && (hires_line_byte E line ((p + 1) / 14)).testBit 7
          && dot_stream E line p)

/-- The reference dot stream at an integer position: `D[p] = 0` for `p < 0`. -/
def dot_at (E : Env) (line : Nat) (p : Int) : Bool :=
  if p < 0 then false else dot_stream E line p.toNat

/-- The window `W_k`: the 8-bit value of `D[2k-3 .. 2k+4]`, `D[2k-3]` most significant. -/
def dot_window (E : Env) (line k : Nat) : Nat :=
  128 * (dot_at E line (2 * (k : Int) - 3)).toNat
    + 64 * (dot_at E line (2 * (k : Int) - 2)).toNat
    + 32 * (dot_at E line (2 * (k : Int) - 1)).toNat
    + 16 * (dot_at E line (2 * (k : Int))).toNat
    + 8 * (dot_at E line (2 * (k : Int) + 1)).toNat
    + 4 * (dot_at E line (2 * (k : Int) + 2)).toNat
    + 2 * (dot_at E line (2 * (k : Int) + 3)).toNat
    + (dot_at E line (2 * (k : Int) + 4)).toNat

/-- The data word the sliding-window reference gives pixel `k`. -/
def hires_word (E : Env) (line k : Nat) : Nat :=
  u32 (E.hires_color_patterns (((k % 2) <<< 8) ||| dot_window E line k))

/-- The buffer every line of an all-zero page decodes to. -/
def zero_scanline (E : Env) : vga_scanline :=
  { data := left_padding E
      ++ (List.range 280).map
          (fun k => u32 (E.hires_color_patterns (if k % 2 = 0 then 0 else 0x100)))
      ++ line_hold_tail E
    length := 283 + (line_hold_tail E).length
    repeat_count := if E.soft_scanline_emulation then none else some 1 }

/-! ### Double-resolution reference: the interleaved stream -/

/-- Bit `p` of the interleaved double-resolution stream of a line: column
`p / 14` contributes bits 0..6 of its auxiliary byte, then bits 0..6 of its
main byte. -/
def dhires_stream_bit (E : Env) (line p : Nat) : Bool :=
  if p % 14 < 7 then (line_mem_odd E line (p / 14)).testBit (p % 14)
  else (line_mem_even E line (p / 14)).testBit (p % 14 - 7)

/-- The pixel-mode flag that travels with stream bit `p`: bit 7 of the byte the
stream bit comes from. -/
def dhires_flag_bit (E : Env) (line p : Nat) : Bool :=
  if p % 14 < 7 then (line_mem_odd E line (p / 14)).testBit 7
  else (line_mem_even E line (p / 14)).testBit 7

/-- The 4-bit value `n_m` of stream bits `4m .. 4m+3`, bit `4m` least significant. -/
def dhires_nibble (E : Env) (line m : Nat) : Nat :=
  (dhires_stream_bit E line (4 * m)).toNat
    + 2 * (dhires_stream_bit E line (4 * m + 1)).toNat
    + 4 * (dhires_stream_bit E line (4 * m + 2)).toNat
    + 8 * (dhires_stream_bit E line (4 * m + 3)).toNat

/-- Data word `w` of the 140x192 reference:
`(dhgr_palette[n_2w] | THEN_EXTEND_3) | ((dhgr_palette[n_2w+1] | THEN_EXTEND_3) << 16)`
as a 32-bit word. -/
def color140_ref_word (E : Env) (line w : Nat) : Nat :=
  u32 (pixel_pair (E.dhgr_palette (dhires_nibble E line (2 * w)) ||| E.THEN_EXTEND_3)
    (E.dhgr_palette (dhires_nibble E line (2 * w + 1)) ||| E.THEN_EXTEND_3))

/-- Seven consecutive bits, starting at stream position `p`, of the stream that
carries the nibbles `ν` four bits each, least significant bit first; this is the
low seven bits of the plane byte holding stream bits `p .. p + 6`. -/
def pack_plane_byte (ν : Nat → Nat) (p : Nat) : Nat :=
  ((ν (p / 4)).testBit (p % 4)).toNat
    + 2 * ((ν ((p + 1) / 4)).testBit ((p + 1) % 4)).toNat
    + 4 * ((ν ((p + 2) / 4)).testBit ((p + 2) % 4)).toNat
    + 8 * ((ν ((p + 3) / 4)).testBit ((p + 3) % 4)).toNat
    + 16 * ((ν ((p + 4) / 4)).testBit ((p + 4) % 4)).toNat
    + 32 * ((ν ((p + 5) / 4)).testBit ((p + 5) % 4)).toNat
    + 64 * ((ν ((p + 6) / 4)).testBit ((p + 6) % 4)).toNat

/-- The palette indices a line of `0x2A` bytes decodes to, one period. -/
def period_2A : List Nat := [10, 2, 5, 9, 10, 4, 5]

/-- The 14-bit window of column `c` in 560x192 mode:
`(aux[c] & 0x7f) | ((main[c] & 0x7f) << 7)`. -/
def mono560_window (E : Env) (line c : Nat) : Nat :=
  (line_mem_odd E line c &&& 0x7f) ||| ((line_mem_even E line c &&& 0x7f) <<< 7)

/-- Colour of one monochrome dot: foreground for a 1 bit, background for a 0 bit. -/
def mono_color (E : Env) (bit : Bool) : Nat :=
  if bit then E.mono_fg_color else E.mono_bg_color

/-- The words one column contributes in 560x192 mode: `bits_to_pixels` of the
seven bit pairs of its window, low pair first. -/
def mono560_column_words (E : Env) (line c : Nat) : List Nat :=
  (List.range 7).map (fun j => bits_to_pixels E ((mono560_window E line c >>> (2 * j)) &&& 3))

/-- The two pixels the 160x192 mode draws for byte `b`, low nibble first. -/
def color160_pair (E : Env) (b : Nat) : Nat :=
  pixel_pair (E.lores_palette (b &&& 0xF) ||| E.THEN_EXTEND_3)
    (E.lores_palette ((b >>> 4) &&& 0xF) ||| E.THEN_EXTEND_3)

/-! ### Mixed sub-mode reference -/

/-- Whether a pixel-mode flag is set within the 4-bit window of group `m`. -/
def mix_window_flag (E : Env) (line m : Nat) : Bool :=
  (List.range 4).any (fun t => dhires_flag_bit E line (4 * m + t))

/-- Whether a pixel-mode flag is set anywhere among the stream bits still in the
accumulator when group `m` is drawn: the bits of the group and those after it in
the same 28-bit load. -/
def mix_pending_flag (E : Env) (line m : Nat) : Bool :=
  (List.range (28 - 4 * (m % 7))).any (fun t => dhires_flag_bit E line (4 * m + t))

/-- The word of a group drawn in colour:
`dhgr_palette[n_m] | THEN_EXTEND_1` in both half-words. -/
def mix_color_word (E : Env) (line m : Nat) : Nat :=
  u32 (E.dhgr_palette (dhires_nibble E line m) ||| E.THEN_EXTEND_1)
    ||| u32 (u32 (E.dhgr_palette (dhires_nibble E line m) ||| E.THEN_EXTEND_1) <<< 16)

/-- Colour of stream bit `p` drawn as a monochrome dot: `dhgr_palette[15]` for a
1 bit, `dhgr_palette[0]` for a 0 bit. -/
def mix_dot_color (E : Env) (line p : Nat) : Nat :=
  if dhires_stream_bit E line p then E.dhgr_palette 15 else E.dhgr_palette 0

/-- The word of two stream bits `p`, `p + 1` drawn as monochrome dots, without
extension. -/
def mix_mono_word (E : Env) (line p : Nat) : Nat :=
  u32 (mix_dot_color E line p) ||| u32 (u32 (mix_dot_color E line (p + 1)) <<< 16)

/-- The words group `m` contributes in the mixed sub-mode. -/
def mix_group_words (E : Env) (line m : Nat) : List Nat :=
  if mix_pending_flag E line m then [mix_color_word E line m]
  else [mix_mono_word E line (4 * m), mix_mono_word E line (4 * m + 2)]

/-! ### Loop invariants -/

/-- Invariant of the loops of `render_hires_line` after `n` pixels: the bits `lo ..
31` of `dots` are the reference dots `D[2n + 28 - q]`, the other bits are 0, the
phase is the parity of `n`, and the buffer holds the padding and the first `n`
reference words. -/
def HiresInv (E : Env) (line n lo : Nat) (s : HiresState) : Prop :=
  (∀ q, s.dots.testBit q
      = (decide (lo ≤ q ∧ q < 32) && dot_at E line (2 * (n : Int) + 28 - (q : Int))))
    ∧ s.oddness = (n % 2) <<< 8
    ∧ s.data = left_padding E ++ (List.range n).map (hires_word E line)
    ∧ s.sl_pos = 3 + n

/-- After `n` pixels the buffer of `render_hires_line` is the padding followed by
`n` entries of the colour table. -/
def HiresShape (E : Env) (n : Nat) (s : HiresState) : Prop :=
  ∃ ws, s.data = left_padding E ++ ws ∧ ws.length = n
    ∧ ∀ w ∈ ws, ∃ p, w = u32 (E.hires_color_patterns p)

/-- The write position agrees with the number of words written. -/
def Synced (s : DhiresState) : Prop := s.sl_pos = s.data.length

/-- Invariant of the loops of the 140x192 branch.  With `14 i - dotc` stream bits
consumed, a multiple of 8: `dots` holds exactly the `dotc` pending stream bits,
and the buffer holds the padding and one reference word per 8 consumed bits. -/
def Color140Inv (E : Env) (line : Nat) (s : DhiresState) : Prop :=
  s.i ≤ 40 ∧ s.dotc ≤ 14 * s.i ∧ s.dotc ≤ 32 ∧ (14 * s.i - s.dotc) % 8 = 0
    ∧ (∀ t, s.dots.testBit t
        = (decide (t < s.dotc) && dhires_stream_bit E line (14 * s.i - s.dotc + t)))
    ∧ s.data = left_padding E
        ++ (List.range ((14 * s.i - s.dotc) / 8)).map (color140_ref_word E line)
    ∧ s.sl_pos = 3 + (14 * s.i - s.dotc) / 8

/-- Invariant of the consuming loop of the mixed branch.  With `14 i - dotc`
stream bits consumed: `dots` holds the pending stream bits, `pixelmode` their
flags, and the buffer holds the padding and the words of the groups drawn. -/
def MixInv (E : Env) (line : Nat) (s : DhiresState) : Prop :=
  s.i ≤ 40 ∧ s.i % 2 = 0 ∧ s.dotc ≤ 28 ∧ s.dotc ≤ 14 * s.i ∧ s.dotc % 4 = 0
    ∧ (∀ t, s.dots.testBit t
        = (decide (t < s.dotc) && dhires_stream_bit E line (14 * s.i - s.dotc + t)))
    ∧ (∀ t, s.pixelmode.testBit t
        = (decide (t < s.dotc) && dhires_flag_bit E line (14 * s.i - s.dotc + t)))
    ∧ s.data = left_padding E
        ++ (List.range ((14 * s.i - s.dotc) / 4)).flatMap (mix_group_words E line)
    ∧ s.sl_pos = s.data.length

/-! ### Concrete environments -/

/-- The environment `E` with the scanline-emulation flag set to `b`. -/
def with_emulation (E : Env) (b : Bool) : Env :=
  { E with soft_scanline_emulation := b }

/-- The environment `E` with the sub-mode selector set to `m`. -/
def with_video7_mode (E : Env) (m : Video7Mode) : Env :=
  { E with soft_video7_mode := m }

/-- An environment with concrete header values, used to instantiate the
statements: all pages hold `0x2A`, the tables are simple arithmetic. -/
def demo_env : Env :=
  { APPLE_MODEL_IIE := true
    THEN_WAIT_HSYNC := 3 <<< 9
    THEN_EXTEND_1 := 4 <<< 9
    THEN_EXTEND_3 := 6 <<< 9
    THEN_EXTEND_7 := 7 <<< 9
    hires_dot_patterns := fun b => (b * 37) % 16384
    hires_color_patterns := fun p => p % 512
    dhgr_palette := fun n => n + 1
    lores_palette := fun n => n + 17
    mono_bg_color := 0
    mono_fg_color := 511
    SOFTSW_PAGE_2 := false
    soft_80store := false
    soft_80col := true
    soft_dhires := true
    soft_monochrom := false
    soft_scanline_emulation := false
    soft_video7_mode := Video7Mode.VIDEO7_MODE_140x192
    hgr_p1 := fun _ => 0x2A
    hgr_p2 := fun _ => 0x2A
    hgr_p3 := fun _ => 0x2A
    hgr_p4 := fun _ => 0x2A }

/-- Extend counts for the flag values of the concrete environment: the flag is
the field above the 9 colour bits. -/
def demo_ext (h : Nat) : Nat :=
  if h >>> 9 = 7 then 7 else if h >>> 9 = 6 then 3 else if h >>> 9 = 4 then 1 else 0

/-- The concrete environment with an all-zero main page and double resolution
switched off. -/
def zero_env : Env :=
  { demo_env with soft_dhires := false, hgr_p1 := fun _ => 0 }

/-- A concrete mixed-mode line: main byte 0 is `0x80` (no dots, pixel-mode flag
set), every other byte of both planes is 0. -/
def flag_env : Env :=
  { demo_env with
    soft_video7_mode := Video7Mode.VIDEO7_MODE_MIX
    hgr_p1 := fun a => if a = 0 then 0x80 else 0
    hgr_p3 := fun _ => 0 }

/-- The concrete environment with every byte of both planes `0xAA`: the dots of
`0x2A` with the pixel-mode flag set. -/
def flags_set_env : Env :=
  { demo_env with hgr_p1 := fun _ => 0xAA, hgr_p3 := fun _ => 0xAA }

/-- A concrete 560x192 line: monochrome on, the auxiliary plane alternating
`0x00`, `0x7F` on successive bytes, the main plane `0x00` throughout. -/
def alt_env : Env :=
  { demo_env with
    soft_monochrom := true
    hgr_p1 := fun _ => 0
    hgr_p3 := fun a => if a % 2 = 0 then 0x00 else 0x7F }

/-- The line decoder a frame uses for every graphics line: the double-resolution
one when `use_dhires` holds, the single-resolution one otherwise. -/
def frame_decoder (E : Env) (line : Nat) : vga_scanline :=
  if use_dhires E then render_dhires_line E line else render_hires_line E line

/-- The concrete environment in the mixed sub-mode with the monochrome colours
set to `dhgr_palette[0]` and `dhgr_palette[15]`; its pages hold `0x2A`, so no
byte has bit 7 set. -/
def mix_plain_env : Env :=
  { demo_env with
    soft_video7_mode := Video7Mode.VIDEO7_MODE_MIX
    mono_bg_color := 1
    mono_fg_color := 16 }

/-- What the width count assumes of the driver and of the header constants: all
half-word values are 16-bit; the driver reads the extend count `ext` of a
half-word as 7, 3, 1 for the three extend flags OR-ed onto a colour and as 0 for
a palette or monochrome colour without a flag; and no half-word of a data or
padding word is the line-hold marker. -/
structure DriverReads (E : Env) (ext : Nat → Nat) : Prop where
  wait_lt : E.THEN_WAIT_HSYNC < 2 ^ 16
  extend_1_lt : E.THEN_EXTEND_1 < 2 ^ 16
  extend_3_lt : E.THEN_EXTEND_3 < 2 ^ 16
  extend_7_lt : E.THEN_EXTEND_7 < 2 ^ 16
  dhgr_lt : ∀ n < 16, E.dhgr_palette n < 2 ^ 16
  lores_lt : ∀ n < 16, E.lores_palette n < 2 ^ 16
  bg_lt : E.mono_bg_color < 2 ^ 16
  fg_lt : E.mono_fg_color < 2 ^ 16
  ext_pad_7 : ext E.THEN_EXTEND_7 = 7
  ext_pad_3 : ext E.THEN_EXTEND_3 = 3
  ext_bg : ext E.mono_bg_color = 0
  ext_fg : ext E.mono_fg_color = 0
  ext_dhgr : ∀ n < 16, ext (E.dhgr_palette n) = 0
  ext_dhgr_1 : ∀ n < 16, ext (E.dhgr_palette n ||| E.THEN_EXTEND_1) = 1
  ext_dhgr_3 : ∀ n < 16, ext (E.dhgr_palette n ||| E.THEN_EXTEND_3) = 3
  ext_lores_3 : ∀ n < 16, ext (E.lores_palette n ||| E.THEN_EXTEND_3) = 3
  pad_7_ne : E.THEN_EXTEND_7 ≠ E.THEN_WAIT_HSYNC
  pad_3_ne : E.THEN_EXTEND_3 ≠ E.THEN_WAIT_HSYNC
  bg_ne : E.mono_bg_color ≠ E.THEN_WAIT_HSYNC
  fg_ne : E.mono_fg_color ≠ E.THEN_WAIT_HSYNC
  dhgr_ne : ∀ n < 16, E.dhgr_palette n ≠ E.THEN_WAIT_HSYNC
  dhgr_1_ne : ∀ n < 16, E.dhgr_palette n ||| E.THEN_EXTEND_1 ≠ E.THEN_WAIT_HSYNC
  dhgr_3_ne : ∀ n < 16, E.dhgr_palette n ||| E.THEN_EXTEND_3 ≠ E.THEN_WAIT_HSYNC
  lores_3_ne : ∀ n < 16, E.lores_palette n ||| E.THEN_EXTEND_3 ≠ E.THEN_WAIT_HSYNC

/-! ### The nested `while` loops as a step machine -/

/-- Program points of the nested loops of the 140x192 and mixed branches: at the
test of `while (i < 40)`, at the test of `while ((dotc <= 18) && (i < 40))`, at
the test of the consuming `while (dotc >= ...)`, and past the outer loop. -/
inductive LoopPoint where
  | outer
  | load
  | draw
  | done
  deriving DecidableEq, Repr

/-- One step of the nested loops `while (i < 40) { while ((dotc <= 18) && (i <
40)) load; while (dotc >= thr) draw; }`: the test at the current program point
and, when it holds, one execution of that loop's body. -/
def while_step (thr : Nat) (load_body draw_body : DhiresState → DhiresState)
    (c : LoopPoint × DhiresState) : LoopPoint × DhiresState :=
  match c.1 with
  | LoopPoint.outer => if c.2.i < 40 then (LoopPoint.load, c.2) else (LoopPoint.done, c.2)
  | LoopPoint.load =>
    if c.2.dotc ≤ 18 ∧ c.2.i < 40 then (LoopPoint.load, load_body c.2)
    else (LoopPoint.draw, c.2)
  | LoopPoint.draw =>
    if c.2.dotc ≥ thr then (LoopPoint.draw, draw_body c.2) else (LoopPoint.outer, c.2)
  | LoopPoint.done => c

/-- The loops of the 140x192 branch, step by step. -/
def color140_step (E : Env) (line : Nat) :
    LoopPoint × DhiresState → LoopPoint × DhiresState :=
  while_step 8 (color140_load_pair E line) (color140_draw_pair E)

/-- The loops of the mixed branch, step by step. -/
def mix_step (E : Env) (line : Nat) : LoopPoint × DhiresState → LoopPoint × DhiresState :=
  while_step 4 (mix_load_pair E line) (mix_draw_group E)

/-- The state in which the 140x192 and mixed branches enter their outer loop:
the padding written, nothing loaded. -/
def loops_start (E : Env) : DhiresState :=
  { data := left_padding E, sl_pos := 3, i := 0, dotc := 0, dots := 0, pixelmode := 0 }

/-- Whether the step taken from `c` executes the body of the loading loop. -/
def runs_load (c : LoopPoint × DhiresState) : Bool :=
  decide (c.1 = LoopPoint.load ∧ c.2.dotc ≤ 18 ∧ c.2.i < 40)

/-- Whether the step taken from `c` executes the body of the consuming loop. -/
def runs_draw (thr : Nat) (c : LoopPoint × DhiresState) : Bool :=
  decide (c.1 = LoopPoint.draw ∧ c.2.dotc ≥ thr)

/-- Number of the first `n` steps from `c` at which `p` holds. -/
def count_steps {σ : Type} (p : σ → Bool) (step : σ → σ) : Nat → σ → Nat
  | 0, _ => 0
  | n + 1, c => (if p c then 1 else 0) + count_steps p step n (step c)

/-- The loop counters of a configuration: program point, `i` and `dotc`. -/
def counters (c : LoopPoint × DhiresState) : LoopPoint × Nat × Nat :=
  (c.1, c.2.i, c.2.dotc)

/-- The nested loops on the counters alone: a load adds 1 to `i` and 14 to
`dotc`, a draw takes `thr` from `dotc`. -/
def counter_step (thr : Nat) (k : LoopPoint × Nat × Nat) : LoopPoint × Nat × Nat :=
  match k.1 with
  | LoopPoint.outer =>
    if k.2.1 < 40 then (LoopPoint.load, k.2.1, k.2.2) else (LoopPoint.done, k.2.1, k.2.2)
  | LoopPoint.load =>
    if k.2.2 ≤ 18 ∧ k.2.1 < 40 then (LoopPoint.load, k.2.1 + 1, k.2.2 + 14)
    else (LoopPoint.draw, k.2.1, k.2.2)
  | LoopPoint.draw =>
    if k.2.2 ≥ thr then (LoopPoint.draw, k.2.1, k.2.2 - thr) else (LoopPoint.outer, k.2.1, k.2.2)
  | LoopPoint.done => k

/-- The counters after each of the first `n` steps, the start included. -/
def counter_run (thr : Nat) : Nat → LoopPoint × Nat × Nat → List (LoopPoint × Nat × Nat)
  | 0, k => [k]
  | n + 1, k => k :: counter_run thr n (counter_step thr k)

/-- The accumulator holds exactly the next `dotc` stream bits, the earliest in
bit 0: with `14 i - dotc` bits consumed, a multiple of 4, bit `t` of `dots` is
stream bit `14 i - dotc + t` for `t < dotc` and 0 above. -/
def PendingBits (E : Env) (line : Nat) (s : DhiresState) : Prop :=
  s.i ≤ 40 ∧ s.dotc ≤ 14 * s.i ∧ s.dotc ≤ 32 ∧ (14 * s.i - s.dotc) % 4 = 0
    ∧ ∀ t, s.dots.testBit t
        = (decide (t < s.dotc) && dhires_stream_bit E line (14 * s.i - s.dotc + t))

/-- The configuration of the 140x192 loops after `n` steps of a line. -/
def color140_config (E : Env) (line n : Nat) : LoopPoint × DhiresState :=
  (color140_step E line)^[n] (LoopPoint.outer, loops_start E)

/-- The configuration of the mixed loops after `n` steps of a line. -/
def mix_config (E : Env) (line n : Nat) : LoopPoint × DhiresState :=
  (mix_step E line)^[n] (LoopPoint.outer, loops_start E)

/-- A load at pending count `dotc` fits the 32-bit accumulator: `dotc` is at most
18 before it and at most 32 after it, and neither 7-bit field is shifted past bit
31. -/
def LoadFits (E : Env) (line : Nat) (s : DhiresState) : Prop :=
  s.dotc ≤ 18 ∧ s.dotc + 14 ≤ 32
    ∧ (line_mem_odd E line s.i &&& 0x7f) <<< s.dotc < 2 ^ 32
    ∧ (line_mem_even E line s.i &&& 0x7f) <<< (s.dotc + 7) < 2 ^ 32

/-! ### The words written before the finalization -/

/-- The words `render_hires_line` has written, `sl->data[0 .. sl_pos - 1]`, when
it reaches the test of `soft_scanline_emulation`. -/
def hires_body (E : Env) (line : Nat) : List Nat :=
  (for_loop (hires_byte E line) 40 1 (hires_start E line)).data

/-- The words `render_dhires_line` has written, `sl->data[0 .. sl_pos - 1]`,
when it reaches the test of `soft_scanline_emulation`. -/
def dhires_body (E : Env) (line : Nat) : List Nat :=
  (dhires_decode E line (dhires_pad E dhires_start)).data

/-- Number of words the decoding loops of `render_dhires_line` write, padding
included, by sub-mode. -/
def dhires_word_count (E : Env) (line : Nat) : Nat :=
  match dhires_mode E with
  | Video7Mode.VIDEO7_MODE_560x192 => 3 + 280
  | Video7Mode.VIDEO7_MODE_160x192 => 80
  | Video7Mode.VIDEO7_MODE_MIX =>
    3 + ((List.range 140).flatMap (mix_group_words E line)).length
  | Video7Mode.VIDEO7_MODE_140x192 => 3 + 70

/-! ## Loop and word lemmas -/

theorem for_loop_add {σ : Type} (body : Nat → σ → σ) (m n start : Nat) (s : σ) :
    for_loop body (m + n) start s = for_loop body n (start + m) (for_loop body m start s) := by
  induction m generalizing start s with
  | zero => simp [for_loop]
  | succ m ih =>
    rw [Nat.succ_add, for_loop, ih, for_loop]
    congr 1
    omega

/-- Invariant rule for a counted loop. -/
theorem for_loop_invariant {σ : Type} (P : Nat → σ → Prop) (body : Nat → σ → σ)
    (n start : Nat) (s : σ) (h0 : P start s)
    (hstep : ∀ i t, start ≤ i → i < start + n → P i t → P (i + 1) (body i t)) :
    P (start + n) (for_loop body n start s) := by
  induction n generalizing start s with
  | zero => simpa [for_loop] using h0
  | succ n ih =>
    rw [for_loop]
    have := ih (start + 1) (body start s) (hstep start s (Nat.le_refl _) (by omega) h0)
      (fun i t h1 h2 hp => hstep i t (by omega) (by omega) hp)
    rwa [show start + (n + 1) = start + 1 + n by omega]

theorem and_127 (x : Nat) : x &&& 127 = x % 2 ^ 7 := Nat.and_pow_two_sub_one_eq_mod x 7
theorem and_255 (x : Nat) : x &&& 255 = x % 2 ^ 8 := Nat.and_pow_two_sub_one_eq_mod x 8
theorem and_15 (x : Nat) : x &&& 15 = x % 2 ^ 4 := Nat.and_pow_two_sub_one_eq_mod x 4
theorem and_3 (x : Nat) : x &&& 3 = x % 2 ^ 2 := Nat.and_pow_two_sub_one_eq_mod x 2

theorem testBit_u32 (x i : Nat) : (u32 x).testBit i = (decide (i < 32) && x.testBit i) := by
  unfold u32
  exact Nat.testBit_mod_two_pow x 32 i

theorem u32_of_lt {x : Nat} (h : x < 2 ^ 32) : u32 x = x := Nat.mod_eq_of_lt h

/-- A word built as `(hi << 16) | lo` from two 16-bit values has them as halves. -/
theorem halfword_pair {lo hi : Nat} (hlo : lo < 2 ^ 16) (hhi : hi < 2 ^ 16) :
    halfword (u32 (u32 (u32 hi <<< 16) ||| lo)) 0 = lo
      ∧ halfword (u32 (u32 (u32 hi <<< 16) ||| lo)) 1 = hi := by
  have h1 : ∀ i, 16 ≤ i → lo.testBit i = false := fun i hi' =>
    Nat.testBit_lt_two_pow (lt_of_lt_of_le hlo (Nat.pow_le_pow_right (by norm_num) hi'))
  have h2 : ∀ i, 16 ≤ i → hi.testBit i = false := fun i hi' =>
    Nat.testBit_lt_two_pow (lt_of_lt_of_le hhi (Nat.pow_le_pow_right (by norm_num) hi'))
  constructor
  · apply Nat.eq_of_testBit_eq
    intro i
    simp only [halfword, Nat.testBit_mod_two_pow, Nat.testBit_shiftRight, testBit_u32,
      Nat.testBit_or, Nat.testBit_shiftLeft, Nat.mul_zero, Nat.zero_add]
    by_cases hi16 : i < 16
    · have : ¬ i ≥ 16 := by omega
      have : i < 32 := by omega
      simp [*]
    · simp [hi16, h1 i (by omega)]
  · apply Nat.eq_of_testBit_eq
    intro i
    simp only [halfword, Nat.testBit_mod_two_pow, Nat.testBit_shiftRight, testBit_u32,
      Nat.testBit_or, Nat.testBit_shiftLeft, Nat.mul_one]
    by_cases hi16 : i < 16
    · have : 16 + i ≥ 16 := by omega
      have : 16 + i < 32 := by omega
      have : 16 + i - 16 = i := by omega
      have : i < 32 := by omega
      simp [*, h1 (16 + i) (by omega)]
    · simp [hi16, h2 i (by omega)]

theorem finish_scanline_data (E : Env) (d : List Nat) (p : Nat) :
    (finish_scanline E d p).data = d ++ line_hold_tail E := by
  unfold finish_scanline line_hold_tail
  split <;> simp

theorem finish_scanline_length (E : Env) (d : List Nat) (p : Nat) :
    (finish_scanline E d p).length = p + (line_hold_tail E).length := by
  unfold finish_scanline line_hold_tail
  split <;> simp

theorem length_flatMap_range {α : Type} (g : Nat → List α) (L : Nat)
    (hL : ∀ c, (g c).length = L) (n : Nat) : ((List.range n).flatMap g).length = L * n := by
  induction n with
  | zero => simp
  | succ n ih =>
    rw [List.range_succ, List.flatMap_append, List.length_append, ih]
    simp [hL, Nat.mul_succ]

/-- Indexing into a concatenation of equally long chunks. -/
theorem getElem?_flatMap_range {α : Type} (g : Nat → List α) (L : Nat)
    (hL : ∀ c, (g c).length = L) (n c j : Nat) (hc : c < n) (hj : j < L) :
    ((List.range n).flatMap g)[L * c + j]? = (g c)[j]? := by
  induction n with
  | zero => omega
  | succ n ih =>
    rw [List.range_succ, List.flatMap_append]
    have hlen := length_flatMap_range g L hL n
    by_cases h : c < n
    · have : L * c + j < L * n := by
        have : L * (c + 1) ≤ L * n := Nat.mul_le_mul_left L h
        rw [Nat.mul_succ] at this
        omega
      rw [List.getElem?_append_left (by omega), ih h]
    · have hcn : c = n := by omega
      subst hcn
      rw [List.getElem?_append_right (by omega), hlen]
      simp

theorem byte_lt (E : Env) (line i : Nat) :
    line_mem_odd E line i < 256 ∧ line_mem_even E line i < 256 :=
  ⟨Nat.mod_lt _ (by norm_num), Nat.mod_lt _ (by norm_num)⟩

theorem halfword_pixel_pair {lo hi : Nat} (hlo : lo < 2 ^ 16) (hhi : hi < 2 ^ 16) :
    halfword (pixel_pair lo hi) 0 = lo ∧ halfword (pixel_pair lo hi) 1 = hi := by
  have h := halfword_pair hlo hhi
  have e : u32 (u32 (u32 hi <<< 16) ||| lo) = pixel_pair lo hi := by
    apply Nat.eq_of_testBit_eq
    intro i
    have h1 : 16 ≤ i → lo.testBit i = false := fun hi' =>
      Nat.testBit_lt_two_pow (lt_of_lt_of_le hlo (Nat.pow_le_pow_right (by norm_num) hi'))
    have h2 : 16 ≤ i - 16 → hi.testBit (i - 16) = false := fun hi' =>
      Nat.testBit_lt_two_pow (lt_of_lt_of_le hhi (Nat.pow_le_pow_right (by norm_num) hi'))
    simp only [pixel_pair, testBit_u32, Nat.testBit_or, Nat.testBit_shiftLeft]
    by_cases c1 : i < 16
    · have : ¬ i ≥ 16 := by omega
      have : i < 32 := by omega
      simp [*, Bool.or_comm]
    · by_cases c2 : i < 32
      · have : i ≥ 16 := by omega
        have : i - 16 < 32 := by omega
        simp [*, h1 (by omega), Bool.or_comm]
      · simp [c2, h1 (by omega), h2 (by omega)]
  rw [e] at h
  exact h

theorem u32_pixel_pair {lo hi : Nat} (hlo : lo < 2 ^ 16) (hhi : hi < 2 ^ 16) :
    u32 lo ||| u32 (u32 hi <<< 16) = pixel_pair lo hi := by
  have h1 : u32 lo = lo := u32_of_lt (by omega)
  have h2 : u32 hi = hi := u32_of_lt (by omega)
  have h3 : hi <<< 16 < 2 ^ 32 := by
    rw [Nat.shiftLeft_eq]
    omega
  rw [h1, h2, u32_of_lt h3, pixel_pair]

theorem or_lt_16 {a b : Nat} (ha : a < 2 ^ 16) (hb : b < 2 ^ 16) : a ||| b < 2 ^ 16 :=
  Nat.or_lt_two_pow ha hb

theorem and_15_lt (x : Nat) : x &&& 0xF < 16 := by
  have := and_15 x
  have : x % 2 ^ 4 < 16 := Nat.mod_lt _ (by norm_num)
  omega

/-- For 16-bit palette entries and flag, the word the 160x192 branch builds is the
pair of its two pixels. -/
theorem color160_word_eq (E : Env) (b : Nat) (hpal : ∀ n < 16, E.lores_palette n < 2 ^ 16)
    (hext : E.THEN_EXTEND_3 < 2 ^ 16) : color160_word E b = color160_pair E b := by
  unfold color160_word color160_pair
  exact u32_pixel_pair (or_lt_16 (hpal _ (and_15_lt b)) hext)
    (or_lt_16 (hpal _ (and_15_lt (b >>> 4))) hext)

theorem color160_loop_data (E : Env) (line : Nat) (s : DhiresState) (n : Nat)
    (hpal : ∀ n < 16, E.lores_palette n < 2 ^ 16) (hext : E.THEN_EXTEND_3 < 2 ^ 16) :
    (for_loop (color160_column E line) n 0 s).data
        = s.data ++ (List.range n).flatMap
            (fun c => [color160_pair E (line_mem_odd E line c),
                       color160_pair E (line_mem_even E line c)])
      ∧ (for_loop (color160_column E line) n 0 s).sl_pos = s.sl_pos + 2 * n := by
  have := for_loop_invariant
    (fun i (t : DhiresState) =>
      t.data = s.data ++ (List.range i).flatMap
            (fun c => [color160_pair E (line_mem_odd E line c),
                       color160_pair E (line_mem_even E line c)])
        ∧ t.sl_pos = s.sl_pos + 2 * i)
    (color160_column E line) n 0 s (by simp)
    (by
      intro i t _ _ ⟨hd, hp⟩
      constructor
      · simp [color160_column, hd, List.range_succ, List.flatMap_append,
          color160_word_eq E _ hpal hext]
      · simp [color160_column, hp]
        omega)
  simpa using this

/-- The state the decoding loops start from when the padding is written. -/
theorem dhires_pad_eq (E : Env) (h : dhires_mode E ≠ Video7Mode.VIDEO7_MODE_160x192) :
    dhires_pad E dhires_start
      = { data := left_padding E, sl_pos := 3, i := 0, dotc := 0, dots := 0, pixelmode := 0 } := by
  unfold dhires_pad
  rw [if_pos h]
  rfl

theorem dhires_mode_of (E : Env) (m : Video7Mode) (hmono : E.soft_monochrom = false)
    (hmode : E.soft_video7_mode = m) : dhires_mode E = m := by
  unfold dhires_mode
  rw [hmono, hmode]
  rfl

theorem render_dhires_line_160_eq (E : Env) (line : Nat)
    (hmono : E.soft_monochrom = false)
    (hmode : E.soft_video7_mode = Video7Mode.VIDEO7_MODE_160x192) :
    render_dhires_line E line
      = finish_scanline E (for_loop (color160_column E line) 40 0 dhires_start).data
          (for_loop (color160_column E line) 40 0 dhires_start).sl_pos := by
  have hm := dhires_mode_of E _ hmono hmode
  unfold render_dhires_line dhires_decode dhires_pad
  rw [hm]
  rfl

/-! ## Single-resolution renderer: the sliding window -/

/-- Closed form of the reference stream: only the dot before a byte boundary is
carried, and that dot is itself never altered. -/
theorem dot_stream_eq (E : Env) (line p : Nat) :
    dot_stream E line p
      = (raw_dot E line p
          || (decide (p % 14 = 0 ∧ 1 ≤ p) && (hires_line_byte E line (p / 14)).testBit 7
              && raw_dot E line (p - 1))) := by
  cases p with
  | zero => simp [dot_stream]
  | succ p =>
    rw [dot_stream]
    by_cases h : (p + 1) % 14 = 0
    · have hp : dot_stream E line p = raw_dot E line p := by
        cases p with
        | zero => rfl
        | succ p =>
          rw [dot_stream]
          have : ¬ (p + 1) % 14 = 0 := by omega
          simp [this]
      simp [h, hp]
    · simp [h]

theorem dot_at_ofNat (E : Env) (line p : Nat) (x : Int) (h : x = (p : Int)) :
    dot_at E line x = dot_stream E line p := by
  subst h
  simp [dot_at]

theorem dot_at_neg (E : Env) (line : Nat) (x : Int) (h : x < 0) :
    dot_at E line x = false := by
  simp [dot_at, h]

/-- A byte value as the sum of its bits. -/
theorem byte_eq_bits (x : Nat) (hx : x < 256) :
    x = 128 * (x.testBit 7).toNat + 64 * (x.testBit 6).toNat + 32 * (x.testBit 5).toNat
      + 16 * (x.testBit 4).toNat + 8 * (x.testBit 3).toNat + 4 * (x.testBit 2).toNat
      + 2 * (x.testBit 1).toNat + (x.testBit 0).toNat := by
  have e : ∀ i, (x.testBit i).toNat = x / 2 ^ i % 2 := by
    intro i
    rw [Nat.testBit_to_div_mod]
    by_cases h : x / 2 ^ i % 2 = 1
    · simp [h]
    · have : x / 2 ^ i % 2 = 0 := by omega
      simp [this]
  rw [e, e, e, e, e, e, e, e]
  norm_num
  omega

theorem testBit_of_lt_pow14 {x : Nat} (hx : x < 2 ^ 14) (i : Nat) (hi : 14 ≤ i) :
    x.testBit i = false :=
  Nat.testBit_lt_two_pow (lt_of_lt_of_le hx (Nat.pow_le_pow_right (by norm_num) hi))

/-- The invariant holds when the loop over the bytes is entered. -/
theorem hires_inv_start (E : Env) (line : Nat)
    (hP : E.hires_dot_patterns (hires_line_byte E line 0) < 2 ^ 14) :
    HiresInv E line 0 15 (hires_start E line) := by
  have hb : hires_line_byte E line 0 = line_mem_even E line 0 := by
    simp [hires_line_byte]
  rw [hb] at hP
  refine ⟨?_, rfl, rfl, rfl⟩
  intro q
  have hu : u32 (E.hires_dot_patterns (line_mem_even E line 0))
      = E.hires_dot_patterns (line_mem_even E line 0) := u32_of_lt (by omega)
  simp only [hires_start, Nat.zero_or, hu, testBit_u32, Nat.testBit_shiftLeft]
  by_cases h1 : q < 32
  · by_cases h2 : 15 ≤ q
    · by_cases h3 : q ≤ 28
      · have e := dot_at_ofNat E line (28 - q) (2 * ((0 : Nat) : Int) + 28 - (q : Int)) (by omega)
        rw [e, dot_stream_eq]
        have h4 : (28 - q) / 14 = 0 := by omega
        have h5 : 13 - (28 - q) % 14 = q - 15 := by omega
        have h6 : ¬ ((28 - q) % 14 = 0 ∧ 1 ≤ 28 - q) := by omega
        simp [raw_dot, h4, h5, h6, h1, h2, hb]
      · have e := dot_at_neg E line (2 * ((0 : Nat) : Int) + 28 - (q : Int)) (by omega)
        rw [e]
        simp [testBit_of_lt_pow14 hP (q - 15) (by omega)]
    · have : ¬ q ≥ 15 := by omega
      simp [h2, this]
  · simp [h1]

theorem phase_flip (n : Nat) : ((n % 2) <<< 8) ^^^ 0x100 = ((n + 1) % 2) <<< 8 := by
  rcases Nat.mod_two_eq_zero_or_one n with h | h
  · have : (n + 1) % 2 = 1 := by omega
    rw [h, this]
    rfl
  · have : (n + 1) % 2 = 0 := by omega
    rw [h, this]
    rfl

/-- The top byte of `dots` is the reference window of the pixel being drawn. -/
theorem hires_window_eq (E : Env) (line n lo : Nat) (s : HiresState)
    (h : HiresInv E line n lo s) (hlo : lo ≤ 24) :
    (s.dots >>> 24) &&& 0xff = dot_window E line n := by
  have hb : ∀ j, j < 8 → ((s.dots >>> 24) &&& 0xff).testBit j
      = dot_at E line (2 * (n : Int) + 28 - ((24 + j : Nat) : Int)) := by
    intro j hj
    rw [and_255, Nat.testBit_mod_two_pow, Nat.testBit_shiftRight, h.1 (24 + j)]
    have : lo ≤ 24 + j ∧ 24 + j < 32 := by omega
    simp [hj, this]
  have hlt : (s.dots >>> 24) &&& 0xff < 256 := by
    rw [and_255]
    exact Nat.mod_lt _ (by norm_num)
  rw [byte_eq_bits _ hlt, hb 7 (by omega), hb 6 (by omega), hb 5 (by omega), hb 4 (by omega),
    hb 3 (by omega), hb 2 (by omega), hb 1 (by omega), hb 0 (by omega)]
  unfold dot_window
  have e : ∀ a b : Int, a = b → dot_at E line a = dot_at E line b := fun a b h => by rw [h]
  rw [e (2 * (n : Int) + 28 - ((24 + 7 : Nat) : Int)) (2 * (n : Int) - 3) (by omega),
    e (2 * (n : Int) + 28 - ((24 + 6 : Nat) : Int)) (2 * (n : Int) - 2) (by omega),
    e (2 * (n : Int) + 28 - ((24 + 5 : Nat) : Int)) (2 * (n : Int) - 1) (by omega),
    e (2 * (n : Int) + 28 - ((24 + 4 : Nat) : Int)) (2 * (n : Int)) (by omega),
    e (2 * (n : Int) + 28 - ((24 + 3 : Nat) : Int)) (2 * (n : Int) + 1) (by omega),
    e (2 * (n : Int) + 28 - ((24 + 2 : Nat) : Int)) (2 * (n : Int) + 2) (by omega),
    e (2 * (n : Int) + 28 - ((24 + 1 : Nat) : Int)) (2 * (n : Int) + 3) (by omega),
    e (2 * (n : Int) + 28 - ((24 + 0 : Nat) : Int)) (2 * (n : Int) + 4) (by omega)]

/-- One pixel: the word written is the reference word, and the invariant moves on. -/
theorem hires_inv_pixel (E : Env) (line n lo : Nat) (s : HiresState)
    (h : HiresInv E line n lo s) (hlo : lo ≤ 24) :
    HiresInv E line (n + 1) (lo + 2) (hires_pixel E s) := by
  have hw := hires_window_eq E line n lo s h hlo
  obtain ⟨hbits, hodd, hdata, hpos⟩ := h
  refine ⟨?_, ?_, ?_, ?_⟩
  · intro q
    simp only [hires_pixel, testBit_u32, Nat.testBit_shiftLeft]
    by_cases h1 : q < 32
    · by_cases h2 : lo + 2 ≤ q
      · have h3 : q ≥ 2 := by omega
        have h4 : lo ≤ q - 2 ∧ q - 2 < 32 := by omega
        have h5 : (2 * (n : Int) + 28 - ((q - 2 : Nat) : Int))
            = 2 * ((n + 1 : Nat) : Int) + 28 - (q : Int) := by omega
        rw [hbits (q - 2), h5]
        simp [h1, h2, h3, h4]
      · by_cases h3 : q ≥ 2
        · have h4 : ¬ (lo ≤ q - 2 ∧ q - 2 < 32) := by omega
          rw [hbits (q - 2)]
          simp [h1, h2, h4]
        · simp [h1, h2, h3]
    · simp [h1]
  · simp only [hires_pixel]
    rw [hodd]
    exact phase_flip n
  · simp only [hires_pixel]
    rw [hdata, hodd, hw, List.range_succ, List.map_append, List.append_assoc]
    rfl
  · simp only [hires_pixel]
    omega

theorem and_128_ne_zero (b : Nat) : (b &&& 0x80 ≠ 0) ↔ b.testBit 7 = true := by
  have h : ∀ j, (b &&& 0x80).testBit j = (b.testBit j && decide (7 = j)) := by
    intro j
    rw [Nat.testBit_and, show (0x80 : Nat) = 2 ^ 7 by norm_num, Nat.testBit_two_pow]
  constructor
  · intro hne
    by_contra hb
    apply hne
    apply Nat.eq_of_testBit_eq
    intro j
    rw [h j, Nat.zero_testBit]
    by_cases hj : 7 = j
    · subst hj
      simp [hb]
    · simp [hj]
  · intro hb hz
    have := h 7
    rw [hz, hb] at this
    simp at this

/-- Bits of `dots` after the carry and the OR of the next byte's 14 dots. -/
theorem hires_load_testBit (d b p q : Nat) :
    ((if b &&& 0x80 ≠ 0 then d ||| ((d &&& (1 <<< 15)) >>> 1) else d)
        ||| u32 (u32 p <<< 1)).testBit q
      = (d.testBit q || (b.testBit 7 && decide (q = 14) && d.testBit 15)
          || (decide (q < 32) && decide (1 ≤ q) && (u32 p).testBit (q - 1))) := by
  have h15 : ((d &&& (1 <<< 15)) >>> 1).testBit q = (decide (q = 14) && d.testBit 15) := by
    rw [Nat.testBit_shiftRight, Nat.testBit_and, Nat.one_shiftLeft, Nat.testBit_two_pow]
    by_cases hq : q = 14
    · subst hq
      simp
    · have : ¬ 15 = 1 + q := by omega
      simp [hq, this]
  rw [Nat.testBit_or, testBit_u32, Nat.testBit_shiftLeft]
  by_cases hb : b.testBit 7 = true
  · rw [if_pos ((and_128_ne_zero b).2 hb), Nat.testBit_or, h15, hb]
    simp [Bool.and_assoc]
  · rw [if_neg (fun h => hb ((and_128_ne_zero b).1 h))]
    simp [hb, Bool.and_assoc]

/-- Loading byte `c + 1` extends the invariant down to bit 1. -/
theorem hires_inv_load (E : Env) (line c : Nat) (s : HiresState)
    (h : HiresInv E line (7 * c) 15 s)
    (hP : E.hires_dot_patterns (hires_line_byte E line (c + 1)) < 2 ^ 14) :
    HiresInv E line (7 * c) 1
      { s with dots :=
          (if hires_line_byte E line (c + 1) &&& 0x80 ≠ 0
            then s.dots ||| ((s.dots &&& (1 <<< 15)) >>> 1) else s.dots)
          ||| u32 (u32 (E.hires_dot_patterns (hires_line_byte E line (c + 1))) <<< 1) } := by
  obtain ⟨hbits, hodd, hdata, hpos⟩ := h
  refine ⟨?_, hodd, hdata, hpos⟩
  intro q
  have hu : u32 (E.hires_dot_patterns (hires_line_byte E line (c + 1)))
      = E.hires_dot_patterns (hires_line_byte E line (c + 1)) := u32_of_lt (by omega)
  show ((if hires_line_byte E line (c + 1) &&& 0x80 ≠ 0
            then s.dots ||| ((s.dots &&& (1 <<< 15)) >>> 1) else s.dots)
          ||| u32 (u32 (E.hires_dot_patterns (hires_line_byte E line (c + 1))) <<< 1)).testBit q
      = _
  rw [hires_load_testBit, hu, hbits q, hbits 15]
  have h13 : dot_at E line (2 * ((7 * c : Nat) : Int) + 28 - ((15 : Nat) : Int))
      = raw_dot E line (14 * c + 13) := by
    rw [dot_at_ofNat E line (14 * c + 13) _ (by omega), dot_stream_eq]
    have : ¬ (14 * c + 13) % 14 = 0 := by omega
    simp [this]
  rw [h13]
  by_cases h1 : q < 32
  · by_cases h2 : 15 ≤ q
    · have h3 : ¬ q = 14 := by omega
      have h4 := testBit_of_lt_pow14 hP (q - 1) (by omega)
      have h5 : 1 ≤ q := by omega
      simp [h1, h2, h3, h4, h5]
    · by_cases h3 : 1 ≤ q
      · have e := dot_at_ofNat E line (14 * c + 28 - q)
          (2 * ((7 * c : Nat) : Int) + 28 - (q : Int)) (by omega)
        rw [e, dot_stream_eq]
        have h4 : (14 * c + 28 - q) / 14 = c + 1 := by omega
        have h5 : 13 - (14 * c + 28 - q) % 14 = q - 1 := by omega
        by_cases h6 : q = 14
        · subst h6
          have h7 : (14 * c + 28 - 14) % 14 = 0 ∧ 1 ≤ 14 * c + 28 - 14 := by omega
          have h8 : 14 * c + 28 - 14 - 1 = 14 * c + 13 := by omega
          have h9 : (14 * c + 28 - 14) / 14 = c + 1 := by omega
          simp [raw_dot, h7, h8, h9, Bool.or_comm]
        · have h7 : ¬ ((14 * c + 28 - q) % 14 = 0 ∧ 1 ≤ 14 * c + 28 - q) := by omega
          simp [raw_dot, h1, h2, h3, h4, h5, h6, h7]
      · have : q = 0 := by omega
        subst this
        simp
  · have : ¬ q = 14 := by omega
    simp [h1, this]

/-- One pass of the loop over the bytes: byte `c + 1` is loaded and pixels
`7c .. 7c + 6` are drawn. -/
theorem hires_inv_byte (E : Env) (line c : Nat) (s : HiresState)
    (h : HiresInv E line (7 * c) 15 s)
    (hP : E.hires_dot_patterns (hires_line_byte E line (c + 1)) < 2 ^ 14) :
    HiresInv E line (7 * (c + 1)) 15 (hires_byte E line (c + 1) s) := by
  have h0 := hires_inv_load E line c s h hP
  have h1 := hires_inv_pixel E line _ _ _ h0 (by omega)
  have h2 := hires_inv_pixel E line _ _ _ h1 (by omega)
  have h3 := hires_inv_pixel E line _ _ _ h2 (by omega)
  have h4 := hires_inv_pixel E line _ _ _ h3 (by omega)
  have h5 := hires_inv_pixel E line _ _ _ h4 (by omega)
  have h6 := hires_inv_pixel E line _ _ _ h5 (by omega)
  have h7 := hires_inv_pixel E line _ _ _ h6 (by omega)
  exact h7

/-- After the loop over the bytes the buffer holds the padding and the 280
reference words. -/
theorem hires_inv_line (E : Env) (line : Nat)
    (hP : ∀ m ≤ 40, E.hires_dot_patterns (hires_line_byte E line m) < 2 ^ 14) :
    HiresInv E line 280 15 (for_loop (hires_byte E line) 40 1 (hires_start E line)) := by
  have := for_loop_invariant
    (fun i (t : HiresState) => HiresInv E line (7 * (i - 1)) 15 t)
    (hires_byte E line) 40 1 (hires_start E line)
    (hires_inv_start E line (hP 0 (by omega)))
    (by
      intro i t h1 h2 hinv
      obtain ⟨c, rfl⟩ : ∃ c, i = c + 1 := ⟨i - 1, by omega⟩
      exact hires_inv_byte E line c t hinv (hP (c + 1) (by omega)))
  exact this

theorem hires_line_byte_lt (E : Env) (line m : Nat) : hires_line_byte E line m < 256 := by
  unfold hires_line_byte
  split
  · exact (byte_lt E line m).2
  · norm_num

/-- The buffer of `render_hires_line` when every dot pattern met on the line is a
14-bit value. -/
theorem hires_line_data (E : Env) (line : Nat)
    (hP : ∀ m ≤ 40, E.hires_dot_patterns (hires_line_byte E line m) < 2 ^ 14) :
    (render_hires_line E line).data
        = left_padding E ++ (List.range 280).map (hires_word E line) ++ line_hold_tail E
      ∧ (render_hires_line E line).length = 283 + (line_hold_tail E).length := by
  obtain ⟨_, _, hdata, hpos⟩ := hires_inv_line E line hP
  constructor
  · unfold render_hires_line
    rw [finish_scanline_data]
    exact congrArg (fun l => l ++ line_hold_tail E) hdata
  · unfold render_hires_line
    rw [finish_scanline_length]
    exact congrArg (fun l => l + (line_hold_tail E).length) hpos

/-- C1. Single-resolution decode equals the sliding-window reference: when the
dot table has 14-bit entries, for every line and every `k` below 280 the data
word at buffer index `3 + k` is `hires_color_patterns[((k mod 2) << 8) | W_k]` (as
a 32-bit word), `W_k` being the 8-bit value of the reference dots
`D[2k-3 .. 2k+4]`, `D[2k-3]` most significant. -/
theorem render_hires_line_sliding_window (E : Env) (line k : Nat)
    (hP : ∀ b < 256, E.hires_dot_patterns b < 2 ^ 14) (hk : k < 280) :
    (render_hires_line E line).data[3 + k]?
      = some (u32 (E.hires_color_patterns (((k % 2) <<< 8) ||| dot_window E line k))) := by
  have h := (hires_line_data E line (fun m _ => hP _ (hires_line_byte_lt E line m))).1
  have hpad : (left_padding E).length = 3 := rfl
  rw [h, List.append_assoc, List.getElem?_append_right (by omega), hpad,
    show 3 + k - 3 = k by omega,
    List.getElem?_append_left (by rw [List.length_map, List.length_range]; exact hk),
    List.getElem?_map, List.getElem?_range hk]
  rfl

/-- Instance of C1 in the concrete environment: pixel 5 of line 0. -/
theorem render_hires_line_sliding_window_witness :
    (render_hires_line demo_env 0).data[3 + 5]?
      = some (u32 (demo_env.hires_color_patterns (((5 % 2) <<< 8) ||| dot_window demo_env 0 5))) :=
  render_hires_line_sliding_window demo_env 0 5
    (by intro b _; exact Nat.mod_lt _ (by norm_num)) (by norm_num)

/-! ## 140x192 mode -/

/-- Bits of the accumulator after one byte pair is OR-ed in at position `dotc`. -/
theorem load_pair_testBit (d a b dotc t : Nat) (hdotc : dotc ≤ 18) :
    ((d ||| u32 ((a &&& 0x7f) <<< dotc)) ||| u32 ((b &&& 0x7f) <<< (dotc + 7))).testBit t
      = (d.testBit t
          || (decide (dotc ≤ t ∧ t < dotc + 7) && a.testBit (t - dotc))
          || (decide (dotc + 7 ≤ t ∧ t < dotc + 14) && b.testBit (t - (dotc + 7)))) := by
  simp only [Nat.testBit_or, testBit_u32, Nat.testBit_shiftLeft, and_127,
    Nat.testBit_mod_two_pow]
  by_cases h1 : dotc ≤ t
  · by_cases h2 : t < dotc + 7
    · have h3 : t < 32 := by omega
      have h4 : t - dotc < 7 := by omega
      have h5 : ¬ (dotc + 7 ≤ t) := by omega
      have h6 : ¬ t ≥ dotc + 7 := by omega
      simp [h1, h2, h3, h4, h5, h6]
    · by_cases h3 : t < dotc + 14
      · have h4 : t < 32 := by omega
        have h5 : ¬ t - dotc < 7 := by omega
        have h6 : t - (dotc + 7) < 7 := by omega
        have h7 : dotc + 7 ≤ t := by omega
        simp [h1, h2, h3, h4, h5, h6, h7]
      · have h5 : ¬ t - dotc < 7 := by omega
        have h6 : ¬ t - (dotc + 7) < 7 := by omega
        simp [h2, h3, h5, h6]
  · have h2 : ¬ t ≥ dotc := by omega
    have h3 : ¬ t ≥ dotc + 7 := by omega
    have h4 : ¬ dotc + 7 ≤ t := by omega
    simp [h1, h2, h3, h4]

/-- The pending bits after a load are the old ones followed by the 14 stream bits
of column `i`. -/
theorem dhires_load_bits (E : Env) (line i dotc d : Nat) (hdotc : dotc ≤ 18)
    (hle : dotc ≤ 14 * i)
    (hd : ∀ t, d.testBit t
        = (decide (t < dotc) && dhires_stream_bit E line (14 * i - dotc + t))) (t : Nat) :
    ((d ||| u32 ((line_mem_odd E line i &&& 0x7f) <<< dotc))
        ||| u32 ((line_mem_even E line i &&& 0x7f) <<< (dotc + 7))).testBit t
      = (decide (t < dotc + 7 + 7)
          && dhires_stream_bit E line (14 * (i + 1) - (dotc + 7 + 7) + t)) := by
  rw [load_pair_testBit _ _ _ _ _ hdotc, hd t]
  have hpos : 14 * (i + 1) - (dotc + 7 + 7) + t = 14 * i - dotc + t := by omega
  rw [hpos]
  by_cases h1 : t < dotc
  · have h2 : ¬ dotc ≤ t := by omega
    have h3 : ¬ dotc + 7 ≤ t := by omega
    have h4 : t < dotc + 7 + 7 := by omega
    simp [h1, h2, h3, h4]
  · by_cases h2 : t < dotc + 7
    · have h3 : dotc ≤ t := by omega
      have h4 : ¬ dotc + 7 ≤ t := by omega
      have h5 : t < dotc + 7 + 7 := by omega
      have h6 : (14 * i - dotc + t) % 14 = t - dotc := by omega
      have h7 : (14 * i - dotc + t) / 14 = i := by omega
      have h8 : t - dotc < 7 := by omega
      simp [dhires_stream_bit, h1, h2, h3, h4, h5, h6, h7, h8]
    · by_cases h3 : t < dotc + 14
      · have h4 : dotc ≤ t := by omega
        have h5 : dotc + 7 ≤ t := by omega
        have h6 : t < dotc + 7 + 7 := by omega
        have h7 : (14 * i - dotc + t) % 14 = t - dotc := by omega
        have h8 : (14 * i - dotc + t) / 14 = i := by omega
        have h9 : ¬ t - dotc < 7 := by omega
        have h10 : t - dotc - 7 = t - (dotc + 7) := by omega
        simp [dhires_stream_bit, h1, h2, h3, h4, h5, h6, h7, h8, h9, h10]
      · have h4 : dotc ≤ t := by omega
        have h5 : dotc + 7 ≤ t := by omega
        have h6 : ¬ t < dotc + 7 + 7 := by omega
        simp [h1, h2, h3, h4, h5, h6]

theorem color140_inv_load_pair (E : Env) (line : Nat) (s : DhiresState)
    (h : Color140Inv E line s) (hc : s.dotc ≤ 18 ∧ s.i < 40) :
    Color140Inv E line (color140_load_pair E line s) := by
  obtain ⟨h1, h2, h3, h4, h5, h6, h7⟩ := h
  have hpos : 14 * (s.i + 1) - (s.dotc + 7 + 7) = 14 * s.i - s.dotc := by omega
  refine ⟨?_, ?_, ?_, ?_, ?_, ?_, ?_⟩
  · show s.i + 1 ≤ 40
    omega
  · show s.dotc + 7 + 7 ≤ 14 * (s.i + 1)
    omega
  · show s.dotc + 7 + 7 ≤ 32
    omega
  · show (14 * (s.i + 1) - (s.dotc + 7 + 7)) % 8 = 0
    rw [hpos]
    exact h4
  · intro t
    exact dhires_load_bits E line s.i s.dotc s.dots hc.1 h2 h5 t
  · show s.data = left_padding E
        ++ (List.range ((14 * (s.i + 1) - (s.dotc + 7 + 7)) / 8)).map (color140_ref_word E line)
    rw [hpos]
    exact h6
  · show s.sl_pos = 3 + (14 * (s.i + 1) - (s.dotc + 7 + 7)) / 8
    rw [hpos]
    exact h7

theorem color140_inv_load (E : Env) (line : Nat) (s : DhiresState)
    (h : Color140Inv E line s) :
    Color140Inv E line (color140_load E line s)
      ∧ ¬ ((color140_load E line s).dotc ≤ 18 ∧ (color140_load E line s).i < 40)
      ∧ (s.dotc ≤ 18 → s.i < 40 → s.i < (color140_load E line s).i) := by
  induction s using color140_load.induct E line with
  | case1 t hc ih =>
    rw [color140_load, if_pos hc]
    have := ih (color140_inv_load_pair E line t h hc)
    refine ⟨this.1, this.2.1, ?_⟩
    intro _ _
    have hi : (color140_load_pair E line t).i = t.i + 1 := rfl
    have hmono : ∀ u : DhiresState, u.i ≤ (color140_load E line u).i := by
      intro u
      induction u using color140_load.induct E line with
      | case1 u hu ihu =>
        rw [color140_load, if_pos hu]
        have : (color140_load_pair E line u).i = u.i + 1 := rfl
        omega
      | case2 u hu =>
        rw [color140_load, if_neg hu]
    have := hmono (color140_load_pair E line t)
    omega
  | case2 t hc =>
    rw [color140_load, if_neg hc]
    exact ⟨h, hc, fun a b => absurd ⟨a, b⟩ hc⟩

theorem u32_or (a b : Nat) : u32 a ||| u32 b = u32 (a ||| b) := by
  apply Nat.eq_of_testBit_eq
  intro t
  simp only [Nat.testBit_or, testBit_u32]
  cases decide (t < 32) <;> simp

theorem and_15_bits (x : Nat) :
    x &&& 0xf = (x.testBit 0).toNat + 2 * (x.testBit 1).toNat + 4 * (x.testBit 2).toNat
      + 8 * (x.testBit 3).toNat := by
  have e : ∀ i, (x.testBit i).toNat = x / 2 ^ i % 2 := by
    intro i
    rw [Nat.testBit_to_div_mod]
    by_cases h : x / 2 ^ i % 2 = 1
    · simp [h]
    · have : x / 2 ^ i % 2 = 0 := by omega
      simp [this]
  rw [and_15, e, e, e, e]
  norm_num
  omega

/-- The low four pending bits are the nibble at the consumed position. -/
theorem dhires_low_nibble (E : Env) (line m dotc d pos : Nat) (hdotc : 4 ≤ dotc)
    (hpos : pos = 4 * m)
    (hd : ∀ t, d.testBit t = (decide (t < dotc) && dhires_stream_bit E line (pos + t))) :
    d &&& 0xf = dhires_nibble E line m := by
  rw [and_15_bits, hd 0, hd 1, hd 2, hd 3, hpos]
  have h0 : (0 : Nat) < dotc := by omega
  have h1 : 1 < dotc := by omega
  have h2 : 2 < dotc := by omega
  have h3 : 3 < dotc := by omega
  simp only [h0, h1, h2, h3, decide_True, Bool.true_and, Nat.add_zero]
  rfl

theorem color140_inv_draw_pair (E : Env) (line : Nat) (s : DhiresState)
    (h : Color140Inv E line s) (hc : s.dotc ≥ 8) :
    Color140Inv E line (color140_draw_pair E s) := by
  obtain ⟨h1, h2, h3, h4, h5, h6, h7⟩ := h
  have hpos : 14 * s.i - (s.dotc - 8) = 14 * s.i - s.dotc + 8 := by omega
  have hdiv : (14 * s.i - s.dotc + 8) / 8 = (14 * s.i - s.dotc) / 8 + 1 := by omega
  have hn0 : s.dots &&& 0xf = dhires_nibble E line (2 * ((14 * s.i - s.dotc) / 8)) :=
    dhires_low_nibble E line _ s.dotc s.dots (14 * s.i - s.dotc) (by omega) (by omega) h5
  have hn1 : (s.dots >>> 4) &&& 0xf
      = dhires_nibble E line (2 * ((14 * s.i - s.dotc) / 8) + 1) := by
    apply dhires_low_nibble E line _ (s.dotc - 4) (s.dots >>> 4) (14 * s.i - s.dotc + 4)
      (by omega) (by omega)
    intro t
    rw [Nat.testBit_shiftRight, h5 (4 + t)]
    have e1 : 14 * s.i - s.dotc + (4 + t) = 14 * s.i - s.dotc + 4 + t := by omega
    rw [e1]
    by_cases ht : t < s.dotc - 4
    · have : 4 + t < s.dotc := by omega
      simp [ht, this]
    · have : ¬ 4 + t < s.dotc := by omega
      simp [ht, this]
  refine ⟨h1, ?_, ?_, ?_, ?_, ?_, ?_⟩
  · show s.dotc - 8 ≤ 14 * s.i
    omega
  · show s.dotc - 8 ≤ 32
    omega
  · show (14 * s.i - (s.dotc - 8)) % 8 = 0
    omega
  · intro t
    show ((s.dots >>> 4) >>> 4).testBit t
      = (decide (t < s.dotc - 8) && dhires_stream_bit E line (14 * s.i - (s.dotc - 8) + t))
    rw [Nat.testBit_shiftRight, Nat.testBit_shiftRight, h5 (4 + (4 + t))]
    have e1 : 14 * s.i - s.dotc + (4 + (4 + t)) = 14 * s.i - (s.dotc - 8) + t := by omega
    rw [e1]
    by_cases ht : t < s.dotc - 8
    · have : 4 + (4 + t) < s.dotc := by omega
      simp [ht, this]
    · have : ¬ 4 + (4 + t) < s.dotc := by omega
      simp [ht, this]
  · show s.data ++ [u32 (E.dhgr_palette (s.dots &&& 0xf) ||| E.THEN_EXTEND_3)
            ||| u32 ((E.dhgr_palette ((s.dots >>> 4) &&& 0xf) ||| E.THEN_EXTEND_3) <<< 16)]
        = left_padding E
          ++ (List.range ((14 * s.i - (s.dotc - 8)) / 8)).map (color140_ref_word E line)
    rw [hpos, hdiv, List.range_succ, List.map_append, ← List.append_assoc, ← h6, hn0, hn1,
      u32_or]
    rfl
  · show s.sl_pos + 1 = 3 + (14 * s.i - (s.dotc - 8)) / 8
    rw [hpos, hdiv, h7]
    omega

theorem color140_inv_draw (E : Env) (line : Nat) (s : DhiresState)
    (h : Color140Inv E line s) :
    Color140Inv E line (color140_draw E s)
      ∧ (color140_draw E s).dotc < 8 ∧ (color140_draw E s).i = s.i := by
  induction s using color140_draw.induct E with
  | case1 t hc ih =>
    rw [color140_draw, if_pos hc]
    have := ih (color140_inv_draw_pair E line t h hc)
    exact ⟨this.1, this.2.1, this.2.2.trans rfl⟩
  | case2 t hc =>
    rw [color140_draw, if_neg hc]
    exact ⟨h, by omega, rfl⟩

/-- The outer loop of the 140x192 branch consumes the whole stream. -/
theorem color140_inv_loop (E : Env) (line : Nat) (s : DhiresState)
    (h : Color140Inv E line s) (hd : s.dotc < 8) :
    Color140Inv E line (color140_loop E line s)
      ∧ (color140_loop E line s).dotc < 8 ∧ (color140_loop E line s).i = 40 := by
  induction s using color140_loop.induct E line with
  | case1 t hc ih =>
    rw [color140_loop, if_pos hc]
    have hl := color140_inv_load E line t h
    have hdr := color140_inv_draw E line _ hl.1
    exact ih hdr.1 hdr.2.1
  | case2 t hc =>
    rw [color140_loop, if_neg hc]
    exact ⟨h, hd, by have := h.1; omega⟩

theorem color140_inv_start (E : Env) (line : Nat) :
    Color140Inv E line
      { data := left_padding E, sl_pos := 3, i := 0, dotc := 0, dots := 0, pixelmode := 0 } := by
  refine ⟨show 0 ≤ 40 by decide, show 0 ≤ 14 * 0 by decide, show 0 ≤ 32 by decide,
    show (14 * 0 - 0) % 8 = 0 by decide, ?_, ?_, show (3 : Nat) = 3 + (14 * 0 - 0) / 8 by decide⟩
  · intro t
    show (0 : Nat).testBit t = (decide (t < 0) && _)
    simp
  · show left_padding E
      = left_padding E ++ (List.range ((14 * 0 - 0) / 8)).map (color140_ref_word E line)
    simp

theorem render_dhires_line_140_eq (E : Env) (line : Nat)
    (h1 : dhires_mode E ≠ Video7Mode.VIDEO7_MODE_560x192)
    (h2 : dhires_mode E ≠ Video7Mode.VIDEO7_MODE_160x192)
    (h3 : dhires_mode E ≠ Video7Mode.VIDEO7_MODE_MIX) :
    render_dhires_line E line
      = finish_scanline E
          (color140_loop E line
            { data := left_padding E, sl_pos := 3, i := 0, dotc := 0, dots := 0,
              pixelmode := 0 }).data
          (color140_loop E line
            { data := left_padding E, sl_pos := 3, i := 0, dotc := 0, dots := 0,
              pixelmode := 0 }).sl_pos := by
  have hp := dhires_pad_eq E h2
  unfold render_dhires_line dhires_decode
  rw [hp, if_neg h1, if_neg h2, if_neg h3]

/-- The buffer of the 140x192 branch: padding, 70 reference words, common tail. -/
theorem color140_line_data (E : Env) (line : Nat)
    (h1 : dhires_mode E ≠ Video7Mode.VIDEO7_MODE_560x192)
    (h2 : dhires_mode E ≠ Video7Mode.VIDEO7_MODE_160x192)
    (h3 : dhires_mode E ≠ Video7Mode.VIDEO7_MODE_MIX) :
    (render_dhires_line E line).data
        = left_padding E ++ (List.range 70).map (color140_ref_word E line)
          ++ line_hold_tail E
      ∧ (render_dhires_line E line).length = 3 + 70 + (line_hold_tail E).length := by
  obtain ⟨⟨_, _, _, c4, _, c6, c7⟩, hd, hi⟩ :=
    color140_inv_loop E line _ (color140_inv_start E line) (show 0 < 8 by decide)
  rw [hi] at c4 c6 c7
  have hz : (color140_loop E line
      { data := left_padding E, sl_pos := 3, i := 0, dotc := 0, dots := 0,
        pixelmode := 0 }).dotc = 0 := by omega
  rw [hz] at c6 c7
  rw [render_dhires_line_140_eq E line h1 h2 h3, finish_scanline_data, finish_scanline_length]
  exact ⟨congrArg (fun l => l ++ line_hold_tail E) c6,
    congrArg (fun l => l + (line_hold_tail E).length) c7⟩

/-- Bit `r` of a sum of seven weighted bits. -/
theorem bits7_testBit (b0 b1 b2 b3 b4 b5 b6 : Bool) :
    ∀ r < 7, (b0.toNat + 2 * b1.toNat + 4 * b2.toNat + 8 * b3.toNat + 16 * b4.toNat
        + 32 * b5.toNat + 64 * b6.toNat).testBit r
      = [b0, b1, b2, b3, b4, b5, b6].getD r false := by
  cases b0 <;> cases b1 <;> cases b2 <;> cases b3 <;> cases b4 <;> cases b5 <;> cases b6 <;>
    decide

/-- Bit `r` of a packed plane byte is the stream bit it was packed from. -/
theorem pack_plane_byte_testBit (ν : Nat → Nat) (p r : Nat) (hr : r < 7) :
    (pack_plane_byte ν p).testBit r = (ν ((p + r) / 4)).testBit ((p + r) % 4) := by
  unfold pack_plane_byte
  rw [bits7_testBit _ _ _ _ _ _ _ r hr]
  have : r = 0 ∨ r = 1 ∨ r = 2 ∨ r = 3 ∨ r = 4 ∨ r = 5 ∨ r = 6 := by omega
  rcases this with h | h | h | h | h | h | h <;> subst h <;> rfl

theorem mod_128_testBit (x r : Nat) (hr : r < 7) : (x % 128).testBit r = x.testBit r := by
  rw [show (128 : Nat) = 2 ^ 7 by norm_num, Nat.testBit_mod_two_pow]
  simp [hr]

/-- A nibble below 16 is the sum of its four bits. -/
theorem nibble_eq_bits (x : Nat) (hx : x < 16) :
    (x.testBit 0).toNat + 2 * (x.testBit 1).toNat + 4 * (x.testBit 2).toNat
      + 8 * (x.testBit 3).toNat = x := by
  rw [← and_15_bits, and_15]
  exact Nat.mod_eq_of_lt hx

/-- Decoding a packed line recovers the nibbles. -/
theorem dhires_nibble_pack (E : Env) (line : Nat) (ν : Nat → Nat) (hν : ∀ m, ν m < 16)
    (hpack : ∀ c < 40, line_mem_odd E line c % 128 = pack_plane_byte ν (14 * c)
      ∧ line_mem_even E line c % 128 = pack_plane_byte ν (14 * c + 7))
    (m : Nat) (hm : m < 140) : dhires_nibble E line m = ν m := by
  have hbit : ∀ p, p < 560 → dhires_stream_bit E line p = (ν (p / 4)).testBit (p % 4) := by
    intro p hp
    have hc : p / 14 < 40 := by omega
    obtain ⟨ho, he⟩ := hpack (p / 14) hc
    unfold dhires_stream_bit
    split
    · next hlt =>
      rw [← mod_128_testBit _ _ hlt, ho, pack_plane_byte_testBit _ _ _ hlt,
        show 14 * (p / 14) + p % 14 = p by omega]
    · next hge =>
      have hlt : p % 14 - 7 < 7 := by omega
      rw [← mod_128_testBit _ _ hlt, he, pack_plane_byte_testBit _ _ _ hlt,
        show 14 * (p / 14) + 7 + (p % 14 - 7) = p by omega]
  unfold dhires_nibble
  rw [hbit _ (by omega), hbit _ (by omega), hbit _ (by omega), hbit _ (by omega),
    show 4 * m / 4 = m by omega, show (4 * m + 1) / 4 = m by omega,
    show (4 * m + 2) / 4 = m by omega, show (4 * m + 3) / 4 = m by omega,
    show 4 * m % 4 = 0 by omega, show (4 * m + 1) % 4 = 1 by omega,
    show (4 * m + 2) % 4 = 2 by omega, show (4 * m + 3) % 4 = 3 by omega]
  exact nibble_eq_bits _ (hν m)

/-- A line whose bytes are all `0x2A` decodes to the index sequence
10, 2, 5, 9, 10, 4, 5 repeated. -/
theorem dhires_nibble_2A (E : Env) (line : Nat)
    (h2A : ∀ c < 40, line_mem_odd E line c = 0x2A ∧ line_mem_even E line c = 0x2A)
    (m : Nat) (hm : m < 140) : dhires_nibble E line m = period_2A.getD (m % 7) 0 := by
  have hbit : ∀ p, p < 560 → dhires_stream_bit E line p
      = [false, true, false, true, false, true, false].getD (p % 7) false := by
    intro p hp
    have hc : p / 14 < 40 := by omega
    obtain ⟨ho, he⟩ := h2A (p / 14) hc
    unfold dhires_stream_bit
    rw [ho, he]
    have : p % 14 < 14 := Nat.mod_lt _ (by norm_num)
    have h7 : p % 7 = p % 14 % 7 := by omega
    rw [h7]
    generalize p % 14 = r at this
    interval_cases r <;> rfl
  unfold dhires_nibble
  rw [hbit _ (by omega), hbit _ (by omega), hbit _ (by omega), hbit _ (by omega)]
  have : m % 7 < 7 := Nat.mod_lt _ (by norm_num)
  have e0 : 4 * m % 7 = 4 * (m % 7) % 7 := by omega
  have e1 : (4 * m + 1) % 7 = (4 * (m % 7) + 1) % 7 := by omega
  have e2 : (4 * m + 2) % 7 = (4 * (m % 7) + 2) % 7 := by omega
  have e3 : (4 * m + 3) % 7 = (4 * (m % 7) + 3) % 7 := by omega
  rw [e0, e1, e2, e3]
  generalize m % 7 = r at this
  interval_cases r <;> rfl

theorem dhires_mode_ne (E : Env) (m : Video7Mode) (hmono : E.soft_monochrom = false)
    (h : E.soft_video7_mode ≠ m) : dhires_mode E ≠ m := by
  unfold dhires_mode
  rw [hmono]
  exact h

/-- C2. 140x192 decode equals the nibble-stream reference: with monochrome off
and a selector that is none of 560x192, 160x192 and mixed, the buffer holds the 3
padding words, then exactly 70 data words, then the common tail, and data word
`w` is `(dhgr_palette[n_2w] | THEN_EXTEND_3) | ((dhgr_palette[n_2w+1] |
THEN_EXTEND_3) << 16)` as a 32-bit word, `n_m` being the value of stream bits
`4m .. 4m+3`.  Hence a line packed from 140 nibbles decodes to those nibbles in
order, and a line of `0x2A` bytes decodes to 10, 2, 5, 9, 10, 4, 5 repeated. -/
theorem render_dhires_line_140 (E : Env) (line : Nat)
    (hmono : E.soft_monochrom = false)
    (h560 : E.soft_video7_mode ≠ Video7Mode.VIDEO7_MODE_560x192)
    (h160 : E.soft_video7_mode ≠ Video7Mode.VIDEO7_MODE_160x192)
    (hmix : E.soft_video7_mode ≠ Video7Mode.VIDEO7_MODE_MIX) :
    (render_dhires_line E line).data
        = left_padding E ++ (List.range 70).map (color140_ref_word E line)
          ++ line_hold_tail E
      ∧ (render_dhires_line E line).length = 3 + 70 + (line_hold_tail E).length
      ∧ (∀ w < 70, (render_dhires_line E line).data[3 + w]?
          = some (u32 (pixel_pair
              (E.dhgr_palette (dhires_nibble E line (2 * w)) ||| E.THEN_EXTEND_3)
              (E.dhgr_palette (dhires_nibble E line (2 * w + 1)) ||| E.THEN_EXTEND_3))))
      ∧ (∀ ν : Nat → Nat, (∀ m, ν m < 16) →
          (∀ c < 40, line_mem_odd E line c % 128 = pack_plane_byte ν (14 * c)
            ∧ line_mem_even E line c % 128 = pack_plane_byte ν (14 * c + 7)) →
          ∀ m < 140, dhires_nibble E line m = ν m)
      ∧ ((∀ c < 40, line_mem_odd E line c = 0x2A ∧ line_mem_even E line c = 0x2A) →
          ∀ m < 140, dhires_nibble E line m = period_2A.getD (m % 7) 0) := by
  have h := color140_line_data E line (dhires_mode_ne E _ hmono h560)
    (dhires_mode_ne E _ hmono h160) (dhires_mode_ne E _ hmono hmix)
  refine ⟨h.1, h.2, ?_, ?_, ?_⟩
  · intro w hw
    have hpad : (left_padding E).length = 3 := rfl
    rw [h.1, List.append_assoc, List.getElem?_append_right (by omega), hpad,
      show 3 + w - 3 = w by omega,
      List.getElem?_append_left (by rw [List.length_map, List.length_range]; exact hw),
      List.getElem?_map, List.getElem?_range hw]
    rfl
  · intro ν hν hpack m hm
    exact dhires_nibble_pack E line ν hν hpack m hm
  · intro h2A m hm
    exact dhires_nibble_2A E line h2A m hm

/-- Instance of C2 in the concrete environment, whose pages hold `0x2A`: the
length of line 0 and the palette index of its fourth nibble. -/
theorem render_dhires_line_140_witness :
    (render_dhires_line demo_env 0).length = 3 + 70 + (line_hold_tail demo_env).length
      ∧ dhires_nibble demo_env 0 3 = period_2A.getD (3 % 7) 0 :=
  ⟨(render_dhires_line_140 demo_env 0 rfl (by decide) (by decide) (by decide)).2.1,
    (render_dhires_line_140 demo_env 0 rfl (by decide) (by decide) (by decide)).2.2.2.2
      (fun _ _ => ⟨rfl, rfl⟩) 3 (by decide)⟩

/-! ## Mixed sub-mode -/

/-- Bits of the flag accumulator after one byte pair is OR-ed in at `dotc`. -/
theorem load_flags_testBit (d a b dotc t : Nat) (hdotc : dotc ≤ 18) :
    ((d ||| u32 ((if a &&& 0x80 ≠ 0 then 0x7f else 0x00) <<< dotc))
        ||| u32 ((if b &&& 0x80 ≠ 0 then 0x7f else 0x00) <<< (dotc + 7))).testBit t
      = (d.testBit t
          || (decide (dotc ≤ t ∧ t < dotc + 7) && a.testBit 7)
          || (decide (dotc + 7 ≤ t ∧ t < dotc + 14) && b.testBit 7)) := by
  have h7f : ∀ (x k : Nat), (if x &&& 0x80 ≠ 0 then (0x7f : Nat) else 0x00).testBit k
      = (decide (k < 7) && x.testBit 7) := by
    intro x k
    by_cases hx : x.testBit 7 = true
    · rw [if_pos ((and_128_ne_zero x).2 hx), hx,
        show (0x7f : Nat) = 2 ^ 7 - 1 by norm_num, Nat.testBit_two_pow_sub_one]
      simp
    · rw [if_neg (fun h => hx ((and_128_ne_zero x).1 h))]
      simp [hx]
  simp only [Nat.testBit_or, testBit_u32, Nat.testBit_shiftLeft, h7f]
  by_cases h1 : dotc ≤ t
  · by_cases h2 : t < dotc + 7
    · have h3 : t < 32 := by omega
      have h4 : t - dotc < 7 := by omega
      have h5 : ¬ (dotc + 7 ≤ t) := by omega
      have h6 : ¬ t ≥ dotc + 7 := by omega
      simp [h1, h2, h3, h4, h5, h6]
    · by_cases h3 : t < dotc + 14
      · have h4 : t < 32 := by omega
        have h5 : ¬ t - dotc < 7 := by omega
        have h6 : t - (dotc + 7) < 7 := by omega
        have h7 : dotc + 7 ≤ t := by omega
        simp [h1, h2, h3, h4, h5, h6, h7]
      · have h5 : ¬ t - dotc < 7 := by omega
        have h6 : ¬ t - (dotc + 7) < 7 := by omega
        simp [h2, h3, h5, h6]
  · have h2 : ¬ t ≥ dotc := by omega
    have h3 : ¬ t ≥ dotc + 7 := by omega
    have h4 : ¬ dotc + 7 ≤ t := by omega
    simp [h1, h2, h3, h4]

/-- The pending flags after a load are the old ones followed by the 14 flags of
column `i`. -/
theorem dhires_load_flags (E : Env) (line i dotc d : Nat) (hdotc : dotc ≤ 18)
    (hle : dotc ≤ 14 * i)
    (hd : ∀ t, d.testBit t
        = (decide (t < dotc) && dhires_flag_bit E line (14 * i - dotc + t))) (t : Nat) :
    ((d ||| u32 ((if line_mem_odd E line i &&& 0x80 ≠ 0 then 0x7f else 0x00) <<< dotc))
        ||| u32 ((if line_mem_even E line i &&& 0x80 ≠ 0 then 0x7f else 0x00)
              <<< (dotc + 7))).testBit t
      = (decide (t < dotc + 7 + 7)
          && dhires_flag_bit E line (14 * (i + 1) - (dotc + 7 + 7) + t)) := by
  rw [load_flags_testBit _ _ _ _ _ hdotc, hd t]
  have hpos : 14 * (i + 1) - (dotc + 7 + 7) + t = 14 * i - dotc + t := by omega
  rw [hpos]
  by_cases h1 : t < dotc
  · have h2 : ¬ dotc ≤ t := by omega
    have h3 : ¬ dotc + 7 ≤ t := by omega
    have h4 : t < dotc + 7 + 7 := by omega
    simp [h1, h2, h3, h4]
  · by_cases h2 : t < dotc + 7
    · have h3 : dotc ≤ t := by omega
      have h4 : ¬ dotc + 7 ≤ t := by omega
      have h5 : t < dotc + 7 + 7 := by omega
      have h6 : (14 * i - dotc + t) % 14 = t - dotc := by omega
      have h7 : (14 * i - dotc + t) / 14 = i := by omega
      have h8 : t - dotc < 7 := by omega
      simp [dhires_flag_bit, h1, h2, h3, h4, h5, h6, h7, h8]
    · by_cases h3 : t < dotc + 14
      · have h4 : dotc ≤ t := by omega
        have h5 : dotc + 7 ≤ t := by omega
        have h6 : t < dotc + 7 + 7 := by omega
        have h7 : (14 * i - dotc + t) % 14 = t - dotc := by omega
        have h8 : (14 * i - dotc + t) / 14 = i := by omega
        have h9 : ¬ t - dotc < 7 := by omega
        simp [dhires_flag_bit, h1, h2, h3, h4, h5, h6, h7, h8, h9]
      · have h4 : dotc ≤ t := by omega
        have h5 : dotc + 7 ≤ t := by omega
        have h6 : ¬ t < dotc + 7 + 7 := by omega
        simp [h1, h2, h3, h4, h5, h6]

theorem mix_mono_color_eq (E : Env) (d : Nat) :
    mix_mono_color E d = if d.testBit 0 then E.dhgr_palette 15 else E.dhgr_palette 0 := by
  unfold mix_mono_color
  rw [Nat.and_one_is_mod, Nat.testBit_zero]
  by_cases h : d % 2 = 1
  · have : d % 2 ≠ 0 := by omega
    simp [h]
  · have : d % 2 = 0 := by omega
    simp [this]

/-- The test `if (pixelmode)` sees a flag among the pending bits. -/
theorem pixelmode_ne_zero_iff (pm dotc : Nat) (f : Nat → Bool)
    (h : ∀ t, pm.testBit t = (decide (t < dotc) && f t)) :
    pm ≠ 0 ↔ (List.range dotc).any f = true := by
  rw [List.any_eq_true]
  constructor
  · intro hne
    obtain ⟨t, ht⟩ := Nat.ne_zero_implies_bit_true hne
    rw [h t] at ht
    have h1 : t < dotc := by
      by_contra hc
      simp [hc] at ht
    refine ⟨t, List.mem_range.2 h1, ?_⟩
    simpa [h1] using ht
  · rintro ⟨t, hmem, hf⟩ hz
    have := h t
    rw [hz, Nat.zero_testBit] at this
    simp [List.mem_range.1 hmem, hf] at this

/-- Loading from an empty accumulator takes exactly two byte pairs. -/
theorem mix_load_two (E : Env) (line : Nat) (s : DhiresState)
    (hd : s.dotc = 0) (hpar : s.i % 2 = 0) (hi : s.i < 40) :
    mix_load E line s = mix_load_pair E line (mix_load_pair E line s) := by
  have d1 : (mix_load_pair E line s).dotc = s.dotc + 7 + 7 := rfl
  have i1 : (mix_load_pair E line s).i = s.i + 1 := rfl
  have d2 : (mix_load_pair E line (mix_load_pair E line s)).dotc = s.dotc + 7 + 7 + 7 + 7 := rfl
  rw [mix_load, if_pos ⟨by omega, hi⟩, mix_load, if_pos ⟨by omega, by omega⟩, mix_load,
    if_neg (by omega)]

theorem mix_inv_load (E : Env) (line : Nat) (s : DhiresState)
    (h : MixInv E line s) (hd : s.dotc = 0) (hi : s.i < 40) :
    MixInv E line (mix_load E line s) := by
  obtain ⟨h1, h2, h3, h4, h5, h6, h7, h8, h9⟩ := h
  rw [mix_load_two E line s hd h2 hi]
  have b1 := dhires_load_bits E line s.i s.dotc s.dots (by omega) h4 h6
  have b2 := dhires_load_bits E line (s.i + 1) (s.dotc + 7 + 7) _ (by omega) (by omega) b1
  have f1 := dhires_load_flags E line s.i s.dotc s.pixelmode (by omega) h4 h7
  have f2 := dhires_load_flags E line (s.i + 1) (s.dotc + 7 + 7) _ (by omega) (by omega) f1
  have hpos : 14 * (s.i + 1 + 1) - (s.dotc + 7 + 7 + 7 + 7) = 14 * s.i - s.dotc := by omega
  refine ⟨?_, ?_, ?_, ?_, ?_, b2, f2, ?_, h9⟩
  · show s.i + 1 + 1 ≤ 40
    omega
  · show (s.i + 1 + 1) % 2 = 0
    omega
  · show s.dotc + 7 + 7 + 7 + 7 ≤ 28
    omega
  · show s.dotc + 7 + 7 + 7 + 7 ≤ 14 * (s.i + 1 + 1)
    omega
  · show (s.dotc + 7 + 7 + 7 + 7) % 4 = 0
    omega
  · show s.data = left_padding E
        ++ (List.range ((14 * (s.i + 1 + 1) - (s.dotc + 7 + 7 + 7 + 7)) / 4)).flatMap
            (mix_group_words E line)
    rw [hpos]
    exact h8

/-- Under the invariant, the pending-flag test of the reference is the test
`if (pixelmode)` of the source. -/
theorem mix_pending_flag_iff (E : Env) (line : Nat) (s : DhiresState)
    (h : MixInv E line s) (hc : s.dotc ≥ 4) :
    s.pixelmode ≠ 0 ↔ mix_pending_flag E line ((14 * s.i - s.dotc) / 4) = true := by
  obtain ⟨h1, h2, h3, h4, h5, h6, h7, h8, h9⟩ := h
  have hlen : 28 - 4 * ((14 * s.i - s.dotc) / 4 % 7) = s.dotc := by omega
  have hpos : 4 * ((14 * s.i - s.dotc) / 4) = 14 * s.i - s.dotc := by omega
  unfold mix_pending_flag
  rw [hlen, hpos]
  exact pixelmode_ne_zero_iff s.pixelmode s.dotc _ h7

theorem mix_inv_draw_group (E : Env) (line : Nat) (s : DhiresState)
    (h : MixInv E line s) (hc : s.dotc ≥ 4) :
    MixInv E line (mix_draw_group E s) := by
  have hflag := mix_pending_flag_iff E line s h hc
  obtain ⟨h1, h2, h3, h4, h5, h6, h7, h8, h9⟩ := h
  have hpos : 14 * s.i - (s.dotc - 4) = 14 * s.i - s.dotc + 4 := by omega
  have hdiv : (14 * s.i - s.dotc + 4) / 4 = (14 * s.i - s.dotc) / 4 + 1 := by omega
  have hm : 4 * ((14 * s.i - s.dotc) / 4) = 14 * s.i - s.dotc := by omega
  have hshift : ∀ (x : Nat) (f : Nat → Bool),
      (∀ t, x.testBit t = (decide (t < s.dotc) && f (14 * s.i - s.dotc + t))) →
      ∀ t, (x >>> 4).testBit t
        = (decide (t < s.dotc - 4) && f (14 * s.i - (s.dotc - 4) + t)) := by
    intro x f hx t
    rw [Nat.testBit_shiftRight, hx (4 + t)]
    have e1 : 14 * s.i - s.dotc + (4 + t) = 14 * s.i - (s.dotc - 4) + t := by omega
    rw [e1]
    by_cases ht : t < s.dotc - 4
    · have : 4 + t < s.dotc := by omega
      simp [ht, this]
    · have : ¬ 4 + t < s.dotc := by omega
      simp [ht, this]
  have hs4 : ∀ x : Nat, x >>> 1 >>> 1 >>> 1 >>> 1 = x >>> 4 := by
    intro x
    rw [← Nat.shiftRight_add, ← Nat.shiftRight_add, ← Nat.shiftRight_add]
  have hgroup : mix_group_words E line ((14 * s.i - s.dotc) / 4)
      = if s.pixelmode ≠ 0 then [mix_color_word E line ((14 * s.i - s.dotc) / 4)]
        else [mix_mono_word E line (14 * s.i - s.dotc),
              mix_mono_word E line (14 * s.i - s.dotc + 2)] := by
    unfold mix_group_words
    rw [hm]
    by_cases hp : s.pixelmode ≠ 0
    · rw [if_pos hp, if_pos (hflag.1 hp)]
    · rw [if_neg hp, if_neg (fun hf => hp (hflag.2 hf))]
  have hdata : ∀ ws, ws = mix_group_words E line ((14 * s.i - s.dotc) / 4) →
      s.data ++ ws = left_padding E
        ++ (List.range ((14 * s.i - (s.dotc - 4)) / 4)).flatMap (mix_group_words E line) := by
    intro ws hws
    rw [hpos, hdiv, List.range_succ, List.flatMap_append, ← List.append_assoc, ← h8, hws]
    simp
  unfold mix_draw_group
  by_cases hp : s.pixelmode ≠ 0
  · rw [if_pos hp]
    rw [if_pos hp] at hgroup
    have hn : s.dots &&& 0xf = dhires_nibble E line ((14 * s.i - s.dotc) / 4) :=
      dhires_low_nibble E line _ s.dotc s.dots (14 * s.i - s.dotc) hc hm.symm h6
    refine ⟨h1, h2, ?_, ?_, ?_, hshift _ _ h6, hshift _ _ h7, ?_, ?_⟩
    · show s.dotc - 4 ≤ 28
      omega
    · show s.dotc - 4 ≤ 14 * s.i
      omega
    · show (s.dotc - 4) % 4 = 0
      omega
    · apply hdata
      rw [hgroup, hn]
      rfl
    · show s.sl_pos + 1 = (s.data ++ [_]).length
      rw [List.length_append, h9]
      rfl
  · rw [if_neg hp]
    rw [if_neg hp] at hgroup
    have hd4 : s.dotc - 2 - 2 = s.dotc - 4 := by omega
    have c0 : mix_mono_color E s.dots = mix_dot_color E line (14 * s.i - s.dotc) := by
      rw [mix_mono_color_eq, h6 0]
      have : 0 < s.dotc := by omega
      simp [this, mix_dot_color]
    have c1 : mix_mono_color E (s.dots >>> 1) = mix_dot_color E line (14 * s.i - s.dotc + 1) := by
      rw [mix_mono_color_eq, Nat.testBit_shiftRight, h6 (1 + 0)]
      have : 1 + 0 < s.dotc := by omega
      simp [this, mix_dot_color]
    have c2 : mix_mono_color E (s.dots >>> 1 >>> 1)
        = mix_dot_color E line (14 * s.i - s.dotc + 2) := by
      rw [mix_mono_color_eq, Nat.testBit_shiftRight, Nat.testBit_shiftRight, h6 (1 + (1 + 0))]
      have : 1 + (1 + 0) < s.dotc := by omega
      simp [this, mix_dot_color]
    have c3 : mix_mono_color E (s.dots >>> 1 >>> 1 >>> 1)
        = mix_dot_color E line (14 * s.i - s.dotc + 2 + 1) := by
      rw [mix_mono_color_eq, Nat.testBit_shiftRight, Nat.testBit_shiftRight,
        Nat.testBit_shiftRight, h6 (1 + (1 + (1 + 0)))]
      have : 1 + (1 + (1 + 0)) < s.dotc := by omega
      simp [this, mix_dot_color]
    simp only [c0, c1, c2, c3, hs4, hd4]
    refine ⟨h1, h2, ?_, ?_, ?_, hshift _ _ h6, hshift _ _ h7, ?_, ?_⟩
    · show s.dotc - 4 ≤ 28
      omega
    · show s.dotc - 4 ≤ 14 * s.i
      omega
    · show (s.dotc - 4) % 4 = 0
      omega
    · show s.data ++ [_] ++ [_] = _
      rw [List.append_assoc]
      apply hdata
      rw [hgroup]
      rfl
    · show s.sl_pos + 1 + 1 = (s.data ++ [_] ++ [_]).length
      rw [List.length_append, List.length_append, h9]
      rfl

theorem mix_inv_draw (E : Env) (line : Nat) (s : DhiresState) (h : MixInv E line s) :
    MixInv E line (mix_draw E s) ∧ (mix_draw E s).dotc = 0 ∧ (mix_draw E s).i = s.i := by
  induction s using mix_draw.induct E with
  | case1 t hc ih =>
    rw [mix_draw, if_pos hc]
    have := ih (mix_inv_draw_group E line t h hc)
    refine ⟨this.1, this.2.1, this.2.2.trans ?_⟩
    unfold mix_draw_group
    split <;> rfl
  | case2 t hc =>
    rw [mix_draw, if_neg hc]
    have := h.2.2.2.2.1
    exact ⟨h, by omega, rfl⟩

/-- The outer loop of the mixed branch consumes the whole stream. -/
theorem mix_inv_loop (E : Env) (line : Nat) (s : DhiresState)
    (h : MixInv E line s) (hd : s.dotc = 0) :
    MixInv E line (mix_loop E line s)
      ∧ (mix_loop E line s).dotc = 0 ∧ (mix_loop E line s).i = 40 := by
  induction s using mix_loop.induct E line with
  | case1 t hc ih =>
    rw [mix_loop, if_pos hc]
    have hl := mix_inv_load E line t h hd hc
    have hdr := mix_inv_draw E line _ hl
    exact ih hdr.1 hdr.2.1
  | case2 t hc =>
    rw [mix_loop, if_neg hc]
    exact ⟨h, hd, by have := h.1; omega⟩

theorem mix_inv_start (E : Env) (line : Nat) :
    MixInv E line
      { data := left_padding E, sl_pos := 3, i := 0, dotc := 0, dots := 0, pixelmode := 0 } := by
  refine ⟨show 0 ≤ 40 by decide, show 0 % 2 = 0 by decide, show 0 ≤ 28 by decide,
    show 0 ≤ 14 * 0 by decide, show 0 % 4 = 0 by decide, ?_, ?_, ?_, rfl⟩
  · intro t
    show (0 : Nat).testBit t = (decide (t < 0) && _)
    simp
  · intro t
    show (0 : Nat).testBit t = (decide (t < 0) && _)
    simp
  · show left_padding E
      = left_padding E ++ (List.range ((14 * 0 - 0) / 4)).flatMap (mix_group_words E line)
    simp

theorem render_dhires_line_mix_eq (E : Env) (line : Nat)
    (hm : dhires_mode E = Video7Mode.VIDEO7_MODE_MIX) :
    render_dhires_line E line
      = finish_scanline E
          (mix_loop E line
            { data := left_padding E, sl_pos := 3, i := 0, dotc := 0, dots := 0,
              pixelmode := 0 }).data
          (mix_loop E line
            { data := left_padding E, sl_pos := 3, i := 0, dotc := 0, dots := 0,
              pixelmode := 0 }).sl_pos := by
  have hp := dhires_pad_eq E (by rw [hm]; decide)
  unfold render_dhires_line dhires_decode
  rw [hp, if_neg (by rw [hm]; decide), if_neg (by rw [hm]; decide), if_pos hm]

/-- The buffer of the mixed branch: padding, the words of the 140 groups in
order, common tail. -/
theorem mix_line_data (E : Env) (line : Nat)
    (hm : dhires_mode E = Video7Mode.VIDEO7_MODE_MIX) :
    (render_dhires_line E line).data
        = left_padding E ++ (List.range 140).flatMap (mix_group_words E line)
          ++ line_hold_tail E
      ∧ (render_dhires_line E line).length = (render_dhires_line E line).data.length := by
  obtain ⟨⟨_, _, _, _, _, _, _, c8, c9⟩, hd, hi⟩ :=
    mix_inv_loop E line _ (mix_inv_start E line) rfl
  rw [hi, hd] at c8
  rw [render_dhires_line_mix_eq E line hm, finish_scanline_data, finish_scanline_length]
  refine ⟨congrArg (fun l => l ++ line_hold_tail E) c8, ?_⟩
  rw [List.length_append, c9]

theorem mix_window_pending (E : Env) (line m : Nat) (h : mix_window_flag E line m = true) :
    mix_pending_flag E line m = true := by
  unfold mix_window_flag at h
  unfold mix_pending_flag
  rw [List.any_eq_true] at h ⊢
  obtain ⟨t, ht, hf⟩ := h
  have h1 := List.mem_range.1 ht
  exact ⟨t, List.mem_range.2 (by omega), hf⟩

/-- C3 (amended). Mixed sub-mode decision rule: the buffer is the padding, then
the words of the 140 four-bit groups of the interleaved stream in order, then the
common tail.  A group with a pixel-mode flag set inside its own 4-bit window is
drawn in colour: one word holding `dhgr_palette[n_m] | THEN_EXTEND_1` in both
half-words.  A group drawn while no pixel-mode flag is set among the bits still in
the accumulator is drawn as monochrome dots: two words, each holding the colours
of two stream bits (`dhgr_palette[15]` for 1, `dhgr_palette[0]` for 0) without
extension. -/
theorem render_dhires_line_mix (E : Env) (line : Nat)
    (hmono : E.soft_monochrom = false)
    (hmode : E.soft_video7_mode = Video7Mode.VIDEO7_MODE_MIX) :
    (render_dhires_line E line).data
        = left_padding E ++ (List.range 140).flatMap (mix_group_words E line)
          ++ line_hold_tail E
      ∧ ∀ m < 140,
          (mix_window_flag E line m = true →
            mix_group_words E line m = [mix_color_word E line m])
          ∧ (mix_pending_flag E line m = false →
            mix_group_words E line m
              = [mix_mono_word E line (4 * m), mix_mono_word E line (4 * m + 2)]) := by
  refine ⟨(mix_line_data E line (dhires_mode_of E _ hmono hmode)).1, ?_⟩
  intro m _
  constructor
  · intro h
    unfold mix_group_words
    rw [if_pos (mix_window_pending E line m h)]
  · intro h
    unfold mix_group_words
    rw [h]
    rfl

/-- Instance of the amended C3 on the concrete mixed-mode line. -/
theorem render_dhires_line_mix_witness :
    (render_dhires_line flag_env 0).data
      = left_padding flag_env ++ (List.range 140).flatMap (mix_group_words flag_env 0)
        ++ line_hold_tail flag_env :=
  (render_dhires_line_mix flag_env 0 rfl rfl).1

set_option maxRecDepth 1000000 in
theorem flag_env_words :
    (left_padding flag_env ++ (List.range 140).flatMap (mix_group_words flag_env 0)
        ++ line_hold_tail flag_env).length = 279
      ∧ (left_padding flag_env ++ (List.range 140).flatMap (mix_group_words flag_env 0)
        ++ line_hold_tail flag_env)[4]? = some 134285313
      ∧ (left_padding flag_env ++ (List.range 140).flatMap (mix_group_words flag_env 0)
        ++ line_hold_tail flag_env)[7]? = some 65537
      ∧ (left_padding flag_env ++ (List.range 140).flatMap (mix_group_words flag_env 0)
        ++ line_hold_tail flag_env)[8]? = some 65537 := by
  decide

set_option maxRecDepth 1000000 in
/-- C3 as stated fails on the concrete mixed-mode line.  Group 1 (stream bits 4
to 7) has a flag set in its window, yet it is drawn in colour: buffer word 4 is
`dhgr_palette[0] | THEN_EXTEND_1` twice.  Group 4 (stream bits 16 to 19) has no
flag in its window, yet it is drawn as monochrome dots: buffer words 7 and 8 are
plain pairs of `dhgr_palette[0]`.  Four groups take one word and 136 take two. -/
theorem render_dhires_line_mix_counterexample :
    mix_window_flag flag_env 0 1 = true
      ∧ (render_dhires_line flag_env 0).data[4]?
          = some (u32 (flag_env.dhgr_palette 0 ||| flag_env.THEN_EXTEND_1)
              ||| u32 (u32 (flag_env.dhgr_palette 0 ||| flag_env.THEN_EXTEND_1) <<< 16))
      ∧ mix_window_flag flag_env 0 4 = false
      ∧ (render_dhires_line flag_env 0).data[7]?
          = some (pixel_pair (flag_env.dhgr_palette 0) (flag_env.dhgr_palette 0))
      ∧ (render_dhires_line flag_env 0).data[8]?
          = some (pixel_pair (flag_env.dhgr_palette 0) (flag_env.dhgr_palette 0))
      ∧ (render_dhires_line flag_env 0).data.length = 3 + 4 + 2 * 136 := by
  rw [(mix_line_data flag_env 0 rfl).1]
  obtain ⟨h1, h2, h3, h4⟩ := flag_env_words
  refine ⟨by decide, ?_, by decide, ?_, ?_, ?_⟩
  · rw [h2]
    decide
  · rw [h3]
    decide
  · rw [h4]
    decide
  · rw [h1]

/-! ## 560x192 monochrome mode -/

theorem and_127_lt (x : Nat) : x &&& 0x7f < 128 := by
  have := and_127 x
  have : x % 2 ^ 7 < 128 := Nat.mod_lt _ (by norm_num)
  omega

/-- The value loaded into `dots` for one column is the 14-bit window, untruncated. -/
theorem mono560_dots_eq (E : Env) (line c : Nat) :
    u32 ((line_mem_odd E line c &&& 0x7f)
        ||| (u32 (u32 (line_mem_even E line c) &&& 0x7f) <<< 7))
      = mono560_window E line c := by
  have h1 := (byte_lt E line c).2
  have h2 : u32 (line_mem_even E line c) = line_mem_even E line c := u32_of_lt (by omega)
  have h3 := and_127_lt (line_mem_even E line c)
  have h4 := and_127_lt (line_mem_odd E line c)
  rw [h2, u32_of_lt (x := line_mem_even E line c &&& 0x7f) (by omega)]
  have h5 : (line_mem_even E line c &&& 0x7f) <<< 7 < 2 ^ 14 := by
    rw [Nat.shiftLeft_eq]
    omega
  have h6 : (line_mem_odd E line c &&& 0x7f)
      ||| ((line_mem_even E line c &&& 0x7f) <<< 7) < 2 ^ 14 :=
    Nat.or_lt_two_pow (by omega) h5
  rw [u32_of_lt (by omega)]
  rfl

/-- Seven passes of the pixel loop emit the seven bit pairs of `dots`, low pair first. -/
theorem mono560_pixels_loop (E : Env) (s : DhiresState) :
    (for_loop (fun _ => mono560_pixels E) 7 0 s).data
        = s.data ++ (List.range 7).map (fun j => bits_to_pixels E ((s.dots >>> (2 * j)) &&& 3))
      ∧ (for_loop (fun _ => mono560_pixels E) 7 0 s).sl_pos = s.sl_pos + 7 := by
  constructor
  · simp only [for_loop, mono560_pixels, List.append_assoc, List.singleton_append,
      ← Nat.shiftRight_add]
    rfl
  · simp only [for_loop, mono560_pixels]

theorem mono560_column_data (E : Env) (line c : Nat) (s : DhiresState) :
    (mono560_column E line c s).data = s.data ++ mono560_column_words E line c
      ∧ (mono560_column E line c s).sl_pos = s.sl_pos + 7 := by
  unfold mono560_column
  have h := mono560_pixels_loop E
    { s with dots := u32 ((line_mem_odd E line c &&& 0x7f)
        ||| (u32 (u32 (line_mem_even E line c) &&& 0x7f) <<< 7)) }
  rw [mono560_dots_eq] at h
  rw [mono560_dots_eq]
  exact h

theorem mono560_loop_data (E : Env) (line : Nat) (s : DhiresState) (n : Nat) :
    (for_loop (mono560_column E line) n 0 s).data
        = s.data ++ (List.range n).flatMap (mono560_column_words E line)
      ∧ (for_loop (mono560_column E line) n 0 s).sl_pos = s.sl_pos + 7 * n := by
  have := for_loop_invariant
    (fun i (t : DhiresState) =>
      t.data = s.data ++ (List.range i).flatMap (mono560_column_words E line)
        ∧ t.sl_pos = s.sl_pos + 7 * i)
    (mono560_column E line) n 0 s (by simp)
    (by
      intro i t _ _ ⟨hd, hp⟩
      have h := mono560_column_data E line i t
      constructor
      · rw [h.1, hd, List.range_succ, List.flatMap_append]
        simp
      · rw [h.2, hp]
        omega)
  simpa using this

theorem render_dhires_line_560_eq (E : Env) (line : Nat)
    (hmode : dhires_mode E = Video7Mode.VIDEO7_MODE_560x192) :
    render_dhires_line E line
      = finish_scanline E
          (for_loop (mono560_column E line) 40 0
            { data := left_padding E, sl_pos := 3, i := 0, dotc := 0, dots := 0,
              pixelmode := 0 }).data
          (for_loop (mono560_column E line) 40 0
            { data := left_padding E, sl_pos := 3, i := 0, dotc := 0, dots := 0,
              pixelmode := 0 }).sl_pos := by
  have hp := dhires_pad_eq E (by rw [hmode]; decide)
  unfold render_dhires_line dhires_decode
  rw [hp, if_pos hmode]

theorem dhires_mode_560 (E : Env)
    (h : E.soft_monochrom = true ∨ E.soft_video7_mode = Video7Mode.VIDEO7_MODE_560x192) :
    dhires_mode E = Video7Mode.VIDEO7_MODE_560x192 := by
  unfold dhires_mode
  rcases h with h | h
  · rw [h]
    rfl
  · rw [h]
    split <;> rfl

/-- Bit `r` of a column's 14-bit window is bit `14 c + r` of the interleaved stream. -/
theorem mono560_window_testBit (E : Env) (line c r : Nat) (hr : r < 14) :
    (mono560_window E line c).testBit r = dhires_stream_bit E line (14 * c + r) := by
  have h1 : (14 * c + r) % 14 = r := by omega
  have h2 : (14 * c + r) / 14 = c := by omega
  unfold mono560_window dhires_stream_bit
  rw [h1, h2, and_127, and_127]
  simp only [Nat.testBit_or, Nat.testBit_shiftLeft, Nat.testBit_mod_two_pow]
  by_cases h : r < 7
  · have : ¬ r ≥ 7 := by omega
    simp [h, this]
  · have h3 : r ≥ 7 := by omega
    have h4 : r - 7 < 7 := by omega
    simp [h, h3, h4]

theorem and_3_bits (x : Nat) :
    x &&& 3 = (x.testBit 0).toNat + 2 * (x.testBit 1).toNat := by
  have h0 : x.testBit 0 = decide (x % 2 = 1) := Nat.testBit_zero x
  have h1 : x.testBit 1 = decide (x / 2 % 2 = 1) := by
    rw [Nat.testBit_to_div_mod]
  rw [and_3, h0, h1]
  by_cases a : x % 2 = 1 <;> by_cases b : x / 2 % 2 = 1 <;> simp [a, b] <;> omega

/-- Halves of the `bits_to_pixels` entry selected by two bits. -/
theorem halfword_bits_to_pixels (E : Env) (b0 b1 : Bool)
    (hbg : E.mono_bg_color < 2 ^ 16) (hfg : E.mono_fg_color < 2 ^ 16) :
    halfword (bits_to_pixels E (b0.toNat + 2 * b1.toNat)) 0 = mono_color E b0
      ∧ halfword (bits_to_pixels E (b0.toNat + 2 * b1.toNat)) 1 = mono_color E b1 := by
  cases b0 <;> cases b1
  · exact halfword_pair hbg hbg
  · exact halfword_pair hbg hfg
  · exact halfword_pair hfg hbg
  · exact halfword_pair hfg hfg

theorem mono560_column_words_length (E : Env) (line c : Nat) :
    (mono560_column_words E line c).length = 7 := by
  simp [mono560_column_words]

theorem mono560_column_words_get (E : Env) (line c j : Nat) (hj : j < 7) :
    (mono560_column_words E line c)[j]?
      = some (bits_to_pixels E ((mono560_window E line c >>> (2 * j)) &&& 3)) := by
  unfold mono560_column_words
  rw [List.getElem?_map, List.getElem?_range hj]
  rfl

theorem mono560_word_halves (E : Env) (line c j : Nat)
    (hbg : E.mono_bg_color < 2 ^ 16) (hfg : E.mono_fg_color < 2 ^ 16) :
    halfword (bits_to_pixels E ((mono560_window E line c >>> (2 * j)) &&& 3)) 0
        = mono_color E ((mono560_window E line c).testBit (2 * j))
      ∧ halfword (bits_to_pixels E ((mono560_window E line c >>> (2 * j)) &&& 3)) 1
        = mono_color E ((mono560_window E line c).testBit (2 * j + 1)) := by
  rw [and_3_bits, Nat.testBit_shiftRight, Nat.testBit_shiftRight]
  exact halfword_bits_to_pixels E _ _ hbg hfg

/-- C4. 560x192 monochrome decode: when monochrome is enabled or the selector is
560x192, the buffer holds the 3 padding words, then exactly 280 data words, then
the common tail; data word `7c + j` is `bits_to_pixels[v]` with `v` the value of
bits `2j`, `2j+1` of the window `(aux[c] & 0x7f) | ((main[c] & 0x7f) << 7)`; its
low half is the foreground colour when bit `2j` is 1 and its high half when bit
`2j+1` is 1 (background otherwise), so pixel `n` of the 560 is foreground exactly
when bit `n` of the interleaved aux-first stream is 1 (the two colours being
16-bit values). -/
theorem render_dhires_line_560 (E : Env) (line : Nat)
    (hmode : E.soft_monochrom = true
      ∨ E.soft_video7_mode = Video7Mode.VIDEO7_MODE_560x192)
    (hbg : E.mono_bg_color < 2 ^ 16) (hfg : E.mono_fg_color < 2 ^ 16) :
    (render_dhires_line E line).data
        = left_padding E ++ (List.range 40).flatMap (mono560_column_words E line)
          ++ line_hold_tail E
      ∧ (render_dhires_line E line).length = 3 + 280 + (line_hold_tail E).length
      ∧ (∀ c < 40, ∀ j < 7,
          (render_dhires_line E line).data[3 + (7 * c + j)]?
              = some (bits_to_pixels E ((mono560_window E line c >>> (2 * j)) &&& 3))
            ∧ halfword (bits_to_pixels E ((mono560_window E line c >>> (2 * j)) &&& 3)) 0
              = mono_color E ((mono560_window E line c).testBit (2 * j))
            ∧ halfword (bits_to_pixels E ((mono560_window E line c >>> (2 * j)) &&& 3)) 1
              = mono_color E ((mono560_window E line c).testBit (2 * j + 1)))
      ∧ ∀ n < 560, ∃ w, (render_dhires_line E line).data[3 + n / 2]? = some w
          ∧ halfword w (n % 2) = mono_color E (dhires_stream_bit E line n) := by
  have hm := dhires_mode_560 E hmode
  have hloop := mono560_loop_data E line
    { data := left_padding E, sl_pos := 3, i := 0, dotc := 0, dots := 0, pixelmode := 0 } 40
  have hdata : (render_dhires_line E line).data
        = left_padding E ++ (List.range 40).flatMap (mono560_column_words E line)
          ++ line_hold_tail E := by
    rw [render_dhires_line_560_eq E line hm, finish_scanline_data]
    exact congrArg (fun l => l ++ line_hold_tail E) hloop.1
  have hget : ∀ c < 40, ∀ j < 7,
      (render_dhires_line E line).data[3 + (7 * c + j)]?
        = some (bits_to_pixels E ((mono560_window E line c >>> (2 * j)) &&& 3)) := by
    intro c hc j hj
    have hlen := length_flatMap_range (mono560_column_words E line) 7
      (mono560_column_words_length E line) 40
    have hpad : (left_padding E).length = 3 := rfl
    rw [hdata, List.append_assoc, List.getElem?_append_right (by omega), hpad,
      List.getElem?_append_left (by omega),
      show 3 + (7 * c + j) - 3 = 7 * c + j by omega,
      getElem?_flatMap_range (mono560_column_words E line) 7
        (mono560_column_words_length E line) 40 c j hc hj]
    exact mono560_column_words_get E line c j hj
  refine ⟨hdata, ?_, ?_, ?_⟩
  · rw [render_dhires_line_560_eq E line hm, finish_scanline_length]
    exact congrArg (fun l => l + (line_hold_tail E).length) hloop.2
  · intro c hc j hj
    exact ⟨hget c hc j hj, mono560_word_halves E line c j hbg hfg⟩
  · intro n hn
    refine ⟨bits_to_pixels E
      ((mono560_window E line (n / 14) >>> (2 * (n % 14 / 2))) &&& 3), ?_, ?_⟩
    · have := hget (n / 14) (by omega) (n % 14 / 2) (by omega)
      rw [show 3 + (7 * (n / 14) + n % 14 / 2) = 3 + n / 2 by omega] at this
      exact this
    · have hh := mono560_word_halves E line (n / 14) (n % 14 / 2) hbg hfg
      have hs : ∀ r, r < 14 → 14 * (n / 14) + r = n →
          (mono560_window E line (n / 14)).testBit r = dhires_stream_bit E line n := by
        intro r hr hrn
        rw [mono560_window_testBit E line _ r hr, hrn]
      rcases Nat.mod_two_eq_zero_or_one n with h | h
      · rw [h, hh.1, hs _ (by omega) (by omega)]
      · rw [h, hh.2, hs _ (by omega) (by omega)]

/-- Instance of C4 in the concrete environment with monochrome switched on. -/
theorem render_dhires_line_560_witness :
    (render_dhires_line { demo_env with soft_monochrom := true } 0).length
      = 3 + 280 + (line_hold_tail { demo_env with soft_monochrom := true }).length :=
  (render_dhires_line_560 { demo_env with soft_monochrom := true } 0 (Or.inl rfl)
    (by decide) (by decide)).2.1

/-- C5. 160x192 decode: with monochrome off and the 160x192 selector the buffer
has no padding and exactly 80 data words before the common tail; word `2c` is
built from `aux[c]` and word `2c+1` from `main[c]`; for source byte `b` the low
half of the word is `lores_palette[b & 0xF] | THEN_EXTEND_3` and its high half is
`lores_palette[(b >> 4) & 0xF] | THEN_EXTEND_3` (palette entries and the flag
being 16-bit values). -/
theorem render_dhires_line_160 (E : Env) (line : Nat)
    (hmono : E.soft_monochrom = false)
    (hmode : E.soft_video7_mode = Video7Mode.VIDEO7_MODE_160x192)
    (hpal : ∀ n < 16, E.lores_palette n < 2 ^ 16) (hext : E.THEN_EXTEND_3 < 2 ^ 16) :
    (render_dhires_line E line).data
        = (List.range 40).flatMap
            (fun c => [color160_pair E (line_mem_odd E line c),
                       color160_pair E (line_mem_even E line c)])
          ++ line_hold_tail E
      ∧ (render_dhires_line E line).length = 80 + (line_hold_tail E).length
      ∧ (∀ c < 40,
          (render_dhires_line E line).data[2 * c]?
              = some (color160_pair E (line_mem_odd E line c))
            ∧ (render_dhires_line E line).data[2 * c + 1]?
              = some (color160_pair E (line_mem_even E line c)))
      ∧ ∀ b, halfword (color160_pair E b) 0
              = E.lores_palette (b &&& 0xF) ||| E.THEN_EXTEND_3
            ∧ halfword (color160_pair E b) 1
              = E.lores_palette ((b >>> 4) &&& 0xF) ||| E.THEN_EXTEND_3 := by
  have hloop := color160_loop_data E line dhires_start 40 hpal hext
  have hdata : (render_dhires_line E line).data
        = (List.range 40).flatMap
            (fun c => [color160_pair E (line_mem_odd E line c),
                       color160_pair E (line_mem_even E line c)])
          ++ line_hold_tail E := by
    rw [render_dhires_line_160_eq E line hmono hmode, finish_scanline_data]
    exact congrArg (fun l => l ++ line_hold_tail E) (hloop.1.trans (List.nil_append _))
  refine ⟨hdata, ?_, ?_, ?_⟩
  · rw [render_dhires_line_160_eq E line hmono hmode, finish_scanline_length]
    exact congrArg (fun l => l + (line_hold_tail E).length) hloop.2
  · intro c hc
    have hlen := length_flatMap_range
      (fun c => [color160_pair E (line_mem_odd E line c),
                 color160_pair E (line_mem_even E line c)]) 2 (fun _ => rfl) 40
    have h0 := getElem?_flatMap_range
      (fun c => [color160_pair E (line_mem_odd E line c),
                 color160_pair E (line_mem_even E line c)]) 2 (fun _ => rfl) 40 c 0 hc (by omega)
    have h1 := getElem?_flatMap_range
      (fun c => [color160_pair E (line_mem_odd E line c),
                 color160_pair E (line_mem_even E line c)]) 2 (fun _ => rfl) 40 c 1 hc (by omega)
    rw [hdata]
    constructor
    · rw [List.getElem?_append_left (by omega)]
      exact h0
    · rw [List.getElem?_append_left (by omega), h1]
      rfl
  · intro b
    exact halfword_pixel_pair (or_lt_16 (hpal _ (and_15_lt b)) hext)
      (or_lt_16 (hpal _ (and_15_lt (b >>> 4))) hext)

/-- Instance of C5 in the concrete environment, 160x192 selected. -/
theorem render_dhires_line_160_witness :
    (render_dhires_line
        { demo_env with soft_video7_mode := Video7Mode.VIDEO7_MODE_160x192 } 0).length
      = 80 + (line_hold_tail
        { demo_env with soft_video7_mode := Video7Mode.VIDEO7_MODE_160x192 }).length :=
  (render_dhires_line_160
    { demo_env with soft_video7_mode := Video7Mode.VIDEO7_MODE_160x192 } 0 rfl rfl
    (by intro n hn; simp only [demo_env]; omega) (by decide)).2.1

set_option maxRecDepth 100000 in
/-- C6. Line addressing: for every line index below 192 the offset is
`1024 * (line mod 8) + 128 * ((line div 8) mod 8) + 40 * (line div 64)`: each of
the three terms of the source expression is the corresponding product, the top
two bits select one of three bands, and no two terms share a set bit, so the
bitwise OR of the source is their sum. -/
theorem hires_line_to_mem_offset_eq_sum : ∀ line < 192,
    hires_line_to_mem_offset line
        = 1024 * (line % 8) + 128 * ((line / 8) % 8) + 40 * (line / 64)
      ∧ (line &&& 0x07) <<< 10 = 1024 * (line % 8)
      ∧ (line &&& 0x38) <<< 4 = 128 * ((line / 8) % 8)
      ∧ ((line &&& 0xc0) >>> 6) * 40 = 40 * (line / 64)
      ∧ line / 64 < 3
      ∧ (1024 * (line % 8)) &&& (128 * ((line / 8) % 8)) = 0
      ∧ (1024 * (line % 8)) &&& (40 * (line / 64)) = 0
      ∧ (128 * ((line / 8) % 8)) &&& (40 * (line / 64)) = 0 := by
  decide

/-- Instance of C6 at line 100. -/
theorem hires_line_to_mem_offset_eq_sum_witness :
    hires_line_to_mem_offset 100 = 1024 * 4 + 128 * 4 + 40 * 1 :=
  (hires_line_to_mem_offset_eq_sum 100 (by decide)).1

/-! ## Finalization -/

theorem finish_scanline_repeat_count (E : Env) (d : List Nat) (p : Nat) :
    (finish_scanline E d p).repeat_count
      = if E.soft_scanline_emulation then none else some 1 := by
  unfold finish_scanline
  split <;> rfl

theorem mix_load_flag (E : Env) (b : Bool) (line : Nat) (s : DhiresState) :
    mix_load (with_emulation E b) line s = mix_load E line s := by
  induction s using mix_load.induct E line with
  | case1 t hc ih =>
    rw [mix_load, if_pos hc, mix_load.eq_1 E line t, if_pos hc]
    exact ih
  | case2 t hc =>
    rw [mix_load, if_neg hc, mix_load.eq_1 E line t, if_neg hc]

theorem mix_draw_flag (E : Env) (b : Bool) (s : DhiresState) :
    mix_draw (with_emulation E b) s = mix_draw E s := by
  induction s using mix_draw.induct E with
  | case1 t hc ih =>
    rw [mix_draw, if_pos hc, mix_draw.eq_1 E t, if_pos hc]
    exact ih
  | case2 t hc =>
    rw [mix_draw, if_neg hc, mix_draw.eq_1 E t, if_neg hc]

theorem mix_loop_flag (E : Env) (b : Bool) (line : Nat) (s : DhiresState) :
    mix_loop (with_emulation E b) line s = mix_loop E line s := by
  induction s using mix_loop.induct E line with
  | case1 t hc ih =>
    rw [mix_loop, if_pos hc, mix_loop.eq_1 E line t, if_pos hc, mix_load_flag, mix_draw_flag]
    exact ih
  | case2 t hc =>
    rw [mix_loop, if_neg hc, mix_loop.eq_1 E line t, if_neg hc]

theorem color140_load_flag (E : Env) (b : Bool) (line : Nat) (s : DhiresState) :
    color140_load (with_emulation E b) line s = color140_load E line s := by
  induction s using color140_load.induct E line with
  | case1 t hc ih =>
    rw [color140_load, if_pos hc, color140_load.eq_1 E line t, if_pos hc]
    exact ih
  | case2 t hc =>
    rw [color140_load, if_neg hc, color140_load.eq_1 E line t, if_neg hc]

theorem color140_draw_flag (E : Env) (b : Bool) (s : DhiresState) :
    color140_draw (with_emulation E b) s = color140_draw E s := by
  induction s using color140_draw.induct E with
  | case1 t hc ih =>
    rw [color140_draw, if_pos hc, color140_draw.eq_1 E t, if_pos hc]
    exact ih
  | case2 t hc =>
    rw [color140_draw, if_neg hc, color140_draw.eq_1 E t, if_neg hc]

theorem color140_loop_flag (E : Env) (b : Bool) (line : Nat) (s : DhiresState) :
    color140_loop (with_emulation E b) line s = color140_loop E line s := by
  induction s using color140_loop.induct E line with
  | case1 t hc ih =>
    rw [color140_loop, if_pos hc, color140_loop.eq_1 E line t, if_pos hc,
      color140_load_flag, color140_draw_flag]
    exact ih
  | case2 t hc =>
    rw [color140_loop, if_neg hc, color140_loop.eq_1 E line t, if_neg hc]

/-- The decoding loops do not read the scanline-emulation flag. -/
theorem dhires_decode_flag (E : Env) (b : Bool) (line : Nat) :
    dhires_decode (with_emulation E b) line (dhires_pad (with_emulation E b) dhires_start)
      = dhires_decode E line (dhires_pad E dhires_start) := by
  have hm : dhires_mode (with_emulation E b) = dhires_mode E := rfl
  have hp : dhires_pad (with_emulation E b) dhires_start = dhires_pad E dhires_start := rfl
  rw [hp]
  unfold dhires_decode
  rw [hm, mix_loop_flag, color140_loop_flag]
  rfl

theorem hires_loop_flag (E : Env) (b : Bool) (line : Nat) :
    for_loop (hires_byte (with_emulation E b) line) 40 1 (hires_start (with_emulation E b) line)
      = for_loop (hires_byte E line) 40 1 (hires_start E line) := rfl

theorem for_loop_synced (body : Nat → DhiresState → DhiresState)
    (hbody : ∀ i s, Synced s → Synced (body i s)) (n start : Nat) (s : DhiresState)
    (hs : Synced s) : Synced (for_loop body n start s) := by
  induction n generalizing start s with
  | zero => exact hs
  | succ n ih => exact ih _ _ (hbody _ _ hs)

theorem mono560_column_synced (E : Env) (line i : Nat) (s : DhiresState) (hs : Synced s) :
    Synced (mono560_column E line i s) := by
  have h := mono560_column_data E line i s
  unfold Synced at *
  rw [h.1, h.2, List.length_append, mono560_column_words_length, hs]

theorem color160_column_synced (E : Env) (line i : Nat) (s : DhiresState) (hs : Synced s) :
    Synced (color160_column E line i s) := by
  unfold Synced at *
  simp only [color160_column, List.length_append, List.length_singleton]
  omega

theorem mix_load_synced (E : Env) (line : Nat) (s : DhiresState) (hs : Synced s) :
    Synced (mix_load E line s) := by
  induction s using mix_load.induct E line with
  | case1 t hc ih =>
    rw [mix_load, if_pos hc]
    exact ih hs
  | case2 t hc =>
    rw [mix_load, if_neg hc]
    exact hs

theorem mix_draw_group_synced (E : Env) (s : DhiresState) (hs : Synced s) :
    Synced (mix_draw_group E s) := by
  unfold Synced at *
  unfold mix_draw_group
  split
  · simp only [List.length_append, List.length_singleton]
    omega
  · simp only [List.length_append, List.length_singleton]
    omega

theorem mix_draw_synced (E : Env) (s : DhiresState) (hs : Synced s) :
    Synced (mix_draw E s) := by
  induction s using mix_draw.induct E with
  | case1 t hc ih =>
    rw [mix_draw, if_pos hc]
    exact ih (mix_draw_group_synced E t hs)
  | case2 t hc =>
    rw [mix_draw, if_neg hc]
    exact hs

theorem mix_loop_synced (E : Env) (line : Nat) (s : DhiresState) (hs : Synced s) :
    Synced (mix_loop E line s) := by
  induction s using mix_loop.induct E line with
  | case1 t hc ih =>
    rw [mix_loop, if_pos hc]
    exact ih (mix_draw_synced E _ (mix_load_synced E line t hs))
  | case2 t hc =>
    rw [mix_loop, if_neg hc]
    exact hs

theorem color140_load_synced (E : Env) (line : Nat) (s : DhiresState) (hs : Synced s) :
    Synced (color140_load E line s) := by
  induction s using color140_load.induct E line with
  | case1 t hc ih =>
    rw [color140_load, if_pos hc]
    exact ih hs
  | case2 t hc =>
    rw [color140_load, if_neg hc]
    exact hs

theorem color140_draw_synced (E : Env) (s : DhiresState) (hs : Synced s) :
    Synced (color140_draw E s) := by
  induction s using color140_draw.induct E with
  | case1 t hc ih =>
    rw [color140_draw, if_pos hc]
    refine ih ?_
    unfold Synced at *
    simp only [color140_draw_pair, List.length_append, List.length_singleton]
    omega
  | case2 t hc =>
    rw [color140_draw, if_neg hc]
    exact hs

theorem color140_loop_synced (E : Env) (line : Nat) (s : DhiresState) (hs : Synced s) :
    Synced (color140_loop E line s) := by
  induction s using color140_loop.induct E line with
  | case1 t hc ih =>
    rw [color140_loop, if_pos hc]
    exact ih (color140_draw_synced E _ (color140_load_synced E line t hs))
  | case2 t hc =>
    rw [color140_loop, if_neg hc]
    exact hs

/-- In every sub-mode the decoding loops leave `sl_pos` equal to the number of
words written. -/
theorem dhires_decode_synced (E : Env) (line : Nat) :
    Synced (dhires_decode E line (dhires_pad E dhires_start)) := by
  have hp : Synced (dhires_pad E dhires_start) := by
    unfold dhires_pad
    split
    · exact (rfl : (0 : Nat) + 3 = 3)
    · exact (rfl : (0 : Nat) = 0)
  unfold dhires_decode
  split
  · exact for_loop_synced _ (mono560_column_synced E line) _ _ _ hp
  · split
    · exact for_loop_synced _ (color160_column_synced E line) _ _ _ hp
    · split
      · exact mix_loop_synced E line _ hp
      · exact color140_loop_synced E line _ hp

/-- The loops of `render_hires_line` write 283 words at positions 0 .. 282. -/
theorem hires_loop_synced (E : Env) (line : Nat) :
    (for_loop (hires_byte E line) 40 1 (hires_start E line)).sl_pos
      = (for_loop (hires_byte E line) 40 1 (hires_start E line)).data.length := by
  have := for_loop_invariant
    (fun _ (t : HiresState) => t.sl_pos = t.data.length)
    (hires_byte E line) 40 1 (hires_start E line) rfl
    (by
      intro i t _ _ ht
      simp only [hires_byte, for_loop, hires_pixel, List.length_append, List.length_singleton]
      omega)
  exact this

theorem render_hires_line_flag (E : Env) (b : Bool) (line : Nat) :
    render_hires_line (with_emulation E b) line
      = finish_scanline (with_emulation E b)
          (for_loop (hires_byte E line) 40 1 (hires_start E line)).data
          (for_loop (hires_byte E line) 40 1 (hires_start E line)).sl_pos := by
  unfold render_hires_line
  rw [hires_loop_flag]

theorem render_dhires_line_flag (E : Env) (b : Bool) (line : Nat) :
    render_dhires_line (with_emulation E b) line
      = finish_scanline (with_emulation E b)
          (dhires_decode E line (dhires_pad E dhires_start)).data
          (dhires_decode E line (dhires_pad E dhires_start)).sl_pos := by
  unfold render_dhires_line
  rw [dhires_decode_flag]

theorem finish_scanline_on (E : Env) (d : List Nat) (p : Nat) :
    finish_scanline (with_emulation E true) d p
      = { data := d ++ [u32 E.THEN_WAIT_HSYNC], length := p + 1, repeat_count := none } := rfl

theorem finish_scanline_off (E : Env) (d : List Nat) (p : Nat) :
    finish_scanline (with_emulation E false) d p
      = { data := d, length := p, repeat_count := some 1 } := rfl


/-! ## Width of a single-resolution line -/

theorem hires_shape_pixel (E : Env) (n : Nat) (s : HiresState) (h : HiresShape E n s) :
    HiresShape E (n + 1) (hires_pixel E s) := by
  obtain ⟨ws, hd, hl, hw⟩ := h
  refine ⟨ws ++ [u32 (E.hires_color_patterns (s.oddness ||| ((s.dots >>> 24) &&& 0xff)))],
    ?_, ?_, ?_⟩
  · simp only [hires_pixel]
    rw [hd, List.append_assoc]
  · rw [List.length_append, hl]
    rfl
  · intro w hmem
    rcases List.mem_append.1 hmem with h1 | h1
    · exact hw w h1
    · exact ⟨_, List.mem_singleton.1 h1⟩

theorem hires_shape_byte (E : Env) (line i n : Nat) (s : HiresState) (h : HiresShape E n s) :
    HiresShape E (n + 7) (hires_byte E line i s) := by
  have h0 : HiresShape E n
      { s with dots :=
          (if (if i < 40 then line_mem_even E line i else 0) &&& 0x80 ≠ 0
            then s.dots ||| ((s.dots &&& (1 <<< 15)) >>> 1) else s.dots)
          ||| u32 (u32 (E.hires_dot_patterns (if i < 40 then line_mem_even E line i else 0))
                <<< 1) } := h
  have h1 := hires_shape_pixel E _ _ h0
  have h2 := hires_shape_pixel E _ _ h1
  have h3 := hires_shape_pixel E _ _ h2
  have h4 := hires_shape_pixel E _ _ h3
  have h5 := hires_shape_pixel E _ _ h4
  have h6 := hires_shape_pixel E _ _ h5
  have h7 := hires_shape_pixel E _ _ h6
  exact h7

theorem hires_shape_line (E : Env) (line : Nat) :
    HiresShape E 280 (for_loop (hires_byte E line) 40 1 (hires_start E line)) := by
  have := for_loop_invariant
    (fun i (t : HiresState) => HiresShape E (7 * (i - 1)) t)
    (hires_byte E line) 40 1 (hires_start E line)
    ⟨[], by simp [hires_start], rfl, by simp⟩
    (by
      intro i t h1 h2 hinv
      have := hires_shape_byte E line i _ t hinv
      rw [show 7 * (i - 1) + 7 = 7 * (i + 1 - 1) by omega] at this
      exact this)
  exact this

theorem buffer_width_append (E : Env) (ext : Nat → Nat) (xs ys : List Nat) :
    buffer_width E ext (xs ++ ys) = buffer_width E ext xs + buffer_width E ext ys := by
  unfold buffer_width
  rw [List.map_append, List.sum_append]

theorem buffer_width_const (E : Env) (ext : Nat → Nat) (c : Nat) (ws : List Nat)
    (h : ∀ w ∈ ws, word_width E ext w = c) : buffer_width E ext ws = c * ws.length := by
  induction ws with
  | nil => simp [buffer_width]
  | cons w ws ih =>
    have h1 := h w (List.mem_cons_self _ _)
    have h2 := ih (fun x hx => h x (List.mem_cons_of_mem _ hx))
    unfold buffer_width at *
    rw [List.map_cons, List.sum_cons, h1, h2, List.length_cons, Nat.mul_succ]
    omega

theorem buffer_width_tail (E : Env) (ext : Nat → Nat) :
    buffer_width E ext (line_hold_tail E) = 0 := by
  unfold line_hold_tail
  split
  · simp [buffer_width, word_width]
  · simp [buffer_width]

theorem pad_word_halves (x : Nat) (hx : x < 2 ^ 16) :
    halfword (u32 ((0 ||| x) ||| ((0 ||| x) <<< 16))) 0 = x
      ∧ halfword (u32 ((0 ||| x) ||| ((0 ||| x) <<< 16))) 1 = x := by
  have h := halfword_pixel_pair hx hx
  have hlt : x <<< 16 < 2 ^ 32 := by
    rw [Nat.shiftLeft_eq]
    omega
  have e : u32 ((0 ||| x) ||| ((0 ||| x) <<< 16)) = pixel_pair x x := by
    rw [Nat.zero_or]
    exact u32_of_lt (Nat.or_lt_two_pow (by omega) hlt)
  rw [e]
  exact h

/-- The three padding words cover 40 slots. -/
theorem left_padding_width (E : Env) (ext : Nat → Nat)
    (h7 : E.THEN_EXTEND_7 < 2 ^ 16) (h3 : E.THEN_EXTEND_3 < 2 ^ 16)
    (e7 : ext E.THEN_EXTEND_7 = 7) (e3 : ext E.THEN_EXTEND_3 = 3)
    (m7 : pad_word_7 E ≠ u32 E.THEN_WAIT_HSYNC) (m3 : pad_word_3 E ≠ u32 E.THEN_WAIT_HSYNC) :
    buffer_width E ext (left_padding E) = 40 := by
  have a := pad_word_halves _ h7
  have b := pad_word_halves _ h3
  have w7 : word_width E ext (pad_word_7 E) = 16 := by
    unfold word_width
    rw [if_neg m7]
    unfold pad_word_7
    rw [a.1, a.2, e7]
  have w3 : word_width E ext (pad_word_3 E) = 8 := by
    unfold word_width
    rw [if_neg m3]
    unfold pad_word_3
    rw [b.1, b.2, e3]
  simp [buffer_width, left_padding, w7, w3]

/-- Width of the buffer of `render_hires_line` for any page content. -/
theorem hires_line_width (E : Env) (line : Nat) (ext : Nat → Nat)
    (h7 : E.THEN_EXTEND_7 < 2 ^ 16) (h3 : E.THEN_EXTEND_3 < 2 ^ 16)
    (e7 : ext E.THEN_EXTEND_7 = 7) (e3 : ext E.THEN_EXTEND_3 = 3)
    (m7 : pad_word_7 E ≠ u32 E.THEN_WAIT_HSYNC) (m3 : pad_word_3 E ≠ u32 E.THEN_WAIT_HSYNC)
    (hC : ∀ p, u32 (E.hires_color_patterns p) ≠ u32 E.THEN_WAIT_HSYNC
      ∧ ext (halfword (u32 (E.hires_color_patterns p)) 0) = 0
      ∧ ext (halfword (u32 (E.hires_color_patterns p)) 1) = 0) :
    buffer_width E ext (render_hires_line E line).data = 40 + 2 * 280 := by
  obtain ⟨ws, hd, hl, hw⟩ := hires_shape_line E line
  have hws : buffer_width E ext ws = 2 * ws.length := by
    apply buffer_width_const
    intro w hmem
    obtain ⟨p, rfl⟩ := hw w hmem
    obtain ⟨c1, c2, c3⟩ := hC p
    unfold word_width
    rw [if_neg c1, c2, c3]
  unfold render_hires_line
  rw [finish_scanline_data, hd, buffer_width_append, buffer_width_append, buffer_width_tail,
    left_padding_width E ext h7 h3 e7 e3 m7 m3, hws, hl]

/-- C8 (amended). Single-resolution total width: for every line, page content and
flag setting, the buffer of `render_hires_line` is 600 slots wide (40 padding
slots and 2 slots for each of the 280 pixels), counting for each half-word 1 plus
its extend count (`THEN_EXTEND_7` adds 7, `THEN_EXTEND_3` adds 3) and nothing for
the `THEN_WAIT_HSYNC` marker, when every `hires_color_patterns` entry is a plain
pixel pair without extend code. -/
theorem render_hires_line_width (E : Env) (line : Nat) (ext : Nat → Nat)
    (h7 : E.THEN_EXTEND_7 < 2 ^ 16) (h3 : E.THEN_EXTEND_3 < 2 ^ 16)
    (e7 : ext E.THEN_EXTEND_7 = 7) (e3 : ext E.THEN_EXTEND_3 = 3)
    (m7 : pad_word_7 E ≠ u32 E.THEN_WAIT_HSYNC) (m3 : pad_word_3 E ≠ u32 E.THEN_WAIT_HSYNC)
    (hC : ∀ p, u32 (E.hires_color_patterns p) ≠ u32 E.THEN_WAIT_HSYNC
      ∧ ext (halfword (u32 (E.hires_color_patterns p)) 0) = 0
      ∧ ext (halfword (u32 (E.hires_color_patterns p)) 1) = 0) :
    buffer_width E ext (render_hires_line E line).data = 600 :=
  hires_line_width E line ext h7 h3 e7 e3 m7 m3 hC

theorem demo_env_plain_colors (p : Nat) :
    u32 (demo_env.hires_color_patterns p) ≠ u32 demo_env.THEN_WAIT_HSYNC
      ∧ demo_ext (halfword (u32 (demo_env.hires_color_patterns p)) 0) = 0
      ∧ demo_ext (halfword (u32 (demo_env.hires_color_patterns p)) 1) = 0 := by
  have hx : p % 512 < 512 := Nat.mod_lt _ (by norm_num)
  have hc : demo_env.hires_color_patterns p = p % 512 := rfl
  have hu : u32 (p % 512) = p % 512 := u32_of_lt (by omega)
  have hm : u32 demo_env.THEN_WAIT_HSYNC = 1536 := by decide
  have h0 : halfword (p % 512) 0 = p % 512 := by
    unfold halfword
    rw [Nat.shiftRight_eq_div_pow]
    omega
  have h1 : halfword (p % 512) 1 = 0 := by
    unfold halfword
    rw [Nat.shiftRight_eq_div_pow]
    omega
  have h9 : (p % 512) >>> 9 = 0 := by
    rw [Nat.shiftRight_eq_div_pow]
    omega
  rw [hc, hu, hm, h0, h1]
  refine ⟨by omega, ?_, by decide⟩
  unfold demo_ext
  rw [h9]
  decide

/-- Instance of the amended C8 in the concrete environment. -/
theorem render_hires_line_width_witness :
    buffer_width demo_env demo_ext (render_hires_line demo_env 7).data = 600 :=
  render_hires_line_width demo_env 7 demo_ext (by decide) (by decide) (by decide) (by decide)
    (by decide) (by decide) demo_env_plain_colors

set_option maxRecDepth 1000000 in
/-- C8 as stated fails: in the concrete environment, whose colour table holds
plain pixel pairs, line 0 is 600 slots wide, not 320. -/
theorem render_hires_line_width_counterexample :
    buffer_width demo_env demo_ext (render_hires_line demo_env 0).data = 600
      ∧ buffer_width demo_env demo_ext (render_hires_line demo_env 0).data ≠ 320 := by
  decide

/-! ## The all-zero page -/

set_option maxRecDepth 100000 in
theorem hires_line_in_page : ∀ line < 192, hires_line_to_mem_offset line + 40 ≤ 8192 := by
  decide

theorem finish_scanline_eq (E : Env) (d : List Nat) (p : Nat) :
    finish_scanline E d p
      = { data := d ++ line_hold_tail E
          length := p + (line_hold_tail E).length
          repeat_count := if E.soft_scanline_emulation then none else some 1 } := by
  unfold finish_scanline line_hold_tail
  split <;> simp

theorem zero_line_byte (E : Env) (line : Nat) (hline : line < 192)
    (hzero : ∀ a < 8192, display_page E a % 256 = 0) (m : Nat) :
    hires_line_byte E line m = 0 := by
  unfold hires_line_byte
  split
  · have := hires_line_in_page line hline
    exact hzero _ (by omega)
  · rfl

theorem zero_dot_at (E : Env) (line : Nat)
    (hb : ∀ m, hires_line_byte E line m = 0) (hP0 : E.hires_dot_patterns 0 = 0) (p : Int) :
    dot_at E line p = false := by
  have hraw : ∀ q, raw_dot E line q = false := by
    intro q
    unfold raw_dot
    rw [hb, hP0]
    exact Nat.zero_testBit _
  unfold dot_at
  split
  · rfl
  · rw [dot_stream_eq, hraw, hraw]
    simp

theorem zero_hires_word (E : Env) (line : Nat)
    (hb : ∀ m, hires_line_byte E line m = 0) (hP0 : E.hires_dot_patterns 0 = 0) (k : Nat) :
    hires_word E line k = u32 (E.hires_color_patterns (if k % 2 = 0 then 0 else 0x100)) := by
  have hw : dot_window E line k = 0 := by
    unfold dot_window
    simp only [zero_dot_at E line hb hP0]
    rfl
  unfold hires_word
  rw [hw]
  rcases Nat.mod_two_eq_zero_or_one k with h | h
  · rw [h]
    rfl
  · rw [h]
    rfl

/-- Every line of an all-zero page decodes to `zero_scanline`. -/
theorem zero_page_line (E : Env) (line : Nat) (hline : line < 192)
    (hzero : ∀ a < 8192, display_page E a % 256 = 0) (hP0 : E.hires_dot_patterns 0 = 0) :
    render_hires_line E line = zero_scanline E := by
  have hb := zero_line_byte E line hline hzero
  have hP : ∀ m ≤ 40, E.hires_dot_patterns (hires_line_byte E line m) < 2 ^ 14 := by
    intro m _
    rw [hb, hP0]
    norm_num
  obtain ⟨_, _, hdata, hpos⟩ := hires_inv_line E line hP
  have hmap : (List.range 280).map (hires_word E line)
      = (List.range 280).map
          (fun k => u32 (E.hires_color_patterns (if k % 2 = 0 then 0 else 0x100))) :=
    List.map_congr_left (fun k _ => zero_hires_word E line hb hP0 k)
  unfold render_hires_line
  rw [finish_scanline_eq]
  simp only [hdata, hpos, hmap]
  rfl

theorem render_lines_single (E : Env) (hsingle : use_dhires E = false) (n : Nat)
    (calls : List vga_call) :
    render_lines E n calls
      = calls ++ (List.range n).map
          (fun line => vga_call.vga_submit_scanline (render_hires_line E line)) := by
  unfold render_lines
  rw [hsingle]
  have := for_loop_invariant
    (fun i (cs : List vga_call) =>
      cs = calls ++ (List.range i).map
          (fun line => vga_call.vga_submit_scanline (render_hires_line E line)))
    (fun line cs => cs ++ [vga_call.vga_submit_scanline (render_hires_line E line)])
    n 0 calls (by simp)
    (by
      intro i cs _ _ h
      rw [h, List.range_succ, List.map_append]
      simp only [List.append_assoc, List.map_cons, List.map_nil])
  simpa using this


/-! ## Mixed sub-mode against 140x192 -/

theorem flatMap_singleton_range {α : Type} (G : Nat → List α) (g : Nat → α) (n : Nat)
    (h : ∀ m < n, G m = [g m]) : (List.range n).flatMap G = (List.range n).map g := by
  induction n with
  | zero => rfl
  | succ n ih =>
    rw [List.range_succ, List.flatMap_append, List.map_append,
      ih (fun m hm => h m (by omega))]
    simp [h n (by omega)]

theorem all_flags_pending (E : Env) (line : Nat)
    (hflags : ∀ c < 40, (line_mem_odd E line c).testBit 7 = true
      ∧ (line_mem_even E line c).testBit 7 = true) (m : Nat) (hm : m < 140) :
    mix_pending_flag E line m = true := by
  apply mix_window_pending
  unfold mix_window_flag
  rw [List.any_eq_true]
  refine ⟨0, List.mem_range.2 (by decide), ?_⟩
  unfold dhires_flag_bit
  have hc : (4 * m + 0) / 14 < 40 := by omega
  split
  · exact (hflags _ hc).1
  · exact (hflags _ hc).2

/-- The mixed buffer of a line whose pixel-mode flags are all set. -/
theorem mix_line_all_flags (E : Env) (line : Nat)
    (hm : dhires_mode E = Video7Mode.VIDEO7_MODE_MIX)
    (hflags : ∀ c < 40, (line_mem_odd E line c).testBit 7 = true
      ∧ (line_mem_even E line c).testBit 7 = true) :
    (render_dhires_line E line).data
      = left_padding E ++ (List.range 140).map (mix_color_word E line)
        ++ line_hold_tail E := by
  rw [(mix_line_data E line hm).1,
    flatMap_singleton_range (mix_group_words E line) (mix_color_word E line) 140
      (fun m hlt => by
        unfold mix_group_words
        rw [if_pos (all_flags_pending E line hflags m hlt)])]

/-- C10 (amended). Mixed/140x192 equivalence holds for lines whose bytes all have
bit 7 set, and at the level of palette indices: the mixed sub-mode then decodes
the same 140 nibbles `n_m` in the same order as 140x192 mode.  The words differ:
mixed emits 140 data words, word `m` holding `dhgr_palette[n_m] | THEN_EXTEND_1`
in both half-words, where 140x192 emits 70 data words, word `w` holding
`dhgr_palette[n_2w] | THEN_EXTEND_3` and `dhgr_palette[n_2w+1] | THEN_EXTEND_3`. -/
theorem mix_matches_140_when_flags_set (E : Env) (line : Nat)
    (hmono : E.soft_monochrom = false)
    (hflags : ∀ c < 40, (line_mem_odd E line c).testBit 7 = true
      ∧ (line_mem_even E line c).testBit 7 = true) :
    (render_dhires_line (with_video7_mode E Video7Mode.VIDEO7_MODE_MIX) line).data
        = left_padding E
          ++ (List.range 140).map
              (fun m =>
                u32 (E.dhgr_palette (dhires_nibble E line m) ||| E.THEN_EXTEND_1)
                  ||| u32 (u32 (E.dhgr_palette (dhires_nibble E line m)
                      ||| E.THEN_EXTEND_1) <<< 16))
          ++ line_hold_tail E
      ∧ (render_dhires_line (with_video7_mode E Video7Mode.VIDEO7_MODE_140x192) line).data
        = left_padding E
          ++ (List.range 70).map
              (fun w =>
                u32 (pixel_pair
                  (E.dhgr_palette (dhires_nibble E line (2 * w)) ||| E.THEN_EXTEND_3)
                  (E.dhgr_palette (dhires_nibble E line (2 * w + 1)) ||| E.THEN_EXTEND_3)))
          ++ line_hold_tail E := by
  have hm : dhires_mode (with_video7_mode E Video7Mode.VIDEO7_MODE_MIX)
      = Video7Mode.VIDEO7_MODE_MIX := dhires_mode_of _ _ hmono rfl
  have hc : dhires_mode (with_video7_mode E Video7Mode.VIDEO7_MODE_140x192)
      = Video7Mode.VIDEO7_MODE_140x192 := dhires_mode_of _ _ hmono rfl
  constructor
  · exact mix_line_all_flags (with_video7_mode E Video7Mode.VIDEO7_MODE_MIX) line hm hflags
  · exact (color140_line_data (with_video7_mode E Video7Mode.VIDEO7_MODE_140x192) line
      (by rw [hc]; decide) (by rw [hc]; decide) (by rw [hc]; decide)).1

/-- Instance of the amended C10 on the concrete line of `0xAA` bytes. -/
theorem mix_matches_140_when_flags_set_witness :
    (render_dhires_line (with_video7_mode flags_set_env Video7Mode.VIDEO7_MODE_MIX) 0).data
      = left_padding flags_set_env
        ++ (List.range 140).map
            (fun m =>
              u32 (flags_set_env.dhgr_palette (dhires_nibble flags_set_env 0 m)
                  ||| flags_set_env.THEN_EXTEND_1)
                ||| u32 (u32 (flags_set_env.dhgr_palette (dhires_nibble flags_set_env 0 m)
                    ||| flags_set_env.THEN_EXTEND_1) <<< 16))
        ++ line_hold_tail flags_set_env :=
  (mix_matches_140_when_flags_set flags_set_env 0 rfl
    (fun _ _ => ⟨show ((0xAA : Nat) % 256).testBit 7 = true by decide,
      show ((0xAA : Nat) % 256).testBit 7 = true by decide⟩)).1

set_option maxRecDepth 1000000 in
theorem demo_env_mix_length :
    (left_padding (with_video7_mode demo_env Video7Mode.VIDEO7_MODE_MIX)
        ++ (List.range 140).flatMap
            (mix_group_words (with_video7_mode demo_env Video7Mode.VIDEO7_MODE_MIX) 0)
        ++ line_hold_tail (with_video7_mode demo_env Video7Mode.VIDEO7_MODE_MIX)).length = 283
      ∧ (left_padding (with_video7_mode flags_set_env Video7Mode.VIDEO7_MODE_MIX)
        ++ (List.range 140).flatMap
            (mix_group_words (with_video7_mode flags_set_env Video7Mode.VIDEO7_MODE_MIX) 0)
        ++ line_hold_tail (with_video7_mode flags_set_env Video7Mode.VIDEO7_MODE_MIX)).length
          = 143 := by
  decide

set_option maxRecDepth 1000000 in
/-- C10 as stated fails.  On the concrete line of `0x2A` bytes, where bit 7 of
every byte is 0, the mixed sub-mode writes 283 words (280 monochrome data words)
and the 140x192 sub-mode 73.  With bit 7 of every byte set (`0xAA`) the mixed
sub-mode writes 143 words, still not the 73 of the 140x192 sub-mode. -/
theorem mix_matches_140_counterexample :
    (List.range 40).all (fun c =>
        !(line_mem_odd demo_env 0 c).testBit 7 && !(line_mem_even demo_env 0 c).testBit 7)
        = true
      ∧ (render_dhires_line (with_video7_mode demo_env Video7Mode.VIDEO7_MODE_MIX) 0).data
          ≠ (render_dhires_line (with_video7_mode demo_env Video7Mode.VIDEO7_MODE_140x192) 0).data
      ∧ (render_dhires_line (with_video7_mode demo_env Video7Mode.VIDEO7_MODE_MIX) 0).data.length
          = 283
      ∧ (render_dhires_line
          (with_video7_mode demo_env Video7Mode.VIDEO7_MODE_140x192) 0).data.length = 73
      ∧ (render_dhires_line
          (with_video7_mode flags_set_env Video7Mode.VIDEO7_MODE_MIX) 0).data.length = 143
      ∧ (render_dhires_line
          (with_video7_mode flags_set_env Video7Mode.VIDEO7_MODE_140x192) 0).data.length
          = 73 := by
  have h140 : ∀ E : Env, dhires_mode E = Video7Mode.VIDEO7_MODE_140x192 →
      E.soft_scanline_emulation = false → (render_dhires_line E 0).data.length = 73 := by
    intro E hm he
    rw [(color140_line_data E 0 (by rw [hm]; decide) (by rw [hm]; decide)
      (by rw [hm]; decide)).1, List.length_append, List.length_append, List.length_map,
      List.length_range]
    unfold line_hold_tail
    rw [he]
    rfl
  have hmix : (render_dhires_line
      (with_video7_mode demo_env Video7Mode.VIDEO7_MODE_MIX) 0).data.length = 283 := by
    rw [(mix_line_data (with_video7_mode demo_env Video7Mode.VIDEO7_MODE_MIX) 0 rfl).1]
    exact demo_env_mix_length.1
  refine ⟨by decide, ?_, hmix, h140 _ rfl rfl, ?_, h140 _ rfl rfl⟩
  · intro heq
    have h1 := h140 (with_video7_mode demo_env Video7Mode.VIDEO7_MODE_140x192) rfl rfl
    rw [← heq, hmix] at h1
    exact absurd h1 (by decide)
  · rw [(mix_line_data (with_video7_mode flags_set_env Video7Mode.VIDEO7_MODE_MIX) 0 rfl).1]
    exact demo_env_mix_length.2

/-! ## Mixed sub-mode with every pixel-mode flag clear -/

/-- A concatenation of `n` chunks of length `L` is the list of its `L * n`
elements. -/
theorem flatMap_range_eq_map {α : Type} (g : Nat → List α) (L : Nat) (f : Nat → α)
    (hg : ∀ c, g c = (List.range L).map (fun j => f (L * c + j))) (n : Nat) :
    (List.range n).flatMap g = (List.range (L * n)).map f := by
  induction n with
  | zero => rfl
  | succ n ih =>
    rw [List.range_succ, List.flatMap_append, ih, Nat.mul_succ, List.range_add,
      List.map_append, List.map_map]
    simp only [List.flatMap_cons, List.flatMap_nil, List.append_nil, hg n]
    rfl

theorem no_flags_pending (E : Env) (line : Nat)
    (hflags : ∀ c < 40, (line_mem_odd E line c).testBit 7 = false
      ∧ (line_mem_even E line c).testBit 7 = false) (m : Nat) (hm : m < 140) :
    mix_pending_flag E line m = false := by
  unfold mix_pending_flag
  rw [List.any_eq_false]
  intro t ht
  have h1 := List.mem_range.1 ht
  have hc : (4 * m + t) / 14 < 40 := by omega
  unfold dhires_flag_bit
  split
  · rw [(hflags _ hc).1]
    simp
  · rw [(hflags _ hc).2]
    simp

/-- The mixed buffer of a line whose pixel-mode flags are all clear: one word
for every two stream bits. -/
theorem mix_line_no_flags (E : Env) (line : Nat)
    (hm : dhires_mode E = Video7Mode.VIDEO7_MODE_MIX)
    (hflags : ∀ c < 40, (line_mem_odd E line c).testBit 7 = false
      ∧ (line_mem_even E line c).testBit 7 = false) :
    (render_dhires_line E line).data
      = left_padding E ++ (List.range 280).map (fun k => mix_mono_word E line (2 * k))
        ++ line_hold_tail E := by
  have h1 : (List.range 140).flatMap (mix_group_words E line)
      = (List.range 140).flatMap
          (fun m => [mix_mono_word E line (4 * m), mix_mono_word E line (4 * m + 2)]) := by
    apply List.flatMap_congr
    intro m hmem
    unfold mix_group_words
    rw [no_flags_pending E line hflags m (List.mem_range.1 hmem)]
    rfl
  have h2 := flatMap_range_eq_map
    (fun m => [mix_mono_word E line (4 * m), mix_mono_word E line (4 * m + 2)]) 2
    (fun k => mix_mono_word E line (2 * k))
    (fun c => by
      show [mix_mono_word E line (4 * c), mix_mono_word E line (4 * c + 2)]
        = [mix_mono_word E line (2 * (2 * c + 0)), mix_mono_word E line (2 * (2 * c + 1))]
      rw [show 2 * (2 * c + 0) = 4 * c by omega, show 2 * (2 * c + 1) = 4 * c + 2 by omega])
    140
  rw [(mix_line_data E line hm).1, h1, h2]

theorem mix_mono_word_eq (E : Env) (line p : Nat)
    (h0 : E.dhgr_palette 0 < 2 ^ 16) (h15 : E.dhgr_palette 15 < 2 ^ 16) :
    mix_mono_word E line p
      = pixel_pair (mix_dot_color E line p) (mix_dot_color E line (p + 1)) := by
  have hc : ∀ q, mix_dot_color E line q < 2 ^ 16 := by
    intro q
    unfold mix_dot_color
    split
    · exact h15
    · exact h0
  unfold mix_mono_word
  exact u32_pixel_pair (hc p) (hc (p + 1))

/-- C11 (amended). Mixed/monochrome equivalence holds for lines whose bytes all
have bit 7 clear: the mixed buffer is then the per-bit monochrome decoding of the
same bytes.  After the padding come exactly 280 data words; each of the 560
stream bits yields one un-extended pixel, `dhgr_palette[0]` for a 0 bit and
`dhgr_palette[15]` for a 1 bit (the two colours being 16-bit values), two pixels
per word. -/
theorem mix_is_monochrome_when_flags_clear (E : Env) (line : Nat)
    (hmono : E.soft_monochrom = false)
    (hmode : E.soft_video7_mode = Video7Mode.VIDEO7_MODE_MIX)
    (hflags : ∀ c < 40, (line_mem_odd E line c).testBit 7 = false
      ∧ (line_mem_even E line c).testBit 7 = false)
    (h0 : E.dhgr_palette 0 < 2 ^ 16) (h15 : E.dhgr_palette 15 < 2 ^ 16) :
    (render_dhires_line E line).data
        = left_padding E
          ++ (List.range 280).map
              (fun k => pixel_pair (mix_dot_color E line (2 * k))
                (mix_dot_color E line (2 * k + 1)))
          ++ line_hold_tail E
      ∧ ∀ n < 560, ∃ w, (render_dhires_line E line).data[3 + n / 2]? = some w
          ∧ halfword w (n % 2)
            = if dhires_stream_bit E line n then E.dhgr_palette 15 else E.dhgr_palette 0 := by
  have hc : ∀ q, mix_dot_color E line q < 2 ^ 16 := by
    intro q
    unfold mix_dot_color
    split
    · exact h15
    · exact h0
  have hdata : (render_dhires_line E line).data
        = left_padding E
          ++ (List.range 280).map
              (fun k => pixel_pair (mix_dot_color E line (2 * k))
                (mix_dot_color E line (2 * k + 1)))
          ++ line_hold_tail E := by
    rw [mix_line_no_flags E line (dhires_mode_of E _ hmono hmode) hflags]
    congr 2
    apply List.map_congr_left
    intro k _
    exact mix_mono_word_eq E line (2 * k) h0 h15
  refine ⟨hdata, ?_⟩
  intro n hn
  refine ⟨pixel_pair (mix_dot_color E line (2 * (n / 2)))
    (mix_dot_color E line (2 * (n / 2) + 1)), ?_, ?_⟩
  · have hpad : (left_padding E).length = 3 := rfl
    have hk : n / 2 < 280 := by omega
    rw [hdata, List.append_assoc, List.getElem?_append_right (by omega), hpad,
      show 3 + n / 2 - 3 = n / 2 by omega,
      List.getElem?_append_left (by rw [List.length_map, List.length_range]; exact hk),
      List.getElem?_map, List.getElem?_range hk]
    rfl
  · have hh := halfword_pixel_pair (hc (2 * (n / 2))) (hc (2 * (n / 2) + 1))
    rcases Nat.mod_two_eq_zero_or_one n with h | h
    · rw [h, hh.1, show 2 * (n / 2) = n by omega]
      rfl
    · rw [h, hh.2, show 2 * (n / 2) + 1 = n by omega]
      rfl

/-- Instance of the amended C11 on the concrete line of `0x2A` bytes in mixed
mode. -/
theorem mix_is_monochrome_when_flags_clear_witness :
    (render_dhires_line (with_video7_mode demo_env Video7Mode.VIDEO7_MODE_MIX) 0).data
      = left_padding (with_video7_mode demo_env Video7Mode.VIDEO7_MODE_MIX)
        ++ (List.range 280).map
            (fun k =>
              pixel_pair
                (mix_dot_color (with_video7_mode demo_env Video7Mode.VIDEO7_MODE_MIX) 0 (2 * k))
                (mix_dot_color (with_video7_mode demo_env Video7Mode.VIDEO7_MODE_MIX) 0
                  (2 * k + 1)))
        ++ line_hold_tail (with_video7_mode demo_env Video7Mode.VIDEO7_MODE_MIX) :=
  (mix_is_monochrome_when_flags_clear
    (with_video7_mode demo_env Video7Mode.VIDEO7_MODE_MIX) 0 rfl rfl
    (fun _ _ => ⟨show ((0x2A : Nat) % 256).testBit 7 = false by decide,
      show ((0x2A : Nat) % 256).testBit 7 = false by decide⟩)
    (by decide) (by decide)).1

set_option maxRecDepth 1000000 in
theorem flags_set_env_first_word :
    (left_padding (with_video7_mode flags_set_env Video7Mode.VIDEO7_MODE_MIX)
        ++ (List.range 140).map
            (mix_color_word (with_video7_mode flags_set_env Video7Mode.VIDEO7_MODE_MIX) 0)
        ++ line_hold_tail (with_video7_mode flags_set_env Video7Mode.VIDEO7_MODE_MIX))[3]?
      = some (u32 (flags_set_env.dhgr_palette 10 ||| flags_set_env.THEN_EXTEND_1)
          ||| u32 (u32 (flags_set_env.dhgr_palette 10 ||| flags_set_env.THEN_EXTEND_1)
              <<< 16)) := by
  decide

set_option maxRecDepth 1000000 in
/-- C11 as stated fails.  On the concrete line of `0xAA` bytes, where bit 7 of
every byte is 1, the mixed sub-mode writes 143 words, not 283, and its first data
word is the colour word of nibble 10, `dhgr_palette[10] | THEN_EXTEND_1` twice,
not a pair of un-extended monochrome dots. -/
theorem mix_is_monochrome_counterexample :
    (List.range 40).all (fun c =>
        (line_mem_odd flags_set_env 0 c).testBit 7
          && (line_mem_even flags_set_env 0 c).testBit 7) = true
      ∧ (render_dhires_line
          (with_video7_mode flags_set_env Video7Mode.VIDEO7_MODE_MIX) 0).data.length = 143
      ∧ (render_dhires_line
          (with_video7_mode flags_set_env Video7Mode.VIDEO7_MODE_MIX) 0).data[3]?
        = some (u32 (flags_set_env.dhgr_palette 10 ||| flags_set_env.THEN_EXTEND_1)
            ||| u32 (u32 (flags_set_env.dhgr_palette 10 ||| flags_set_env.THEN_EXTEND_1)
                <<< 16)) := by
  refine ⟨by decide, ?_, ?_⟩
  · rw [(mix_line_data (with_video7_mode flags_set_env Video7Mode.VIDEO7_MODE_MIX) 0 rfl).1]
    exact demo_env_mix_length.2
  · rw [mix_line_all_flags (with_video7_mode flags_set_env Video7Mode.VIDEO7_MODE_MIX) 0 rfl
      (fun _ _ => ⟨show ((0xAA : Nat) % 256).testBit 7 = true by decide,
        show ((0xAA : Nat) % 256).testBit 7 = true by decide⟩)]
    exact flags_set_env_first_word

/-! ## 560x192 mode: where the pure-foreground entry is selected -/

/-- The buffer of the 560x192 branch. -/
theorem mono560_line_data (E : Env) (line : Nat)
    (hm : dhires_mode E = Video7Mode.VIDEO7_MODE_560x192) :
    (render_dhires_line E line).data
      = left_padding E ++ (List.range 40).flatMap (mono560_column_words E line)
        ++ line_hold_tail E := by
  have hloop := mono560_loop_data E line
    { data := left_padding E, sl_pos := 3, i := 0, dotc := 0, dots := 0, pixelmode := 0 } 40
  rw [render_dhires_line_560_eq E line hm, finish_scanline_data]
  exact congrArg (fun l => l ++ line_hold_tail E) hloop.1

/-- Data word `7c + j` of the 560x192 branch. -/
theorem mono560_line_get (E : Env) (line : Nat)
    (hm : dhires_mode E = Video7Mode.VIDEO7_MODE_560x192) (c j : Nat) (hc : c < 40)
    (hj : j < 7) :
    (render_dhires_line E line).data[3 + (7 * c + j)]?
      = some (bits_to_pixels E ((mono560_window E line c >>> (2 * j)) &&& 3)) := by
  have hlen := length_flatMap_range (mono560_column_words E line) 7
    (mono560_column_words_length E line) 40
  have hpad : (left_padding E).length = 3 := rfl
  rw [mono560_line_data E line hm, List.append_assoc, List.getElem?_append_right (by omega),
    hpad, List.getElem?_append_left (by omega),
    show 3 + (7 * c + j) - 3 = 7 * c + j by omega,
    getElem?_flatMap_range (mono560_column_words E line) 7
      (mono560_column_words_length E line) 40 c j hc hj]
  exact mono560_column_words_get E line c j hj

/-- Bit pairs of a window made of one `0x7F` byte or none. -/
theorem window_pair_eq_3 (a b j : Nat) (hj : j < 7)
    (h : (b = 0 ∧ (a = 0x00 ∨ a = 0x7F)) ∨ (a = 0 ∧ (b = 0x00 ∨ b = 0x7F))) :
    ((((a &&& 0x7f) ||| ((b &&& 0x7f) <<< 7)) >>> (2 * j)) &&& 3 = 3)
      ↔ ((a = 0x7F ∧ j < 3) ∨ (b = 0x7F ∧ 3 < j)) := by
  rcases h with ⟨hb, ha | ha⟩ | ⟨ha, hb | hb⟩ <;> subst ha <;> subst hb <;>
    interval_cases j <;> decide

/-- C12 (amended). 560x192 blend-table boundary: on a line where every byte of one
plane is `0x00` or `0x7F` (in particular alternating) and the other plane is
`0x00` throughout, the 2-bit window `j` of column `c` indexes the pure-foreground
entry `bits_to_pixels[3]` exactly when both of its bits lie inside a `0x7F` byte:
`j < 3` for an auxiliary byte, `3 < j` for a main byte.  The window `j = 3`, which
straddles the two bytes of the column, never selects it, and neither does any
window of a column whose bytes are both `0x00`. -/
theorem mono560_pure_foreground (E : Env) (line : Nat)
    (hmode : E.soft_monochrom = true
      ∨ E.soft_video7_mode = Video7Mode.VIDEO7_MODE_560x192)
    (hplanes :
      (∀ c < 40, line_mem_even E line c = 0
        ∧ (line_mem_odd E line c = 0x00 ∨ line_mem_odd E line c = 0x7F))
      ∨ (∀ c < 40, line_mem_odd E line c = 0
        ∧ (line_mem_even E line c = 0x00 ∨ line_mem_even E line c = 0x7F))) :
    ∀ c < 40, ∀ j < 7,
      (render_dhires_line E line).data[3 + (7 * c + j)]?
          = some (bits_to_pixels E ((mono560_window E line c >>> (2 * j)) &&& 3))
        ∧ (((mono560_window E line c >>> (2 * j)) &&& 3 = 3)
            ↔ ((line_mem_odd E line c = 0x7F ∧ j < 3)
              ∨ (line_mem_even E line c = 0x7F ∧ 3 < j)))
        ∧ (j = 3 → (mono560_window E line c >>> (2 * j)) &&& 3 ≠ 3)
        ∧ (line_mem_odd E line c = 0x00 → line_mem_even E line c = 0x00 →
            (mono560_window E line c >>> (2 * j)) &&& 3 = 0) := by
  intro c hc j hj
  have hcol : (line_mem_even E line c = 0
        ∧ (line_mem_odd E line c = 0x00 ∨ line_mem_odd E line c = 0x7F))
      ∨ (line_mem_odd E line c = 0
        ∧ (line_mem_even E line c = 0x00 ∨ line_mem_even E line c = 0x7F)) := by
    rcases hplanes with h | h
    · exact Or.inl (h c hc)
    · exact Or.inr (h c hc)
  have hiff := window_pair_eq_3 (line_mem_odd E line c) (line_mem_even E line c) j hj hcol
  refine ⟨mono560_line_get E line (dhires_mode_560 E hmode) c j hc hj, hiff, ?_, ?_⟩
  · intro h3 h
    rcases hiff.1 h with ⟨_, h4⟩ | ⟨_, h4⟩ <;> omega
  · intro ha hb
    unfold mono560_window
    rw [ha, hb]
    simp

/-- Instance of the amended C12 on the concrete alternating line: column 1,
window 3. -/
theorem mono560_pure_foreground_witness :
    (mono560_window alt_env 0 1 >>> (2 * 3)) &&& 3 ≠ 3 :=
  (mono560_pure_foreground alt_env 0 (Or.inl rfl)
    (Or.inl (fun c _ => by
      refine ⟨rfl, ?_⟩
      show (if (hires_line_to_mem_offset 0 + c) % 2 = 0 then 0x00 else 0x7F) % 256 = 0x00
        ∨ (if (hires_line_to_mem_offset 0 + c) % 2 = 0 then 0x00 else 0x7F) % 256 = 0x7F
      split
      · exact Or.inl rfl
      · exact Or.inr rfl))
    1 (by decide) 3 (by decide)).2.2.1 rfl

set_option maxRecDepth 1000000 in
/-- C12 as stated fails.  On the concrete line whose auxiliary bytes alternate
`0x00`, `0x7F` and whose main bytes are `0x00`, window 0 of column 1 has the value
3 and data word 7 is the pure-foreground entry, the foreground colour in both
half-words. -/
theorem mono560_pure_foreground_counterexample :
    (List.range 40).all (fun c =>
        decide (line_mem_even alt_env 0 c = 0x00)
          && decide (line_mem_odd alt_env 0 c = if c % 2 = 0 then 0x00 else 0x7F)) = true
      ∧ (mono560_window alt_env 0 1 >>> (2 * 0)) &&& 3 = 3
      ∧ (render_dhires_line alt_env 0).data[3 + (7 * 1 + 0)]? = some (bits_to_pixels alt_env 3)
      ∧ bits_to_pixels alt_env 3 = pixel_pair alt_env.mono_fg_color alt_env.mono_fg_color := by
  refine ⟨by decide, by decide, ?_, by decide⟩
  rw [mono560_line_get alt_env 0 rfl 1 0 (by decide) (by decide)]
  decide

/-! ## Frame routines -/

/-- The graphics loop submits the decoded lines `0 .. n - 1` in ascending
order, all through the same decoder. -/
theorem render_lines_eq (E : Env) (n : Nat) (calls : List vga_call) :
    render_lines E n calls
      = calls ++ (List.range n).map
          (fun line => vga_call.vga_submit_scanline (frame_decoder E line)) := by
  unfold render_lines
  by_cases h : use_dhires E = true
  · rw [if_pos h]
    have := for_loop_invariant
      (fun i (cs : List vga_call) =>
        cs = calls ++ (List.range i).map
            (fun line => vga_call.vga_submit_scanline (frame_decoder E line)))
      (fun line cs => cs ++ [vga_call.vga_submit_scanline (render_dhires_line E line)])
      n 0 calls (by simp)
      (by
        intro i cs _ _ hcs
        rw [hcs, List.range_succ, List.map_append]
        simp only [List.append_assoc, List.map_cons, List.map_nil, frame_decoder, if_pos h])
    simpa using this
  · rw [if_neg h]
    have := for_loop_invariant
      (fun i (cs : List vga_call) =>
        cs = calls ++ (List.range i).map
            (fun line => vga_call.vga_submit_scanline (frame_decoder E line)))
      (fun line cs => cs ++ [vga_call.vga_submit_scanline (render_hires_line E line)])
      n 0 calls (by simp)
      (by
        intro i cs _ _ hcs
        rw [hcs, List.range_succ, List.map_append]
        simp only [List.append_assoc, List.map_cons, List.map_nil, frame_decoder, if_neg h])
    simpa using this

/-- The calls of `render_mixed_hires`, in order. -/
theorem render_mixed_hires_eq (E : Env) :
    render_mixed_hires E
      = [vga_call.vga_prepare_frame, vga_call.vga_skip_lines 48]
        ++ (List.range 160).map
            (fun line => vga_call.vga_submit_scanline (frame_decoder E line))
        ++ [vga_call.render_text_line 20, vga_call.render_text_line 21,
            vga_call.render_text_line 22, vga_call.render_text_line 23] := by
  unfold render_mixed_hires
  rw [render_lines_eq]
  rfl

/-- The calls of `render_hires`, in order. -/
theorem render_hires_eq (E : Env) :
    render_hires E
      = [vga_call.vga_prepare_frame, vga_call.vga_skip_lines 48]
        ++ (List.range 192).map
            (fun line => vga_call.vga_submit_scanline (frame_decoder E line)) := by
  unfold render_hires
  rw [render_lines_eq]

/-- C13. Mixed graphics and text frame: for every configuration the calls of
`render_mixed_hires` are, in order, the frame preparation, the skip of 48 lines,
one decoded graphics line for each line index 0, 1, ..., 159 in ascending order,
then the text line renderer for rows 20, 21, 22, 23; that is 166 calls, nothing
follows the four text rows, and every graphics line lies in a text row below 20. -/
theorem render_mixed_hires_calls (E : Env) :
    render_mixed_hires E
        = [vga_call.vga_prepare_frame, vga_call.vga_skip_lines 48]
          ++ (List.range 160).map
              (fun line => vga_call.vga_submit_scanline (frame_decoder E line))
          ++ [vga_call.render_text_line 20, vga_call.render_text_line 21,
              vga_call.render_text_line 22, vga_call.render_text_line 23]
      ∧ (render_mixed_hires E).length = 166
      ∧ (∀ line < 160,
          (render_mixed_hires E)[2 + line]?
            = some (vga_call.vga_submit_scanline (frame_decoder E line)))
      ∧ (∀ r < 4, (render_mixed_hires E)[162 + r]? = some (vga_call.render_text_line (20 + r)))
      ∧ (∀ line < 160, line / 8 < 20) := by
  have h := render_mixed_hires_eq E
  refine ⟨h, ?_, ?_, ?_, fun line hl => by omega⟩
  · rw [h]
    simp
  · intro line hl
    rw [h, List.append_assoc, List.getElem?_append_right (by simp)]
    have h2 : 2 + line - [vga_call.vga_prepare_frame, vga_call.vga_skip_lines 48].length
        = line := by
      simp
    rw [h2, List.getElem?_append_left (by simpa using hl), List.getElem?_map,
      List.getElem?_range hl]
    rfl
  · intro r hr
    rw [h, List.getElem?_append_right (by simp)]
    have h2 : 162 + r - ([vga_call.vga_prepare_frame, vga_call.vga_skip_lines 48]
          ++ (List.range 160).map
              (fun line => vga_call.vga_submit_scanline (frame_decoder E line))).length
        = r := by
      simp
    rw [h2]
    interval_cases r <;> rfl

/-! ## Decoder dispatch -/

/-- With the IIe model enabled the frame decoder is chosen by the two soft
switches alone. -/
theorem frame_decoder_iie (E : Env) (hiie : E.APPLE_MODEL_IIE = true) (line : Nat) :
    frame_decoder E line
      = if E.soft_80col = true ∧ E.soft_dhires = true then render_dhires_line E line
        else render_hires_line E line := by
  unfold frame_decoder use_dhires
  rw [hiie]
  cases h1 : E.soft_80col <;> cases h2 : E.soft_dhires <;> simp

/-- C14. Decoder dispatch: with the IIe model enabled, `render_hires` prepares
the frame, skips 48 lines and submits the decoded lines 0 .. 191 in ascending
order, `render_mixed_hires` does the same for the lines 0 .. 159 before its four
text rows, and in both every line goes through `render_dhires_line` when both the
80-column flag and the double-hires flag are set and through `render_hires_line`
when either is clear, the same choice for all lines of the frame. -/
theorem decoder_dispatch (E : Env) (hiie : E.APPLE_MODEL_IIE = true) :
    render_hires E
        = [vga_call.vga_prepare_frame, vga_call.vga_skip_lines 48]
          ++ (List.range 192).map
              (fun line => vga_call.vga_submit_scanline
                (if E.soft_80col = true ∧ E.soft_dhires = true then render_dhires_line E line
                 else render_hires_line E line))
      ∧ render_mixed_hires E
        = [vga_call.vga_prepare_frame, vga_call.vga_skip_lines 48]
          ++ (List.range 160).map
              (fun line => vga_call.vga_submit_scanline
                (if E.soft_80col = true ∧ E.soft_dhires = true then render_dhires_line E line
                 else render_hires_line E line))
          ++ [vga_call.render_text_line 20, vga_call.render_text_line 21,
              vga_call.render_text_line 22, vga_call.render_text_line 23]
      ∧ ((E.soft_80col = true ∧ E.soft_dhires = true) →
          ∀ line, frame_decoder E line = render_dhires_line E line)
      ∧ ((E.soft_80col = false ∨ E.soft_dhires = false) →
          ∀ line, frame_decoder E line = render_hires_line E line) := by
  have hfun : (fun line => vga_call.vga_submit_scanline (frame_decoder E line))
      = (fun line => vga_call.vga_submit_scanline
          (if E.soft_80col = true ∧ E.soft_dhires = true then render_dhires_line E line
           else render_hires_line E line)) := by
    funext line
    rw [frame_decoder_iie E hiie]
  refine ⟨?_, ?_, ?_, ?_⟩
  · rw [render_hires_eq, hfun]
  · rw [render_mixed_hires_eq, hfun]
  · intro h line
    rw [frame_decoder_iie E hiie, if_pos h]
  · intro h line
    rw [frame_decoder_iie E hiie, if_neg]
    rcases h with h | h <;> simp [h]

/-- Instance of C14 in the concrete environment, where both flags are set: every
line of the full-screen frame goes through the double-resolution decoder. -/
theorem decoder_dispatch_witness :
    demo_env.APPLE_MODEL_IIE = true
      ∧ render_hires demo_env
        = [vga_call.vga_prepare_frame, vga_call.vga_skip_lines 48]
          ++ (List.range 192).map
              (fun line => vga_call.vga_submit_scanline
                (if demo_env.soft_80col = true ∧ demo_env.soft_dhires = true
                 then render_dhires_line demo_env line
                 else render_hires_line demo_env line)) :=
  ⟨rfl, (decoder_dispatch demo_env rfl).1⟩

/-! ## The nested loops step by step -/

theorem counters_while_step (thr : Nat) (lb db : DhiresState → DhiresState)
    (hl : ∀ s, (lb s).i = s.i + 1 ∧ (lb s).dotc = s.dotc + 14)
    (hd : ∀ s, (db s).i = s.i ∧ (db s).dotc = s.dotc - thr) (c : LoopPoint × DhiresState) :
    counters (while_step thr lb db c) = counter_step thr (counters c) := by
  obtain ⟨p, s⟩ := c
  cases p
  · simp only [while_step, counter_step, counters]
    split <;> rfl
  · simp only [while_step, counter_step, counters]
    split
    · simp only [(hl s).1, (hl s).2]
    · rfl
  · simp only [while_step, counter_step, counters]
    split
    · simp only [(hd s).1, (hd s).2]
    · rfl
  · rfl

theorem counters_iterate (thr : Nat) (step : LoopPoint × DhiresState → LoopPoint × DhiresState)
    (hstep : ∀ c, counters (step c) = counter_step thr (counters c)) (n : Nat)
    (c : LoopPoint × DhiresState) :
    counters (step^[n] c) = (counter_step thr)^[n] (counters c) := by
  induction n generalizing c with
  | zero => rfl
  | succ n ih => rw [Function.iterate_succ_apply, Function.iterate_succ_apply, ih, hstep]

/-- The counters after `m` steps are entry `m` of the run. -/
theorem counter_run_get (thr : Nat) (n m : Nat) (k : LoopPoint × Nat × Nat) (hm : m ≤ n) :
    (counter_run thr n k)[m]? = some ((counter_step thr)^[m] k) := by
  induction n generalizing m k with
  | zero =>
    have : m = 0 := by omega
    subst this
    rfl
  | succ n ih =>
    cases m with
    | zero =>
      rw [counter_run, List.getElem?_cons_zero, Function.iterate_zero_apply]
    | succ m =>
      rw [counter_run, List.getElem?_cons_succ, ih m _ (by omega), Function.iterate_succ_apply]

theorem count_steps_counters (thr : Nat)
    (step : LoopPoint × DhiresState → LoopPoint × DhiresState)
    (hstep : ∀ c, counters (step c) = counter_step thr (counters c))
    (p : LoopPoint × DhiresState → Bool) (q : LoopPoint × Nat × Nat → Bool)
    (hpq : ∀ c, p c = q (counters c)) (n : Nat) (c : LoopPoint × DhiresState) :
    count_steps p step n c = count_steps q (counter_step thr) n (counters c) := by
  induction n generalizing c with
  | zero => rfl
  | succ n ih => rw [count_steps, count_steps, ih, hstep, hpq]

theorem color140_step_counters (E : Env) (line : Nat) (c : LoopPoint × DhiresState) :
    counters (color140_step E line c) = counter_step 8 (counters c) :=
  counters_while_step 8 (color140_load_pair E line) (color140_draw_pair E)
    (fun _ => ⟨rfl, rfl⟩) (fun _ => ⟨rfl, rfl⟩) c

theorem mix_draw_group_counters (E : Env) (s : DhiresState) :
    (mix_draw_group E s).i = s.i ∧ (mix_draw_group E s).dotc = s.dotc - 4 := by
  unfold mix_draw_group
  split
  · exact ⟨rfl, rfl⟩
  · refine ⟨rfl, ?_⟩
    show s.dotc - 2 - 2 = s.dotc - 4
    omega

theorem mix_step_counters (E : Env) (line : Nat) (c : LoopPoint × DhiresState) :
    counters (mix_step E line c) = counter_step 4 (counters c) :=
  counters_while_step 4 (mix_load_pair E line) (mix_draw_group E)
    (fun _ => ⟨rfl, rfl⟩) (mix_draw_group_counters E) c

theorem counter_step_done (thr : Nat) (k : LoopPoint × Nat × Nat) (h : k.1 = LoopPoint.done) :
    counter_step thr k = k := by
  obtain ⟨p, i, d⟩ := k
  simp only at h
  subst h
  rfl

/-- A property checked along a run that ends past the outer loop holds after any
number of steps. -/
theorem counters_all (thr N : Nat) (k : LoopPoint × Nat × Nat)
    (P : LoopPoint × Nat × Nat → Bool)
    (hdone : ((counter_step thr)^[N] k).1 = LoopPoint.done)
    (hall : (counter_run thr N k).all P = true) (n : Nat) :
    P ((counter_step thr)^[n] k) = true := by
  rw [List.all_eq_true] at hall
  by_cases hn : n ≤ N
  · exact hall _ (List.getElem?_mem (counter_run_get thr N n k hn))
  · have hfix : (counter_step thr)^[n - N] ((counter_step thr)^[N] k)
        = (counter_step thr)^[N] k :=
      Function.iterate_fixed (counter_step_done thr _ hdone) _
    have e : n = (n - N) + N := by omega
    rw [e, Function.iterate_add_apply, hfix]
    exact hall _ (List.getElem?_mem (counter_run_get thr N N k (Nat.le_refl _)))

set_option maxRecDepth 1000000 in
/-- The counters of the 140x192 loops: past the outer loop after 171 steps, with
`i = 40` and `dotc = 0`, after 40 loads and 70 draws. -/
theorem counter_run_140 :
    (counter_step 8)^[171] (LoopPoint.outer, 0, 0) = (LoopPoint.done, 40, 0)
      ∧ count_steps (fun k => decide (k.1 = LoopPoint.load ∧ k.2.2 ≤ 18 ∧ k.2.1 < 40))
          (counter_step 8) 171 (LoopPoint.outer, 0, 0) = 40
      ∧ count_steps (fun k => decide (k.1 = LoopPoint.draw ∧ k.2.2 ≥ 8))
          (counter_step 8) 171 (LoopPoint.outer, 0, 0) = 70 := by
  decide

set_option maxRecDepth 1000000 in
/-- The counters of the mixed loops: past the outer loop after 241 steps, with
`i = 40` and `dotc = 0`, after 40 loads and 140 draws. -/
theorem counter_run_mix :
    (counter_step 4)^[241] (LoopPoint.outer, 0, 0) = (LoopPoint.done, 40, 0)
      ∧ count_steps (fun k => decide (k.1 = LoopPoint.load ∧ k.2.2 ≤ 18 ∧ k.2.1 < 40))
          (counter_step 4) 241 (LoopPoint.outer, 0, 0) = 40
      ∧ count_steps (fun k => decide (k.1 = LoopPoint.draw ∧ k.2.2 ≥ 4))
          (counter_step 4) 241 (LoopPoint.outer, 0, 0) = 140 := by
  decide

set_option maxRecDepth 1000000 in
/-- Along both runs the outer loop is entered with room for a load, and `dotc`
never exceeds 32. -/
theorem counter_run_room :
    (counter_run 8 171 (LoopPoint.outer, 0, 0)).all
        (fun k => decide ((k.1 = LoopPoint.outer → k.2.2 ≤ 18) ∧ k.2.2 ≤ 32)) = true
      ∧ (counter_run 4 241 (LoopPoint.outer, 0, 0)).all
        (fun k => decide ((k.1 = LoopPoint.outer → k.2.2 ≤ 18) ∧ k.2.2 ≤ 32)) = true := by
  decide

theorem while_step_done (thr : Nat) (lb db : DhiresState → DhiresState)
    (c : LoopPoint × DhiresState) (h : c.1 = LoopPoint.done) : while_step thr lb db c = c := by
  obtain ⟨p, s⟩ := c
  simp only at h
  subst h
  rfl

/-- A run that gets past the outer loop stays where it is, so the configuration
past the loop is the same whichever number of steps reached it. -/
theorem while_step_final (thr : Nat) (lb db : DhiresState → DhiresState) (N n : Nat)
    (c : LoopPoint × DhiresState) (r : DhiresState)
    (hN : ((while_step thr lb db)^[N] c).1 = LoopPoint.done)
    (hn : (while_step thr lb db)^[n] c = (LoopPoint.done, r)) :
    (while_step thr lb db)^[N] c = (LoopPoint.done, r) := by
  by_cases h : n ≤ N
  · have e : N = (N - n) + n := by omega
    rw [e, Function.iterate_add_apply, hn]
    exact Function.iterate_fixed (while_step_done thr lb db _ rfl) _
  · have e : n = (n - N) + N := by omega
    rw [e, Function.iterate_add_apply,
      Function.iterate_fixed (while_step_done thr lb db _ hN) _] at hn
    exact hn

theorem color140_load_run (E : Env) (line : Nat) (s : DhiresState) :
    ∃ n, (color140_step E line)^[n] (LoopPoint.load, s)
      = (LoopPoint.draw, color140_load E line s) := by
  induction s using color140_load.induct E line with
  | case1 t hc ih =>
    obtain ⟨n, hn⟩ := ih
    refine ⟨n + 1, ?_⟩
    have hs : color140_step E line (LoopPoint.load, t)
        = (LoopPoint.load, color140_load_pair E line t) := by
      simp only [color140_step, while_step]
      rw [if_pos hc]
    rw [Function.iterate_succ_apply, hs, hn, color140_load.eq_1 E line t, if_pos hc]
  | case2 t hc =>
    refine ⟨1, ?_⟩
    have hs : color140_step E line (LoopPoint.load, t) = (LoopPoint.draw, t) := by
      simp only [color140_step, while_step]
      rw [if_neg hc]
    rw [Function.iterate_one, hs, color140_load, if_neg hc]

theorem color140_draw_run (E : Env) (line : Nat) (s : DhiresState) :
    ∃ n, (color140_step E line)^[n] (LoopPoint.draw, s)
      = (LoopPoint.outer, color140_draw E s) := by
  induction s using color140_draw.induct E with
  | case1 t hc ih =>
    obtain ⟨n, hn⟩ := ih
    refine ⟨n + 1, ?_⟩
    have hs : color140_step E line (LoopPoint.draw, t)
        = (LoopPoint.draw, color140_draw_pair E t) := by
      simp only [color140_step, while_step]
      rw [if_pos hc]
    rw [Function.iterate_succ_apply, hs, hn, color140_draw.eq_1 E t, if_pos hc]
  | case2 t hc =>
    refine ⟨1, ?_⟩
    have hs : color140_step E line (LoopPoint.draw, t) = (LoopPoint.outer, t) := by
      simp only [color140_step, while_step]
      rw [if_neg hc]
    rw [Function.iterate_one, hs, color140_draw, if_neg hc]

/-- The step machine of the 140x192 branch reaches the state `color140_loop`
returns. -/
theorem color140_loop_run (E : Env) (line : Nat) (s : DhiresState) :
    ∃ n, (color140_step E line)^[n] (LoopPoint.outer, s)
      = (LoopPoint.done, color140_loop E line s) := by
  induction s using color140_loop.induct E line with
  | case1 t hc ih =>
    obtain ⟨n3, h3⟩ := ih
    obtain ⟨n1, h1⟩ := color140_load_run E line t
    obtain ⟨n2, h2⟩ := color140_draw_run E line (color140_load E line t)
    refine ⟨n3 + n2 + n1 + 1, ?_⟩
    have hs : color140_step E line (LoopPoint.outer, t) = (LoopPoint.load, t) := by
      simp only [color140_step, while_step]
      rw [if_pos hc]
    rw [Function.iterate_succ_apply, hs, Function.iterate_add_apply, h1,
      Function.iterate_add_apply, h2, h3, color140_loop.eq_1 E line t, if_pos hc]
  | case2 t hc =>
    refine ⟨1, ?_⟩
    have hs : color140_step E line (LoopPoint.outer, t) = (LoopPoint.done, t) := by
      simp only [color140_step, while_step]
      rw [if_neg hc]
    rw [Function.iterate_one, hs, color140_loop, if_neg hc]

theorem mix_load_run (E : Env) (line : Nat) (s : DhiresState) :
    ∃ n, (mix_step E line)^[n] (LoopPoint.load, s) = (LoopPoint.draw, mix_load E line s) := by
  induction s using mix_load.induct E line with
  | case1 t hc ih =>
    obtain ⟨n, hn⟩ := ih
    refine ⟨n + 1, ?_⟩
    have hs : mix_step E line (LoopPoint.load, t)
        = (LoopPoint.load, mix_load_pair E line t) := by
      simp only [mix_step, while_step]
      rw [if_pos hc]
    rw [Function.iterate_succ_apply, hs, hn, mix_load.eq_1 E line t, if_pos hc]
  | case2 t hc =>
    refine ⟨1, ?_⟩
    have hs : mix_step E line (LoopPoint.load, t) = (LoopPoint.draw, t) := by
      simp only [mix_step, while_step]
      rw [if_neg hc]
    rw [Function.iterate_one, hs, mix_load, if_neg hc]

theorem mix_draw_run (E : Env) (line : Nat) (s : DhiresState) :
    ∃ n, (mix_step E line)^[n] (LoopPoint.draw, s) = (LoopPoint.outer, mix_draw E s) := by
  induction s using mix_draw.induct E with
  | case1 t hc ih =>
    obtain ⟨n, hn⟩ := ih
    refine ⟨n + 1, ?_⟩
    have hs : mix_step E line (LoopPoint.draw, t)
        = (LoopPoint.draw, mix_draw_group E t) := by
      simp only [mix_step, while_step]
      rw [if_pos hc]
    rw [Function.iterate_succ_apply, hs, hn, mix_draw.eq_1 E t, if_pos hc]
  | case2 t hc =>
    refine ⟨1, ?_⟩
    have hs : mix_step E line (LoopPoint.draw, t) = (LoopPoint.outer, t) := by
      simp only [mix_step, while_step]
      rw [if_neg hc]
    rw [Function.iterate_one, hs, mix_draw, if_neg hc]

/-- The step machine of the mixed branch reaches the state `mix_loop` returns. -/
theorem mix_loop_run (E : Env) (line : Nat) (s : DhiresState) :
    ∃ n, (mix_step E line)^[n] (LoopPoint.outer, s) = (LoopPoint.done, mix_loop E line s) := by
  induction s using mix_loop.induct E line with
  | case1 t hc ih =>
    obtain ⟨n3, h3⟩ := ih
    obtain ⟨n1, h1⟩ := mix_load_run E line t
    obtain ⟨n2, h2⟩ := mix_draw_run E line (mix_load E line t)
    refine ⟨n3 + n2 + n1 + 1, ?_⟩
    have hs : mix_step E line (LoopPoint.outer, t) = (LoopPoint.load, t) := by
      simp only [mix_step, while_step]
      rw [if_pos hc]
    rw [Function.iterate_succ_apply, hs, Function.iterate_add_apply, h1,
      Function.iterate_add_apply, h2, h3, mix_loop.eq_1 E line t, if_pos hc]
  | case2 t hc =>
    refine ⟨1, ?_⟩
    have hs : mix_step E line (LoopPoint.outer, t) = (LoopPoint.done, t) := by
      simp only [mix_step, while_step]
      rw [if_neg hc]
    rw [Function.iterate_one, hs, mix_loop, if_neg hc]

/-! ## The pending bits along a run -/

/-- Under the guard of the loading loop neither byte is shifted past bit 31. -/
theorem load_shift_lt (b dotc : Nat) (h : dotc ≤ 18) :
    (b &&& 0x7f) <<< dotc < 2 ^ 32 ∧ (b &&& 0x7f) <<< (dotc + 7) < 2 ^ 32 := by
  have hx : b &&& 0x7f < 2 ^ 7 := and_127_lt b
  have hb : ∀ k, k ≤ 25 → (b &&& 0x7f) <<< k < 2 ^ 32 := by
    intro k hk
    rw [Nat.shiftLeft_eq]
    have h1 : 2 ^ k ≤ 2 ^ 25 := Nat.pow_le_pow_right (by norm_num) hk
    have h2 : 0 < 2 ^ k := Nat.two_pow_pos k
    calc (b &&& 0x7f) * 2 ^ k < 2 ^ 7 * 2 ^ k := (Nat.mul_lt_mul_right h2).2 hx
      _ ≤ 2 ^ 7 * 2 ^ 25 := Nat.mul_le_mul_left _ h1
      _ = 2 ^ 32 := by norm_num
  exact ⟨hb _ (by omega), hb _ (by omega)⟩

theorem pending_shift (E : Env) (line i dotc d k : Nat) (hk : k ≤ dotc) (hle : dotc ≤ 14 * i)
    (hd : ∀ t, d.testBit t
      = (decide (t < dotc) && dhires_stream_bit E line (14 * i - dotc + t))) (t : Nat) :
    (d >>> k).testBit t
      = (decide (t < dotc - k) && dhires_stream_bit E line (14 * i - (dotc - k) + t)) := by
  rw [Nat.testBit_shiftRight, hd (k + t)]
  have e1 : 14 * i - dotc + (k + t) = 14 * i - (dotc - k) + t := by omega
  rw [e1]
  by_cases ht : t < dotc - k
  · have : k + t < dotc := by omega
    simp [ht, this]
  · have : ¬ k + t < dotc := by omega
    simp [ht, this]

theorem pending_load_pair_140 (E : Env) (line : Nat) (s : DhiresState)
    (h : PendingBits E line s) (hc : s.dotc ≤ 18 ∧ s.i < 40) :
    PendingBits E line (color140_load_pair E line s) := by
  obtain ⟨h1, h2, h3, h4, h5⟩ := h
  have hpos : 14 * (s.i + 1) - (s.dotc + 7 + 7) = 14 * s.i - s.dotc := by omega
  refine ⟨?_, ?_, ?_, ?_, ?_⟩
  · show s.i + 1 ≤ 40
    omega
  · show s.dotc + 7 + 7 ≤ 14 * (s.i + 1)
    omega
  · show s.dotc + 7 + 7 ≤ 32
    omega
  · show (14 * (s.i + 1) - (s.dotc + 7 + 7)) % 4 = 0
    rw [hpos]
    exact h4
  · intro t
    exact dhires_load_bits E line s.i s.dotc s.dots hc.1 h2 h5 t

theorem pending_load_pair_mix (E : Env) (line : Nat) (s : DhiresState)
    (h : PendingBits E line s) (hc : s.dotc ≤ 18 ∧ s.i < 40) :
    PendingBits E line (mix_load_pair E line s) := by
  obtain ⟨h1, h2, h3, h4, h5⟩ := h
  have hpos : 14 * (s.i + 1) - (s.dotc + 7 + 7) = 14 * s.i - s.dotc := by omega
  refine ⟨?_, ?_, ?_, ?_, ?_⟩
  · show s.i + 1 ≤ 40
    omega
  · show s.dotc + 7 + 7 ≤ 14 * (s.i + 1)
    omega
  · show s.dotc + 7 + 7 ≤ 32
    omega
  · show (14 * (s.i + 1) - (s.dotc + 7 + 7)) % 4 = 0
    rw [hpos]
    exact h4
  · intro t
    exact dhires_load_bits E line s.i s.dotc s.dots hc.1 h2 h5 t

theorem pending_draw_pair_140 (E : Env) (line : Nat) (s : DhiresState)
    (h : PendingBits E line s) (hc : s.dotc ≥ 8) :
    PendingBits E line (color140_draw_pair E s) := by
  obtain ⟨h1, h2, h3, h4, h5⟩ := h
  refine ⟨h1, ?_, ?_, ?_, ?_⟩
  · show s.dotc - 8 ≤ 14 * s.i
    omega
  · show s.dotc - 8 ≤ 32
    omega
  · show (14 * s.i - (s.dotc - 8)) % 4 = 0
    omega
  · intro t
    show ((s.dots >>> 4) >>> 4).testBit t
      = (decide (t < s.dotc - 8) && dhires_stream_bit E line (14 * s.i - (s.dotc - 8) + t))
    rw [← Nat.shiftRight_add]
    exact pending_shift E line s.i s.dotc s.dots 8 hc h2 h5 t

theorem pending_draw_group_mix (E : Env) (line : Nat) (s : DhiresState)
    (h : PendingBits E line s) (hc : s.dotc ≥ 4) :
    PendingBits E line (mix_draw_group E s) := by
  obtain ⟨h1, h2, h3, h4, h5⟩ := h
  have hs4 : ∀ x : Nat, x >>> 1 >>> 1 >>> 1 >>> 1 = x >>> 4 := by
    intro x
    rw [← Nat.shiftRight_add, ← Nat.shiftRight_add, ← Nat.shiftRight_add]
  have hd4 : s.dotc - 2 - 2 = s.dotc - 4 := by omega
  unfold mix_draw_group
  by_cases hp : s.pixelmode ≠ 0
  · rw [if_pos hp]
    refine ⟨h1, ?_, ?_, ?_, pending_shift E line s.i s.dotc s.dots 4 hc h2 h5⟩
    · show s.dotc - 4 ≤ 14 * s.i
      omega
    · show s.dotc - 4 ≤ 32
      omega
    · show (14 * s.i - (s.dotc - 4)) % 4 = 0
      omega
  · rw [if_neg hp]
    simp only [hs4, hd4]
    refine ⟨h1, ?_, ?_, ?_, pending_shift E line s.i s.dotc s.dots 4 hc h2 h5⟩
    · show s.dotc - 4 ≤ 14 * s.i
      omega
    · show s.dotc - 4 ≤ 32
      omega
    · show (14 * s.i - (s.dotc - 4)) % 4 = 0
      omega

theorem pending_start (E : Env) (line : Nat) : PendingBits E line (loops_start E) := by
  refine ⟨show 0 ≤ 40 by decide, show 0 ≤ 14 * 0 by decide, show 0 ≤ 32 by decide,
    show (14 * 0 - 0) % 4 = 0 by decide, ?_⟩
  intro t
  show (0 : Nat).testBit t = (decide (t < 0) && _)
  simp

/-- Every configuration of the 140x192 loops holds exactly the pending stream
bits. -/
theorem pending_140 (E : Env) (line n : Nat) :
    PendingBits E line (color140_config E line n).2 := by
  induction n with
  | zero => exact pending_start E line
  | succ n ih =>
    unfold color140_config at ih ⊢
    rw [Function.iterate_succ_apply']
    generalize (color140_step E line)^[n] (LoopPoint.outer, loops_start E) = c at ih
    obtain ⟨p, s⟩ := c
    cases p
    · simp only [color140_step, while_step]
      split <;> exact ih
    · simp only [color140_step, while_step]
      split
      · rename_i hc
        exact pending_load_pair_140 E line s ih hc
      · exact ih
    · simp only [color140_step, while_step]
      split
      · rename_i hc
        exact pending_draw_pair_140 E line s ih hc
      · exact ih
    · exact ih

/-- Every configuration of the mixed loops holds exactly the pending stream
bits. -/
theorem pending_mix (E : Env) (line n : Nat) :
    PendingBits E line (mix_config E line n).2 := by
  induction n with
  | zero => exact pending_start E line
  | succ n ih =>
    unfold mix_config at ih ⊢
    rw [Function.iterate_succ_apply']
    generalize (mix_step E line)^[n] (LoopPoint.outer, loops_start E) = c at ih
    obtain ⟨p, s⟩ := c
    cases p
    · simp only [mix_step, while_step]
      split <;> exact ih
    · simp only [mix_step, while_step]
      split
      · rename_i hc
        exact pending_load_pair_mix E line s ih hc
      · exact ih
    · simp only [mix_step, while_step]
      split
      · rename_i hc
        exact pending_draw_group_mix E line s ih hc
      · exact ih
    · exact ih

theorem counters_eq (c : LoopPoint × DhiresState) (p : LoopPoint) (i d : Nat)
    (h : counters c = (p, i, d)) : c.1 = p ∧ c.2.i = i ∧ c.2.dotc = d := by
  obtain ⟨q, s⟩ := c
  unfold counters at h
  simp only [Prod.mk.injEq] at h
  exact h

/-- When the counters are past the outer loop after `N` steps, the machine is
there too, in the state the loop function returns. -/
theorem while_run_final (thr : Nat) (lb db : DhiresState → DhiresState)
    (hstep : ∀ c, counters (while_step thr lb db c) = counter_step thr (counters c))
    (N i d : Nat) (s r : DhiresState)
    (hcnt : (counter_step thr)^[N] (LoopPoint.outer, s.i, s.dotc) = (LoopPoint.done, i, d))
    (hrun : ∃ n, (while_step thr lb db)^[n] (LoopPoint.outer, s) = (LoopPoint.done, r)) :
    (while_step thr lb db)^[N] (LoopPoint.outer, s) = (LoopPoint.done, r)
      ∧ r.i = i ∧ r.dotc = d := by
  have hc := counters_iterate thr (while_step thr lb db) hstep N (LoopPoint.outer, s)
  have h0 : counters (LoopPoint.outer, s) = (LoopPoint.outer, s.i, s.dotc) := rfl
  rw [h0, hcnt] at hc
  obtain ⟨hp, hi, hd⟩ := counters_eq _ _ _ _ hc
  obtain ⟨n, hn⟩ := hrun
  have hfin := while_step_final thr lb db N n _ r hp hn
  rw [hfin] at hi hd
  exact ⟨hfin, hi, hd⟩

theorem color140_run_final (E : Env) (line : Nat) :
    color140_config E line 171 = (LoopPoint.done, color140_loop E line (loops_start E))
      ∧ (color140_loop E line (loops_start E)).i = 40
      ∧ (color140_loop E line (loops_start E)).dotc = 0 :=
  while_run_final 8 (color140_load_pair E line) (color140_draw_pair E)
    (color140_step_counters E line) 171 40 0 (loops_start E)
    (color140_loop E line (loops_start E)) counter_run_140.1
    (color140_loop_run E line (loops_start E))

theorem mix_run_final (E : Env) (line : Nat) :
    mix_config E line 241 = (LoopPoint.done, mix_loop E line (loops_start E))
      ∧ (mix_loop E line (loops_start E)).i = 40
      ∧ (mix_loop E line (loops_start E)).dotc = 0 :=
  while_run_final 4 (mix_load_pair E line) (mix_draw_group E)
    (mix_step_counters E line) 241 40 0 (loops_start E)
    (mix_loop E line (loops_start E)) counter_run_mix.1
    (mix_loop_run E line (loops_start E))

theorem load_fits_of_guard (E : Env) (line : Nat) (s : DhiresState) (h : s.dotc ≤ 18) :
    LoadFits E line s :=
  ⟨h, by omega, (load_shift_lt _ _ h).1, (load_shift_lt _ _ h).2⟩

/-- With the guard of the loading loop the load is an untruncated OR of the two
7-bit fields at bits `dotc` and `dotc + 7`. -/
theorem load_pair_dots (E : Env) (line : Nat) (s : DhiresState) (h : s.dotc ≤ 18) :
    (color140_load_pair E line s).dots
        = s.dots ||| (line_mem_odd E line s.i &&& 0x7f) <<< s.dotc
          ||| (line_mem_even E line s.i &&& 0x7f) <<< (s.dotc + 7)
      ∧ (mix_load_pair E line s).dots
        = s.dots ||| (line_mem_odd E line s.i &&& 0x7f) <<< s.dotc
          ||| (line_mem_even E line s.i &&& 0x7f) <<< (s.dotc + 7) := by
  have h1 := (load_shift_lt (line_mem_odd E line s.i) s.dotc h).1
  have h2 := (load_shift_lt (line_mem_even E line s.i) s.dotc h).2
  constructor
  · show s.dots ||| u32 ((line_mem_odd E line s.i &&& 0x7f) <<< s.dotc)
        ||| u32 ((line_mem_even E line s.i &&& 0x7f) <<< (s.dotc + 7)) = _
    rw [u32_of_lt h1, u32_of_lt h2]
  · show s.dots ||| u32 ((line_mem_odd E line s.i &&& 0x7f) <<< s.dotc)
        ||| u32 ((line_mem_even E line s.i &&& 0x7f) <<< (s.dotc + 7)) = _
    rw [u32_of_lt h1, u32_of_lt h2]

/-- The low nibble of the accumulator is the stream nibble at the consumed
position. -/
theorem pending_low_nibble (E : Env) (line : Nat) (s : DhiresState)
    (h : PendingBits E line s) (hc : s.dotc ≥ 4) :
    s.dots &&& 0xf = dhires_nibble E line ((14 * s.i - s.dotc) / 4) := by
  obtain ⟨h1, h2, h3, h4, h5⟩ := h
  exact dhires_low_nibble E line _ s.dotc s.dots (14 * s.i - s.dotc) hc (by omega) h5

theorem pending_second_nibble (E : Env) (line : Nat) (s : DhiresState)
    (h : PendingBits E line s) (hc : s.dotc ≥ 8) :
    (s.dots >>> 4) &&& 0xf = dhires_nibble E line ((14 * s.i - s.dotc) / 4 + 1) := by
  obtain ⟨h1, h2, h3, h4, h5⟩ := h
  exact dhires_low_nibble E line _ (s.dotc - 4) (s.dots >>> 4) (14 * s.i - (s.dotc - 4))
    (by omega) (by omega) (pending_shift E line s.i s.dotc s.dots 4 (by omega) h2 h5)

theorem runs_load_guard (c : LoopPoint × DhiresState) (h : runs_load c = true) :
    c.1 = LoopPoint.load ∧ c.2.dotc ≤ 18 ∧ c.2.i < 40 := by
  unfold runs_load at h
  exact of_decide_eq_true h

theorem runs_draw_guard (thr : Nat) (c : LoopPoint × DhiresState)
    (h : runs_draw thr c = true) : c.1 = LoopPoint.draw ∧ c.2.dotc ≥ thr := by
  unfold runs_draw at h
  exact of_decide_eq_true h

/-- C15. Dot-window capacity invariant.  In every configuration the loops of the
140x192 and of the mixed branch reach, for every input, the accumulator holds
exactly the `dotc` stream bits not yet drawn, the earliest in bit 0, with `dotc`
at most 32.  Each load is executed with `dotc` at most 18, leaves `dotc` 14
higher and at most 32, and is the untruncated OR of the two 7-bit fields at bits
`dotc` and `dotc + 7`, so no loaded bit goes past bit 31.  Each draw takes the
stream nibble at the consumed position from the low end.  The loops end after 171
and 241 steps in the state the loop functions return, with `i = 40` and
`dotc = 0`: all 560 bits are loaded and drawn, and the emitted line holds every
word of the stream in order. -/
theorem dot_window_capacity (E : Env) (line : Nat) :
    (∀ n c, c = color140_config E line n →
        PendingBits E line c.2
          ∧ (runs_load c = true →
              LoadFits E line c.2
                ∧ (color140_load_pair E line c.2).dotc = c.2.dotc + 14
                ∧ (color140_load_pair E line c.2).dotc ≤ 32
                ∧ (color140_load_pair E line c.2).dots
                  = c.2.dots ||| (line_mem_odd E line c.2.i &&& 0x7f) <<< c.2.dotc
                    ||| (line_mem_even E line c.2.i &&& 0x7f) <<< (c.2.dotc + 7))
          ∧ (runs_draw 8 c = true →
              c.2.dots &&& 0xf = dhires_nibble E line ((14 * c.2.i - c.2.dotc) / 4)
                ∧ (c.2.dots >>> 4) &&& 0xf
                  = dhires_nibble E line ((14 * c.2.i - c.2.dotc) / 4 + 1)
                ∧ (color140_draw_pair E c.2).dotc = c.2.dotc - 8))
      ∧ (∀ n c, c = mix_config E line n →
        PendingBits E line c.2
          ∧ (runs_load c = true →
              LoadFits E line c.2
                ∧ (mix_load_pair E line c.2).dotc = c.2.dotc + 14
                ∧ (mix_load_pair E line c.2).dotc ≤ 32
                ∧ (mix_load_pair E line c.2).dots
                  = c.2.dots ||| (line_mem_odd E line c.2.i &&& 0x7f) <<< c.2.dotc
                    ||| (line_mem_even E line c.2.i &&& 0x7f) <<< (c.2.dotc + 7))
          ∧ (runs_draw 4 c = true →
              c.2.dots &&& 0xf = dhires_nibble E line ((14 * c.2.i - c.2.dotc) / 4)
                ∧ (mix_draw_group E c.2).dotc = c.2.dotc - 4))
      ∧ (color140_config E line 171
            = (LoopPoint.done, color140_loop E line (loops_start E))
          ∧ (color140_loop E line (loops_start E)).i = 40
          ∧ (color140_loop E line (loops_start E)).dotc = 0)
      ∧ (mix_config E line 241 = (LoopPoint.done, mix_loop E line (loops_start E))
          ∧ (mix_loop E line (loops_start E)).i = 40
          ∧ (mix_loop E line (loops_start E)).dotc = 0)
      ∧ (dhires_mode E = Video7Mode.VIDEO7_MODE_140x192 →
          render_dhires_line E line
              = finish_scanline E (color140_config E line 171).2.data
                  (color140_config E line 171).2.sl_pos
            ∧ (render_dhires_line E line).data
              = left_padding E ++ (List.range 70).map (color140_ref_word E line)
                ++ line_hold_tail E)
      ∧ (dhires_mode E = Video7Mode.VIDEO7_MODE_MIX →
          render_dhires_line E line
              = finish_scanline E (mix_config E line 241).2.data
                  (mix_config E line 241).2.sl_pos
            ∧ (render_dhires_line E line).data
              = left_padding E ++ (List.range 140).flatMap (mix_group_words E line)
                ++ line_hold_tail E) := by
  have f140 := color140_run_final E line
  have fmix := mix_run_final E line
  refine ⟨?_, ?_, f140, fmix, ?_, ?_⟩
  · intro n c hc
    have hp : PendingBits E line c.2 := by
      rw [hc]
      exact pending_140 E line n
    refine ⟨hp, ?_, ?_⟩
    · intro hl
      obtain ⟨_, hg, _⟩ := runs_load_guard c hl
      refine ⟨load_fits_of_guard E line c.2 hg, rfl, ?_, (load_pair_dots E line c.2 hg).1⟩
      show c.2.dotc + 7 + 7 ≤ 32
      omega
    · intro hd
      obtain ⟨_, hg⟩ := runs_draw_guard 8 c hd
      exact ⟨pending_low_nibble E line c.2 hp (by omega),
        pending_second_nibble E line c.2 hp hg, rfl⟩
  · intro n c hc
    have hp : PendingBits E line c.2 := by
      rw [hc]
      exact pending_mix E line n
    refine ⟨hp, ?_, ?_⟩
    · intro hl
      obtain ⟨_, hg, _⟩ := runs_load_guard c hl
      refine ⟨load_fits_of_guard E line c.2 hg, rfl, ?_, (load_pair_dots E line c.2 hg).2⟩
      show c.2.dotc + 7 + 7 ≤ 32
      omega
    · intro hd
      obtain ⟨_, hg⟩ := runs_draw_guard 4 c hd
      exact ⟨pending_low_nibble E line c.2 hp hg, (mix_draw_group_counters E c.2).2⟩
  · intro hm
    have h1 : dhires_mode E ≠ Video7Mode.VIDEO7_MODE_560x192 := by rw [hm]; decide
    have h2 : dhires_mode E ≠ Video7Mode.VIDEO7_MODE_160x192 := by rw [hm]; decide
    have h3 : dhires_mode E ≠ Video7Mode.VIDEO7_MODE_MIX := by rw [hm]; decide
    refine ⟨?_, (color140_line_data E line h1 h2 h3).1⟩
    rw [f140.1]
    exact render_dhires_line_140_eq E line h1 h2 h3
  · intro hm
    refine ⟨?_, (mix_line_data E line hm).1⟩
    rw [fmix.1]
    exact render_dhires_line_mix_eq E line hm

/-- Instance of C15 in the concrete environment, whose sub-mode is 140x192: line
0 ends with an empty accumulator and holds the 70 words of its stream. -/
theorem dot_window_capacity_witness :
    dhires_mode demo_env = Video7Mode.VIDEO7_MODE_140x192
      ∧ (color140_loop demo_env 0 (loops_start demo_env)).dotc = 0
      ∧ (render_dhires_line demo_env 0).data
        = left_padding demo_env ++ (List.range 70).map (color140_ref_word demo_env 0)
          ++ line_hold_tail demo_env :=
  ⟨rfl, (dot_window_capacity demo_env 0).2.2.1.2.2,
    ((dot_window_capacity demo_env 0).2.2.2.2.1 rfl).2⟩

/-! ## Iteration counts -/

theorem dhires_mode_160 (E : Env) (h : dhires_mode E = Video7Mode.VIDEO7_MODE_160x192) :
    E.soft_monochrom = false ∧ E.soft_video7_mode = Video7Mode.VIDEO7_MODE_160x192 := by
  unfold dhires_mode at h
  cases hm : E.soft_monochrom
  · rw [hm] at h
    exact ⟨rfl, h⟩
  · rw [hm] at h
    cases h

theorem count_steps_add {σ : Type} (p : σ → Bool) (step : σ → σ) (n m : Nat) (c : σ) :
    count_steps p step (n + m) c
      = count_steps p step n c + count_steps p step m (step^[n] c) := by
  induction n generalizing c with
  | zero => simp [count_steps]
  | succ n ih =>
    rw [Nat.succ_add, count_steps, count_steps, ih, Function.iterate_succ_apply]
    omega

/-- Past the outer loop no loop body is executed any more. -/
theorem count_steps_done (thr : Nat) (lb db : DhiresState → DhiresState)
    (p : LoopPoint × DhiresState → Bool) (hp : ∀ r, p (LoopPoint.done, r) = false)
    (m : Nat) (r : DhiresState) :
    count_steps p (while_step thr lb db) m (LoopPoint.done, r) = 0 := by
  induction m with
  | zero => rfl
  | succ m ih =>
    rw [count_steps, hp, while_step_done thr lb db _ rfl, ih]
    rfl

/-- A counted loop is the fold of its body over the indices `0 .. n - 1`. -/
theorem for_loop_foldl {σ : Type} (body : Nat → σ → σ) (n start : Nat) (s : σ) :
    for_loop body n start s = (List.range' start n).foldl (fun t c => body c t) s := by
  induction n generalizing start s with
  | zero => rfl
  | succ n ih =>
    rw [for_loop, ih, List.range'_succ, List.foldl_cons]

theorem for_loop_foldl_range {σ : Type} (body : Nat → σ → σ) (n : Nat) (s : σ) :
    for_loop body n 0 s = (List.range n).foldl (fun t c => body c t) s := by
  rw [for_loop_foldl, List.range_eq_range']

/-- Loads and draws of the 140x192 loops, whatever the bytes. -/
theorem color140_counts (E : Env) (line : Nat) :
    count_steps runs_load (color140_step E line) 171 (LoopPoint.outer, loops_start E) = 40
      ∧ count_steps (runs_draw 8) (color140_step E line) 171
          (LoopPoint.outer, loops_start E) = 70 := by
  have h1 := count_steps_counters 8 (color140_step E line) (color140_step_counters E line)
    runs_load (fun k => decide (k.1 = LoopPoint.load ∧ k.2.2 ≤ 18 ∧ k.2.1 < 40))
    (fun _ => rfl) 171 (LoopPoint.outer, loops_start E)
  have h2 := count_steps_counters 8 (color140_step E line) (color140_step_counters E line)
    (runs_draw 8) (fun k => decide (k.1 = LoopPoint.draw ∧ k.2.2 ≥ 8))
    (fun _ => rfl) 171 (LoopPoint.outer, loops_start E)
  have h0 : counters (LoopPoint.outer, loops_start E) = (LoopPoint.outer, 0, 0) := rfl
  rw [h0] at h1 h2
  exact ⟨h1.trans counter_run_140.2.1, h2.trans counter_run_140.2.2⟩

/-- Loads and draws of the mixed loops, whatever the bytes. -/
theorem mix_counts (E : Env) (line : Nat) :
    count_steps runs_load (mix_step E line) 241 (LoopPoint.outer, loops_start E) = 40
      ∧ count_steps (runs_draw 4) (mix_step E line) 241
          (LoopPoint.outer, loops_start E) = 140 := by
  have h1 := count_steps_counters 4 (mix_step E line) (mix_step_counters E line)
    runs_load (fun k => decide (k.1 = LoopPoint.load ∧ k.2.2 ≤ 18 ∧ k.2.1 < 40))
    (fun _ => rfl) 241 (LoopPoint.outer, loops_start E)
  have h2 := count_steps_counters 4 (mix_step E line) (mix_step_counters E line)
    (runs_draw 4) (fun k => decide (k.1 = LoopPoint.draw ∧ k.2.2 ≥ 4))
    (fun _ => rfl) 241 (LoopPoint.outer, loops_start E)
  have h0 : counters (LoopPoint.outer, loops_start E) = (LoopPoint.outer, 0, 0) := rfl
  rw [h0] at h1 h2
  exact ⟨h1.trans counter_run_mix.2.1, h2.trans counter_run_mix.2.2⟩

/-- A pass of the outer loop starts with a load: when the outer test holds, the
next step reaches the loading loop with its guard true. -/
theorem pass_loads (thr N : Nat) (lb db : DhiresState → DhiresState)
    (hstep : ∀ c, counters (while_step thr lb db c) = counter_step thr (counters c))
    (s : DhiresState)
    (hdone : ((counter_step thr)^[N] (LoopPoint.outer, s.i, s.dotc)).1 = LoopPoint.done)
    (hall : (counter_run thr N (LoopPoint.outer, s.i, s.dotc)).all
      (fun k => decide ((k.1 = LoopPoint.outer → k.2.2 ≤ 18) ∧ k.2.2 ≤ 32)) = true)
    (n : Nat) (c : LoopPoint × DhiresState)
    (hc : c = (while_step thr lb db)^[n] (LoopPoint.outer, s))
    (hp : c.1 = LoopPoint.outer) (hi : c.2.i < 40) :
    runs_load (while_step thr lb db c) = true := by
  have hk := counters_iterate thr (while_step thr lb db) hstep n (LoopPoint.outer, s)
  have h0 : counters (LoopPoint.outer, s) = (LoopPoint.outer, s.i, s.dotc) := rfl
  rw [h0, ← hc] at hk
  have hP := counters_all thr N _ _ hdone hall n
  rw [← hk] at hP
  have hP2 := of_decide_eq_true hP
  obtain ⟨p, t⟩ := c
  simp only at hp hi
  subst hp
  have hd : t.dotc ≤ 18 := hP2.1 rfl
  have hs : while_step thr lb db (LoopPoint.outer, t) = (LoopPoint.load, t) := by
    simp only [while_step]
    rw [if_pos hi]
  rw [hs]
  unfold runs_load
  exact decide_eq_true ⟨rfl, hd, hi⟩

theorem runs_load_done (r : DhiresState) : runs_load (LoopPoint.done, r) = false := by
  unfold runs_load
  exact decide_eq_false (fun h => by cases h.1)

theorem runs_draw_done (thr : Nat) (r : DhiresState) :
    runs_draw thr (LoopPoint.done, r) = false := by
  unfold runs_draw
  exact decide_eq_false (fun h => by cases h.1)

/-- Once the run is past the outer loop after `N` steps, further steps add no
loop body execution. -/
theorem count_steps_past (thr : Nat) (lb db : DhiresState → DhiresState)
    (p : LoopPoint × DhiresState → Bool) (hp : ∀ r, p (LoopPoint.done, r) = false)
    (N : Nat) (c : LoopPoint × DhiresState) (r : DhiresState)
    (hN : (while_step thr lb db)^[N] c = (LoopPoint.done, r)) (m : Nat) :
    count_steps p (while_step thr lb db) (N + m) c
      = count_steps p (while_step thr lb db) N c := by
  rw [count_steps_add, hN, count_steps_done thr lb db p hp]
  rfl

theorem color160_loop_pos (E : Env) (line : Nat) (s : DhiresState) (n : Nat) :
    (for_loop (color160_column E line) n 0 s).sl_pos = s.sl_pos + 2 * n := by
  have := for_loop_invariant
    (fun i (t : DhiresState) => t.sl_pos = s.sl_pos + 2 * i)
    (color160_column E line) n 0 s (by simp)
    (by
      intro i t _ _ hp
      show t.sl_pos + 1 + 1 = s.sl_pos + 2 * (i + 1)
      omega)
  simpa using this

/-- C16. Bounded, input-independent loops.  For every environment and line the
loops of `render_dhires_line` run a number of times fixed by the sub-mode alone.
The nested `while` loops of the 140x192 branch are past the outer loop after 171
steps, having executed the loading body 40 times and the consuming body 70 times;
those of the mixed branch after 241 steps, with 40 loads and 140 draws; further
steps change neither count nor state, the state reached is the one the loop
function returns, and every pass of the outer loop starts with a load.  The
560x192 branch applies its column body once for each of the columns 0 .. 39 and
the pixel body 7 times per column, 280 words in all; the 160x192 branch applies
its body once per column, 40 times, writing 2 words each time.  The line of each
sub-mode is the common tail applied to the state so reached. -/
theorem bounded_loops (E : Env) (line : Nat) :
    (color140_config E line 171 = (LoopPoint.done, color140_loop E line (loops_start E))
        ∧ (∀ m, count_steps runs_load (color140_step E line) (171 + m)
              (LoopPoint.outer, loops_start E) = 40
            ∧ count_steps (runs_draw 8) (color140_step E line) (171 + m)
              (LoopPoint.outer, loops_start E) = 70
            ∧ color140_config E line (171 + m) = color140_config E line 171)
        ∧ ∀ n c, c = color140_config E line n → c.1 = LoopPoint.outer → c.2.i < 40 →
            runs_load (color140_step E line c) = true)
      ∧ (mix_config E line 241 = (LoopPoint.done, mix_loop E line (loops_start E))
        ∧ (∀ m, count_steps runs_load (mix_step E line) (241 + m)
              (LoopPoint.outer, loops_start E) = 40
            ∧ count_steps (runs_draw 4) (mix_step E line) (241 + m)
              (LoopPoint.outer, loops_start E) = 140
            ∧ mix_config E line (241 + m) = mix_config E line 241)
        ∧ ∀ n c, c = mix_config E line n → c.1 = LoopPoint.outer → c.2.i < 40 →
            runs_load (mix_step E line c) = true)
      ∧ (∀ s, for_loop (mono560_column E line) 40 0 s
            = (List.range 40).foldl (fun t c => mono560_column E line c t) s
          ∧ (∀ c t, mono560_column E line c t
              = (List.range 7).foldl (fun u _ => mono560_pixels E u)
                  { t with dots := u32 ((line_mem_odd E line c &&& 0x7f)
                      ||| (u32 (u32 (line_mem_even E line c) &&& 0x7f) <<< 7)) })
          ∧ (∀ t, (mono560_pixels E t).sl_pos = t.sl_pos + 1)
          ∧ (for_loop (mono560_column E line) 40 0 s).sl_pos = s.sl_pos + 280)
      ∧ (∀ s, for_loop (color160_column E line) 40 0 s
            = (List.range 40).foldl (fun t c => color160_column E line c t) s
          ∧ (∀ c t, (color160_column E line c t).sl_pos = t.sl_pos + 2)
          ∧ (for_loop (color160_column E line) 40 0 s).sl_pos = s.sl_pos + 80)
      ∧ (dhires_mode E = Video7Mode.VIDEO7_MODE_140x192 →
          render_dhires_line E line
            = finish_scanline E (color140_config E line 171).2.data
                (color140_config E line 171).2.sl_pos)
      ∧ (dhires_mode E = Video7Mode.VIDEO7_MODE_MIX →
          render_dhires_line E line
            = finish_scanline E (mix_config E line 241).2.data
                (mix_config E line 241).2.sl_pos)
      ∧ (dhires_mode E = Video7Mode.VIDEO7_MODE_560x192 →
          render_dhires_line E line
            = finish_scanline E (for_loop (mono560_column E line) 40 0 (loops_start E)).data
                (for_loop (mono560_column E line) 40 0 (loops_start E)).sl_pos)
      ∧ (dhires_mode E = Video7Mode.VIDEO7_MODE_160x192 →
          render_dhires_line E line
            = finish_scanline E (for_loop (color160_column E line) 40 0 dhires_start).data
                (for_loop (color160_column E line) 40 0 dhires_start).sl_pos) := by
  have f140 := color140_run_final E line
  have fmix := mix_run_final E line
  have c140 := color140_counts E line
  have cmix := mix_counts E line
  refine ⟨⟨f140.1, ?_, ?_⟩, ⟨fmix.1, ?_, ?_⟩, ?_, ?_, ?_, ?_, ?_, ?_⟩
  · intro m
    refine ⟨?_, ?_, ?_⟩
    · exact (count_steps_past 8 _ _ runs_load runs_load_done 171 _ _ f140.1 m).trans c140.1
    · exact (count_steps_past 8 _ _ (runs_draw 8) (runs_draw_done 8) 171 _ _ f140.1 m).trans
        c140.2
    · show (color140_step E line)^[171 + m] (LoopPoint.outer, loops_start E)
        = color140_config E line 171
      rw [Nat.add_comm, Function.iterate_add_apply]
      show (color140_step E line)^[m] (color140_config E line 171) = _
      rw [f140.1]
      exact Function.iterate_fixed (while_step_done 8 _ _ _ rfl) m
  · intro n c hc hp hi
    exact pass_loads 8 171 (color140_load_pair E line) (color140_draw_pair E)
      (color140_step_counters E line) (loops_start E)
      (congrArg Prod.fst counter_run_140.1) counter_run_room.1 n c hc hp hi
  · intro m
    refine ⟨?_, ?_, ?_⟩
    · exact (count_steps_past 4 _ _ runs_load runs_load_done 241 _ _ fmix.1 m).trans cmix.1
    · exact (count_steps_past 4 _ _ (runs_draw 4) (runs_draw_done 4) 241 _ _ fmix.1 m).trans
        cmix.2
    · show (mix_step E line)^[241 + m] (LoopPoint.outer, loops_start E)
        = mix_config E line 241
      rw [Nat.add_comm, Function.iterate_add_apply]
      show (mix_step E line)^[m] (mix_config E line 241) = _
      rw [fmix.1]
      exact Function.iterate_fixed (while_step_done 4 _ _ _ rfl) m
  · intro n c hc hp hi
    exact pass_loads 4 241 (mix_load_pair E line) (mix_draw_group E)
      (mix_step_counters E line) (loops_start E)
      (congrArg Prod.fst counter_run_mix.1) counter_run_room.2 n c hc hp hi
  · intro s
    refine ⟨for_loop_foldl_range _ 40 s, ?_, fun _ => rfl, (mono560_loop_data E line s 40).2⟩
    intro c t
    unfold mono560_column
    exact for_loop_foldl_range _ 7 _
  · intro s
    exact ⟨for_loop_foldl_range _ 40 s, fun _ _ => rfl, color160_loop_pos E line s 40⟩
  · intro hm
    rw [f140.1]
    exact render_dhires_line_140_eq E line (by rw [hm]; decide) (by rw [hm]; decide)
      (by rw [hm]; decide)
  · intro hm
    rw [fmix.1]
    exact render_dhires_line_mix_eq E line hm
  · intro hm
    exact render_dhires_line_560_eq E line hm
  · intro hm
    obtain ⟨hmono, hmode⟩ := dhires_mode_160 E hm
    exact render_dhires_line_160_eq E line hmono hmode

/-- Instance of C16 in the concrete environment, whose sub-mode is 140x192: the
loops of line 0 execute 40 loads and 70 draws, and the line is the common tail
applied to the state after 171 steps. -/
theorem bounded_loops_witness :
    dhires_mode demo_env = Video7Mode.VIDEO7_MODE_140x192
      ∧ count_steps runs_load (color140_step demo_env 0) (171 + 0)
          (LoopPoint.outer, loops_start demo_env) = 40
      ∧ count_steps (runs_draw 8) (color140_step demo_env 0) (171 + 0)
          (LoopPoint.outer, loops_start demo_env) = 70
      ∧ render_dhires_line demo_env 0
        = finish_scanline demo_env (color140_config demo_env 0 171).2.data
            (color140_config demo_env 0 171).2.sl_pos :=
  ⟨rfl, ((bounded_loops demo_env 0).1.2.1 0).1, ((bounded_loops demo_env 0).1.2.1 0).2.1,
    (bounded_loops demo_env 0).2.2.2.2.1 rfl⟩

/-! ## Line ranges -/

set_option maxRecDepth 100000 in
/-- The offset as a sum of the three fields of the line index. -/
theorem hires_offset_fields : ∀ line < 192,
    hires_line_to_mem_offset line
      = (line % 8) * 1024 + (line / 8 % 8) * 128 + (line / 64) * 40 := by
  decide

/-- Two distinct lines are at least 40 bytes apart. -/
theorem hires_offset_apart (a b : Nat) (ha : a < 192) (hb : b < 192) (hab : a ≠ b) :
    hires_line_to_mem_offset a + 40 ≤ hires_line_to_mem_offset b
      ∨ hires_line_to_mem_offset b + 40 ≤ hires_line_to_mem_offset a := by
  rw [hires_offset_fields a ha, hires_offset_fields b hb]
  have ha8 : a / 8 / 8 = a / 64 := Nat.div_div_eq_div_mul a 8 8
  have hb8 : b / 8 / 8 = b / 64 := Nat.div_div_eq_div_mul b 8 8
  rcases Nat.lt_trichotomy (a % 8) (b % 8) with h1 | h1 | h1 <;>
    rcases Nat.lt_trichotomy (a / 8 % 8) (b / 8 % 8) with h2 | h2 | h2 <;>
    rcases Nat.lt_trichotomy (a / 64) (b / 64) with h3 | h3 | h3 <;>
    omega

/-- C17. Line ranges are disjoint and in-page: for distinct line indices `a`, `b`
below 192 the 40-byte ranges starting at `hires_line_to_mem_offset a` and at
`hires_line_to_mem_offset b` share no address, so the mapping is injective, and
every address `hires_line_to_mem_offset a + i` with `i < 40` read by the decoders
lies below 8192, inside one 8 KB page. -/
theorem line_ranges_disjoint_in_page (a b : Nat) (ha : a < 192) (hb : b < 192)
    (hab : a ≠ b) :
    (∀ i < 40, ∀ j < 40,
        hires_line_to_mem_offset a + i ≠ hires_line_to_mem_offset b + j)
      ∧ hires_line_to_mem_offset a ≠ hires_line_to_mem_offset b
      ∧ hires_line_to_mem_offset a + 40 ≤ 8192
      ∧ (∀ i < 40, hires_line_to_mem_offset a + i < 8192)
      ∧ (∀ E : Env, ∀ i < 40,
          line_mem_even E a i = display_page E (hires_line_to_mem_offset a + i) % 256
            ∧ line_mem_odd E a i
              = display_aux_page E (hires_line_to_mem_offset a + i) % 256) := by
  have h := hires_offset_apart a b ha hb hab
  have hp := hires_line_in_page a ha
  refine ⟨?_, ?_, hp, ?_, ?_⟩
  · intro i hi j hj
    omega
  · omega
  · intro i hi
    omega
  · intro E i _
    exact ⟨rfl, rfl⟩

/-- Instance of C17 for the lines 0 and 64, whose ranges start at 0 and 40: the
last byte of the first range is not the first byte of the second. -/
theorem line_ranges_disjoint_in_page_witness :
    hires_line_to_mem_offset 0 = 0 ∧ hires_line_to_mem_offset 64 = 40
      ∧ hires_line_to_mem_offset 0 + 39 ≠ hires_line_to_mem_offset 64 + 0 :=
  ⟨by decide, by decide,
    (line_ranges_disjoint_in_page 0 64 (by decide) (by decide) (by decide)).1
      39 (by decide) 0 (by decide)⟩

/-! ## Mixed sub-mode with all flags clear against the 560x192 sub-mode -/

theorem vga_scanline_ext (a b : vga_scanline) (hd : a.data = b.data)
    (hl : a.length = b.length) (hr : a.repeat_count = b.repeat_count) : a = b := by
  cases a
  cases b
  simp only at hd hl hr
  subst hd hl hr
  rfl

theorem render_dhires_line_repeat_count (E : Env) (line : Nat) :
    (render_dhires_line E line).repeat_count
      = if E.soft_scanline_emulation then none else some 1 := by
  unfold render_dhires_line
  exact finish_scanline_repeat_count E _ _

theorem mono560_line_length (E : Env) (line : Nat)
    (hm : dhires_mode E = Video7Mode.VIDEO7_MODE_560x192) :
    (render_dhires_line E line).length = 283 + (line_hold_tail E).length := by
  have hloop := mono560_loop_data E line
    { data := left_padding E, sl_pos := 3, i := 0, dotc := 0, dots := 0, pixelmode := 0 } 40
  rw [render_dhires_line_560_eq E line hm, finish_scanline_length, hloop.2]

theorem mix_line_no_flags_length (E : Env) (line : Nat)
    (hm : dhires_mode E = Video7Mode.VIDEO7_MODE_MIX)
    (hflags : ∀ c < 40, (line_mem_odd E line c).testBit 7 = false
      ∧ (line_mem_even E line c).testBit 7 = false) :
    (render_dhires_line E line).length = 283 + (line_hold_tail E).length := by
  have hpad : (left_padding E).length = 3 := rfl
  rw [(mix_line_data E line hm).2, mix_line_no_flags E line hm hflags, List.length_append,
    List.length_append, List.length_map, List.length_range, hpad]

theorem u32_u32 (x : Nat) : u32 (u32 x) = u32 x := by
  unfold u32
  exact Nat.mod_mod _ _

/-- The `bits_to_pixels` entry selected by two bits, as the word of two dots. -/
theorem bits_to_pixels_word (E : Env) (b0 b1 : Bool) :
    bits_to_pixels E (b0.toNat + 2 * b1.toNat)
      = u32 (mono_color E b0) ||| u32 (u32 (mono_color E b1) <<< 16) := by
  cases b0 <;> cases b1 <;>
    simp only [Bool.toNat_false, Bool.toNat_true, bits_to_pixels, mono_color] <;>
    rw [← u32_or, u32_u32, Nat.lor_comm] <;> rfl

/-- Word `7c + j` of the 560x192 branch is the word of stream bits `2 (7c + j)`
and `2 (7c + j) + 1` drawn as monochrome dots. -/
theorem mono560_word_stream (E : Env) (line c j : Nat) (hj : j < 7) :
    bits_to_pixels E ((mono560_window E line c >>> (2 * j)) &&& 3)
      = u32 (mono_color E (dhires_stream_bit E line (2 * (7 * c + j))))
        ||| u32 (u32 (mono_color E (dhires_stream_bit E line (2 * (7 * c + j) + 1))) <<< 16) := by
  rw [and_3_bits, Nat.testBit_shiftRight, Nat.testBit_shiftRight, bits_to_pixels_word,
    Nat.add_zero, mono560_window_testBit E line c (2 * j) (by omega),
    mono560_window_testBit E line c (2 * j + 1) (by omega)]
  have e1 : 14 * c + 2 * j = 2 * (7 * c + j) := by ring
  have e2 : 14 * c + (2 * j + 1) = 2 * (7 * c + j) + 1 := by ring
  rw [e1, e2]

/-- A mixed line with no flag set equals the 560x192 line of an environment that
reads the same bytes and constants and whose monochrome colours are
`dhgr_palette[0]` and `dhgr_palette[15]`. -/
theorem mix_no_flags_eq_mono560 (E M : Env) (line : Nat)
    (hmix : dhires_mode E = Video7Mode.VIDEO7_MODE_MIX)
    (hmono : dhires_mode M = Video7Mode.VIDEO7_MODE_560x192)
    (hflags : ∀ c < 40, (line_mem_odd E line c).testBit 7 = false
      ∧ (line_mem_even E line c).testBit 7 = false)
    (hpad : left_padding M = left_padding E) (htail : line_hold_tail M = line_hold_tail E)
    (hemu : M.soft_scanline_emulation = E.soft_scanline_emulation)
    (hodd : ∀ c, line_mem_odd M line c = line_mem_odd E line c)
    (heven : ∀ c, line_mem_even M line c = line_mem_even E line c)
    (hbg : M.mono_bg_color = E.dhgr_palette 0) (hfg : M.mono_fg_color = E.dhgr_palette 15) :
    render_dhires_line E line = render_dhires_line M line := by
  have hbit : ∀ p, dhires_stream_bit M line p = dhires_stream_bit E line p := by
    intro p
    unfold dhires_stream_bit
    rw [hodd, heven]
  have hcol : ∀ p, mono_color M (dhires_stream_bit M line p) = mix_dot_color E line p := by
    intro p
    unfold mono_color mix_dot_color
    rw [hbit, hbg, hfg]
  have hwords : ∀ c, mono560_column_words M line c
      = (List.range 7).map (fun j => mix_mono_word E line (2 * (7 * c + j))) := by
    intro c
    unfold mono560_column_words
    apply List.map_congr_left
    intro j hj
    rw [mono560_word_stream M line c j (List.mem_range.1 hj), hcol, hcol]
    rfl
  have hflat := flatMap_range_eq_map (mono560_column_words M line) 7
    (fun k => mix_mono_word E line (2 * k)) hwords 40
  apply vga_scanline_ext
  · rw [mix_line_no_flags E line hmix hflags, mono560_line_data M line hmono, hflat, hpad,
      htail]
  · rw [mix_line_no_flags_length E line hmix hflags, mono560_line_length M line hmono, htail]
  · rw [render_dhires_line_repeat_count, render_dhires_line_repeat_count, hemu]

/-- C18. Mixed sub-mode with all flags clear equals 560x192 decoding: when the
mixed sub-mode is selected and bit 7 of every auxiliary and main byte of the line
is 0, the scanline buffer of `render_dhires_line` (words, length and repeat
count) is identical to the one emitted for the same bytes in the 560x192
sub-mode, whether that is selected by the sub-mode selector or forced by the
monochrome switch, when `mono_bg_color = dhgr_palette[0]` and
`mono_fg_color = dhgr_palette[15]`. -/
theorem mix_flags_clear_eq_mono560 (E : Env) (line : Nat)
    (hmono : E.soft_monochrom = false)
    (hmode : E.soft_video7_mode = Video7Mode.VIDEO7_MODE_MIX)
    (hflags : ∀ c < 40, (line_mem_odd E line c).testBit 7 = false
      ∧ (line_mem_even E line c).testBit 7 = false)
    (hbg : E.mono_bg_color = E.dhgr_palette 0) (hfg : E.mono_fg_color = E.dhgr_palette 15) :
    render_dhires_line E line
        = render_dhires_line (with_video7_mode E Video7Mode.VIDEO7_MODE_560x192) line
      ∧ render_dhires_line E line
        = render_dhires_line { E with soft_monochrom := true } line
      ∧ (render_dhires_line E line).data
        = (render_dhires_line (with_video7_mode E Video7Mode.VIDEO7_MODE_560x192) line).data
      ∧ (render_dhires_line E line).data.length = 283 + (line_hold_tail E).length := by
  have hm := dhires_mode_of E _ hmono hmode
  have h1 : render_dhires_line E line
      = render_dhires_line (with_video7_mode E Video7Mode.VIDEO7_MODE_560x192) line :=
    mix_no_flags_eq_mono560 E (with_video7_mode E Video7Mode.VIDEO7_MODE_560x192) line hm
      (dhires_mode_560 _ (Or.inr rfl)) hflags rfl rfl rfl (fun _ => rfl) (fun _ => rfl) hbg hfg
  have h2 : render_dhires_line E line
      = render_dhires_line { E with soft_monochrom := true } line :=
    mix_no_flags_eq_mono560 E { E with soft_monochrom := true } line hm
      (dhires_mode_560 _ (Or.inl rfl)) hflags rfl rfl rfl (fun _ => rfl) (fun _ => rfl) hbg hfg
  refine ⟨h1, h2, congrArg vga_scanline.data h1, ?_⟩
  rw [← (mix_line_data E line hm).2]
  exact mix_line_no_flags_length E line hm hflags

/-- Instance of C18 in the concrete environment: line 0 of pages holding `0x2A`
gives the same buffer in the mixed and in the 560x192 sub-mode. -/
theorem mix_flags_clear_eq_mono560_witness :
    mix_plain_env.mono_bg_color = mix_plain_env.dhgr_palette 0
      ∧ mix_plain_env.mono_fg_color = mix_plain_env.dhgr_palette 15
      ∧ render_dhires_line mix_plain_env 0
        = render_dhires_line
            (with_video7_mode mix_plain_env Video7Mode.VIDEO7_MODE_560x192) 0 :=
  ⟨rfl, rfl,
    (mix_flags_clear_eq_mono560 mix_plain_env 0 rfl rfl
      (fun _ _ => ⟨show ((0x2A : Nat) % 256).testBit 7 = false by decide,
        show ((0x2A : Nat) % 256).testBit 7 = false by decide⟩) rfl rfl).1⟩

/-! ## Width of a double-resolution line -/

theorem pixel_pair_lt {lo hi : Nat} (hlo : lo < 2 ^ 16) (hhi : hi < 2 ^ 16) :
    pixel_pair lo hi < 2 ^ 32 := by
  have hlt : hi <<< 16 < 2 ^ 32 := by
    rw [Nat.shiftLeft_eq]
    omega
  exact Nat.or_lt_two_pow (by omega) hlt

/-- Width of a word of two 16-bit half-words whose low half is not the marker. -/
theorem word_width_pair (E : Env) (ext : Nat → Nat) {lo hi : Nat}
    (hw : E.THEN_WAIT_HSYNC < 2 ^ 16) (hlo : lo < 2 ^ 16) (hhi : hi < 2 ^ 16)
    (hne : lo ≠ E.THEN_WAIT_HSYNC) :
    word_width E ext (pixel_pair lo hi) = (1 + ext lo) + (1 + ext hi) := by
  have h := halfword_pixel_pair hlo hhi
  have hm : pixel_pair lo hi ≠ u32 E.THEN_WAIT_HSYNC := by
    intro e
    have h0 := h.1
    rw [e, u32_of_lt (by omega)] at h0
    unfold halfword at h0
    rw [Nat.mul_zero, Nat.shiftRight_zero, Nat.mod_eq_of_lt hw] at h0
    exact hne h0.symm
  unfold word_width
  rw [if_neg hm, h.1, h.2]

theorem dhires_nibble_lt (E : Env) (line m : Nat) : dhires_nibble E line m < 16 := by
  unfold dhires_nibble
  cases dhires_stream_bit E line (4 * m) <;> cases dhires_stream_bit E line (4 * m + 1) <;>
    cases dhires_stream_bit E line (4 * m + 2) <;>
    cases dhires_stream_bit E line (4 * m + 3) <;> decide

theorem left_padding_width_of (E : Env) (ext : Nat → Nat) (hD : DriverReads E ext) :
    buffer_width E ext (left_padding E) = 40 := by
  have e7 : pad_word_7 E = pixel_pair E.THEN_EXTEND_7 E.THEN_EXTEND_7 := by
    unfold pad_word_7
    rw [Nat.zero_or]
    exact u32_of_lt (pixel_pair_lt hD.extend_7_lt hD.extend_7_lt)
  have e3 : pad_word_3 E = pixel_pair E.THEN_EXTEND_3 E.THEN_EXTEND_3 := by
    unfold pad_word_3
    rw [Nat.zero_or]
    exact u32_of_lt (pixel_pair_lt hD.extend_3_lt hD.extend_3_lt)
  have w7 := word_width_pair E ext hD.wait_lt hD.extend_7_lt hD.extend_7_lt hD.pad_7_ne
  have w3 := word_width_pair E ext hD.wait_lt hD.extend_3_lt hD.extend_3_lt hD.pad_3_ne
  rw [hD.ext_pad_7] at w7
  rw [hD.ext_pad_3] at w3
  unfold left_padding buffer_width
  simp only [List.map_cons, List.map_nil, List.sum_cons, List.sum_nil]
  rw [e7, e3, w7, w3]
  rfl

/-- Every `bits_to_pixels` entry is two slots wide. -/
theorem bits_to_pixels_width (E : Env) (ext : Nat → Nat) (hD : DriverReads E ext) (x : Nat) :
    word_width E ext (bits_to_pixels E (x &&& 3)) = 2 := by
  have hc : ∀ b, mono_color E b < 2 ^ 16 ∧ mono_color E b ≠ E.THEN_WAIT_HSYNC
      ∧ ext (mono_color E b) = 0 := by
    intro b
    cases b
    · exact ⟨hD.bg_lt, hD.bg_ne, hD.ext_bg⟩
    · exact ⟨hD.fg_lt, hD.fg_ne, hD.ext_fg⟩
  rw [and_3_bits, bits_to_pixels_word, u32_pixel_pair (hc _).1 (hc _).1,
    word_width_pair E ext hD.wait_lt (hc _).1 (hc _).1 (hc _).2.1, (hc _).2.2, (hc _).2.2]

/-- Every word of the 140x192 reference is eight slots wide. -/
theorem color140_ref_word_width (E : Env) (ext : Nat → Nat) (hD : DriverReads E ext)
    (line w : Nat) : word_width E ext (color140_ref_word E line w) = 8 := by
  have ha := dhires_nibble_lt E line (2 * w)
  have hb := dhires_nibble_lt E line (2 * w + 1)
  have la := or_lt_16 (hD.dhgr_lt _ ha) hD.extend_3_lt
  have lb := or_lt_16 (hD.dhgr_lt _ hb) hD.extend_3_lt
  unfold color140_ref_word
  rw [u32_of_lt (pixel_pair_lt la lb),
    word_width_pair E ext hD.wait_lt la lb (hD.dhgr_3_ne _ ha), hD.ext_dhgr_3 _ ha,
    hD.ext_dhgr_3 _ hb]

/-- Every word of the 160x192 sub-mode is eight slots wide. -/
theorem color160_pair_width (E : Env) (ext : Nat → Nat) (hD : DriverReads E ext) (b : Nat) :
    word_width E ext (color160_pair E b) = 8 := by
  have ha := and_15_lt b
  have hb := and_15_lt (b >>> 4)
  have la := or_lt_16 (hD.lores_lt _ ha) hD.extend_3_lt
  have lb := or_lt_16 (hD.lores_lt _ hb) hD.extend_3_lt
  unfold color160_pair
  rw [word_width_pair E ext hD.wait_lt la lb (hD.lores_3_ne _ ha), hD.ext_lores_3 _ ha,
    hD.ext_lores_3 _ hb]

/-- A group drawn in colour is one word of four slots. -/
theorem mix_color_word_width (E : Env) (ext : Nat → Nat) (hD : DriverReads E ext)
    (line m : Nat) : word_width E ext (mix_color_word E line m) = 4 := by
  have ha := dhires_nibble_lt E line m
  have la := or_lt_16 (hD.dhgr_lt _ ha) hD.extend_1_lt
  unfold mix_color_word
  rw [u32_pixel_pair la la, word_width_pair E ext hD.wait_lt la la (hD.dhgr_1_ne _ ha),
    hD.ext_dhgr_1 _ ha]

/-- A word of two monochrome dots of the mixed sub-mode is two slots wide. -/
theorem mix_mono_word_width (E : Env) (ext : Nat → Nat) (hD : DriverReads E ext)
    (line p : Nat) : word_width E ext (mix_mono_word E line p) = 2 := by
  have hc : ∀ q, mix_dot_color E line q < 2 ^ 16
      ∧ mix_dot_color E line q ≠ E.THEN_WAIT_HSYNC ∧ ext (mix_dot_color E line q) = 0 := by
    intro q
    unfold mix_dot_color
    split
    · exact ⟨hD.dhgr_lt 15 (by decide), hD.dhgr_ne 15 (by decide), hD.ext_dhgr 15 (by decide)⟩
    · exact ⟨hD.dhgr_lt 0 (by decide), hD.dhgr_ne 0 (by decide), hD.ext_dhgr 0 (by decide)⟩
  unfold mix_mono_word
  rw [u32_pixel_pair (hc _).1 (hc _).1,
    word_width_pair E ext hD.wait_lt (hc _).1 (hc _).1 (hc _).2.1, (hc _).2.2, (hc _).2.2]

/-- Every group of the mixed sub-mode is four slots wide, in one or two words. -/
theorem mix_group_width (E : Env) (ext : Nat → Nat) (hD : DriverReads E ext) (line m : Nat) :
    buffer_width E ext (mix_group_words E line m) = 4
      ∧ (mix_group_words E line m).length
        = if mix_pending_flag E line m = true then 1 else 2 := by
  unfold mix_group_words
  by_cases h : mix_pending_flag E line m = true
  · rw [if_pos h, if_pos h]
    refine ⟨?_, rfl⟩
    unfold buffer_width
    simp only [List.map_cons, List.map_nil, List.sum_cons, List.sum_nil]
    rw [mix_color_word_width E ext hD]
    rfl
  · rw [if_neg h, if_neg h]
    refine ⟨?_, rfl⟩
    unfold buffer_width
    simp only [List.map_cons, List.map_nil, List.sum_cons, List.sum_nil]
    rw [mix_mono_word_width E ext hD, mix_mono_word_width E ext hD]
    rfl

/-- Width and length of a concatenation of chunks of constant width. -/
theorem buffer_width_flatMap (E : Env) (ext : Nat → Nat) (g : Nat → List Nat) (k : Nat)
    (hg : ∀ c, buffer_width E ext (g c) = k) (n : Nat) :
    buffer_width E ext ((List.range n).flatMap g) = k * n := by
  induction n with
  | zero => simp [buffer_width]
  | succ n ih =>
    rw [List.range_succ, List.flatMap_append, buffer_width_append, ih]
    simp only [List.flatMap_cons, List.flatMap_nil, List.append_nil, hg n, Nat.mul_succ]

theorem length_flatMap_bounds {α : Type} (g : Nat → List α) (lo hi : Nat)
    (hg : ∀ c, lo ≤ (g c).length ∧ (g c).length ≤ hi) (n : Nat) :
    lo * n ≤ ((List.range n).flatMap g).length
      ∧ ((List.range n).flatMap g).length ≤ hi * n := by
  induction n with
  | zero => simp
  | succ n ih =>
    rw [List.range_succ, List.flatMap_append, List.length_append]
    simp only [List.flatMap_cons, List.flatMap_nil, List.append_nil, Nat.mul_succ]
    have := hg n
    omega

theorem color160_line_data (E : Env) (line : Nat)
    (hm : dhires_mode E = Video7Mode.VIDEO7_MODE_160x192)
    (hpal : ∀ n < 16, E.lores_palette n < 2 ^ 16) (hext : E.THEN_EXTEND_3 < 2 ^ 16) :
    (render_dhires_line E line).data
      = (List.range 40).flatMap
          (fun c => [color160_pair E (line_mem_odd E line c),
                     color160_pair E (line_mem_even E line c)])
        ++ line_hold_tail E := by
  obtain ⟨hmono, hmode⟩ := dhires_mode_160 E hm
  have hloop := color160_loop_data E line dhires_start 40 hpal hext
  rw [render_dhires_line_160_eq E line hmono hmode, finish_scanline_data]
  exact congrArg (fun l => l ++ line_hold_tail E) (hloop.1.trans (List.nil_append _))

theorem mono560_column_width (E : Env) (ext : Nat → Nat) (hD : DriverReads E ext)
    (line c : Nat) : buffer_width E ext (mono560_column_words E line c) = 14 := by
  have h := buffer_width_const E ext 2 (mono560_column_words E line c) (by
    intro w hw
    unfold mono560_column_words at hw
    obtain ⟨j, _, rfl⟩ := List.mem_map.1 hw
    exact bits_to_pixels_width E ext hD _)
  rw [h, mono560_column_words_length]

theorem color160_column_width (E : Env) (ext : Nat → Nat) (hD : DriverReads E ext)
    (line c : Nat) :
    buffer_width E ext [color160_pair E (line_mem_odd E line c),
      color160_pair E (line_mem_even E line c)] = 16 := by
  unfold buffer_width
  simp only [List.map_cons, List.map_nil, List.sum_cons, List.sum_nil]
  rw [color160_pair_width E ext hD, color160_pair_width E ext hD]
  rfl

/-- Outside the 160x192 sub-mode the line is the 40-slot padding, then data words
of 560 slots in total, then the common tail. -/
theorem dhires_line_padded (E : Env) (ext : Nat → Nat) (hD : DriverReads E ext) (line : Nat)
    (hm : dhires_mode E ≠ Video7Mode.VIDEO7_MODE_160x192) :
    ∃ ws, (render_dhires_line E line).data = left_padding E ++ ws ++ line_hold_tail E
      ∧ buffer_width E ext ws = 560 := by
  cases hmode : dhires_mode E with
  | VIDEO7_MODE_140x192 =>
    have hw := buffer_width_const E ext 8 ((List.range 70).map (color140_ref_word E line)) (by
      intro w hw
      obtain ⟨j, _, rfl⟩ := List.mem_map.1 hw
      exact color140_ref_word_width E ext hD line j)
    refine ⟨_, (color140_line_data E line (by rw [hmode]; decide) (by rw [hmode]; decide)
        (by rw [hmode]; decide)).1, ?_⟩
    rw [hw, List.length_map, List.length_range]
  | VIDEO7_MODE_160x192 => exact absurd hmode hm
  | VIDEO7_MODE_560x192 =>
    refine ⟨_, mono560_line_data E line hmode, ?_⟩
    rw [buffer_width_flatMap E ext _ 14 (mono560_column_width E ext hD line)]
  | VIDEO7_MODE_MIX =>
    refine ⟨_, (mix_line_data E line hmode).1, ?_⟩
    rw [buffer_width_flatMap E ext _ 4 (fun m => (mix_group_width E ext hD line m).1)]

set_option maxRecDepth 1000000 in
/-- Both bounds on the number of data words of a mixed line are attained: 280
words for the line of `0x2A` bytes, 140 for the line of `0xAA` bytes. -/
theorem mix_word_count_extremes :
    ((List.range 140).flatMap
        (mix_group_words (with_video7_mode demo_env Video7Mode.VIDEO7_MODE_MIX) 0)).length = 280
      ∧ ((List.range 140).flatMap
        (mix_group_words (with_video7_mode flags_set_env Video7Mode.VIDEO7_MODE_MIX) 0)).length
          = 140 := by
  decide

/-- C19. Double-resolution width is input-independent: when the driver reads the
extend counts 7, 3 and 1 from the three extend flags and 0 from a palette or
monochrome colour, and no colour half-word is the line-hold marker, the buffer of
`render_dhires_line` is 640 slots wide in the 160x192 sub-mode, where it has no
padding and 80 data words, and 600 slots wide in every other sub-mode, where it
is the 40-slot padding followed by 560 slots of data words.  In the mixed
sub-mode each of the 140 groups is one word (colour) or two words (monochrome)
and always 4 slots, so the data words number between 140 and 280, and both
bounds are attained. -/
theorem render_dhires_line_width (E : Env) (ext : Nat → Nat) (line : Nat)
    (hD : DriverReads E ext) :
    buffer_width E ext (render_dhires_line E line).data
        = (if dhires_mode E = Video7Mode.VIDEO7_MODE_160x192 then 640 else 600)
      ∧ (dhires_mode E ≠ Video7Mode.VIDEO7_MODE_160x192 →
          buffer_width E ext (left_padding E) = 40
            ∧ ∃ ws, (render_dhires_line E line).data
                  = left_padding E ++ ws ++ line_hold_tail E
                ∧ buffer_width E ext ws = 560)
      ∧ (dhires_mode E = Video7Mode.VIDEO7_MODE_160x192 →
          ∃ ws, (render_dhires_line E line).data = ws ++ line_hold_tail E
            ∧ ws.length = 80 ∧ buffer_width E ext ws = 640)
      ∧ (dhires_mode E = Video7Mode.VIDEO7_MODE_MIX →
          (render_dhires_line E line).data
              = left_padding E ++ (List.range 140).flatMap (mix_group_words E line)
                ++ line_hold_tail E
            ∧ (∀ m, buffer_width E ext (mix_group_words E line m) = 4
                ∧ (mix_group_words E line m).length
                  = if mix_pending_flag E line m = true then 1 else 2)
            ∧ 140 ≤ ((List.range 140).flatMap (mix_group_words E line)).length
            ∧ ((List.range 140).flatMap (mix_group_words E line)).length ≤ 280)
      ∧ ((List.range 140).flatMap
            (mix_group_words (with_video7_mode demo_env Video7Mode.VIDEO7_MODE_MIX) 0)).length
          = 280
      ∧ ((List.range 140).flatMap
            (mix_group_words (with_video7_mode flags_set_env Video7Mode.VIDEO7_MODE_MIX) 0)).length
          = 140 := by
  have hpad := left_padding_width_of E ext hD
  have htail := buffer_width_tail E ext
  have h160 : dhires_mode E = Video7Mode.VIDEO7_MODE_160x192 →
      ∃ ws, (render_dhires_line E line).data = ws ++ line_hold_tail E
        ∧ ws.length = 80 ∧ buffer_width E ext ws = 640 := by
    intro hm
    refine ⟨_, color160_line_data E line hm hD.lores_lt hD.extend_3_lt, ?_, ?_⟩
    · exact length_flatMap_range
        (fun c => [color160_pair E (line_mem_odd E line c),
                   color160_pair E (line_mem_even E line c)]) 2 (fun _ => rfl) 40
    · rw [buffer_width_flatMap E ext _ 16 (color160_column_width E ext hD line)]
  refine ⟨?_, ?_, h160, ?_, mix_word_count_extremes.1, mix_word_count_extremes.2⟩
  · by_cases hm : dhires_mode E = Video7Mode.VIDEO7_MODE_160x192
    · obtain ⟨ws, hd, _, hw⟩ := h160 hm
      rw [if_pos hm, hd, buffer_width_append, htail, hw]
    · obtain ⟨ws, hd, hw⟩ := dhires_line_padded E ext hD line hm
      rw [if_neg hm, hd, buffer_width_append, buffer_width_append, hpad, htail, hw]
  · intro hm
    exact ⟨hpad, dhires_line_padded E ext hD line hm⟩
  · intro hm
    have hb := length_flatMap_bounds (mix_group_words E line) 1 2 (fun m => by
      rw [(mix_group_width E ext hD line m).2]
      split <;> omega) 140
    exact ⟨(mix_line_data E line hm).1, mix_group_width E ext hD line, hb.1, hb.2⟩

theorem demo_env_driver_reads : DriverReads demo_env demo_ext :=
  { wait_lt := by decide
    extend_1_lt := by decide
    extend_3_lt := by decide
    extend_7_lt := by decide
    dhgr_lt := by decide
    lores_lt := by decide
    bg_lt := by decide
    fg_lt := by decide
    ext_pad_7 := by decide
    ext_pad_3 := by decide
    ext_bg := by decide
    ext_fg := by decide
    ext_dhgr := by decide
    ext_dhgr_1 := by decide
    ext_dhgr_3 := by decide
    ext_lores_3 := by decide
    pad_7_ne := by decide
    pad_3_ne := by decide
    bg_ne := by decide
    fg_ne := by decide
    dhgr_ne := by decide
    dhgr_1_ne := by decide
    dhgr_3_ne := by decide
    lores_3_ne := by decide }

/-- Instance of C19 in the concrete environment, whose sub-mode is 140x192: line
0 is 600 slots wide. -/
theorem render_dhires_line_width_witness :
    buffer_width demo_env demo_ext (render_dhires_line demo_env 0).data = 600 :=
  (render_dhires_line_width demo_env demo_ext 0 demo_env_driver_reads).1

/-! ## Finalization polarity -/

theorem render_dhires_line_length (E : Env) (line : Nat) :
    (render_dhires_line E line).length
      = (dhires_body E line).length + (line_hold_tail E).length := by
  have h : (dhires_decode E line (dhires_pad E dhires_start)).sl_pos
      = (dhires_decode E line (dhires_pad E dhires_start)).data.length :=
    dhires_decode_synced E line
  unfold render_dhires_line dhires_body
  rw [finish_scanline_length, h]

theorem render_dhires_line_body (E : Env) (line : Nat) :
    (render_dhires_line E line).data = dhires_body E line ++ line_hold_tail E := by
  unfold render_dhires_line dhires_body
  rw [finish_scanline_data]

/-- The decoding loops of each sub-mode write a number of words fixed by the
sub-mode, and in the mixed sub-mode by the groups of the line. -/
theorem dhires_body_length (E : Env) (line : Nat) :
    (dhires_body E line).length = dhires_word_count E line := by
  have hlen := render_dhires_line_length E line
  unfold dhires_word_count
  cases hm : dhires_mode E with
  | VIDEO7_MODE_140x192 =>
    have h := (color140_line_data E line (by rw [hm]; decide) (by rw [hm]; decide)
      (by rw [hm]; decide)).2
    simp only
    omega
  | VIDEO7_MODE_160x192 =>
    obtain ⟨hmono, hmode⟩ := dhires_mode_160 E hm
    have h : (render_dhires_line E line).length = 80 + (line_hold_tail E).length := by
      rw [render_dhires_line_160_eq E line hmono hmode, finish_scanline_length,
        color160_loop_pos]
      rfl
    simp only
    omega
  | VIDEO7_MODE_560x192 =>
    have h := mono560_line_length E line hm
    simp only
    omega
  | VIDEO7_MODE_MIX =>
    have hd := render_dhires_line_body E line
    rw [(mix_line_data E line hm).1] at hd
    have hb := List.append_cancel_right hd
    simp only
    rw [← hb, List.length_append]
    rfl

theorem hires_body_shape (E : Env) (line : Nat) :
    (hires_body E line).length = 283
      ∧ ∃ ws, hires_body E line = left_padding E ++ ws ∧ ws.length = 280
          ∧ ∀ w ∈ ws, ∃ p, w = u32 (E.hires_color_patterns p) := by
  obtain ⟨ws, hd, hl, hw⟩ := hires_shape_line E line
  have hpad : (left_padding E).length = 3 := rfl
  refine ⟨?_, ws, hd, hl, hw⟩
  unfold hires_body
  rw [hd, List.length_append, hpad, hl]

/-- C7 (amended). Finalization polarity: `render_hires_line` and every sub-mode
of `render_dhires_line` finalize the same way.  The decoding loops write the same
words whatever the scanline-emulation flag: 283 in `render_hires_line`, and in
`render_dhires_line` the number fixed by the sub-mode.  With the flag clear the
buffer is exactly those words, no marker is appended, `length` is their number
and `repeat_count` is set to 1.  With the flag set the buffer is those words
followed by exactly one `THEN_WAIT_HSYNC` word, counted in `length`, and
`repeat_count` is not written.  In both cases `length` is the number of words
written. -/
theorem finalization_polarity (E : Env) (line : Nat) :
    ((render_hires_line (with_emulation E false) line).data = hires_body E line
      ∧ (render_hires_line (with_emulation E false) line).length = (hires_body E line).length
      ∧ (render_hires_line (with_emulation E false) line).repeat_count = some 1
      ∧ (render_hires_line (with_emulation E true) line).data
          = hires_body E line ++ [u32 E.THEN_WAIT_HSYNC]
      ∧ (render_hires_line (with_emulation E true) line).length
          = (hires_body E line).length + 1
      ∧ (render_hires_line (with_emulation E true) line).repeat_count = none
      ∧ (∀ b, hires_body (with_emulation E b) line = hires_body E line)
      ∧ (hires_body E line).length = 283
      ∧ (∃ ws, hires_body E line = left_padding E ++ ws ∧ ws.length = 280
          ∧ ∀ w ∈ ws, ∃ p, w = u32 (E.hires_color_patterns p))
      ∧ (render_hires_line (with_emulation E true) line).data
          = (render_hires_line (with_emulation E false) line).data ++ [u32 E.THEN_WAIT_HSYNC]
      ∧ (render_hires_line (with_emulation E true) line).length
          = (render_hires_line (with_emulation E true) line).data.length
      ∧ (render_hires_line (with_emulation E false) line).length
          = (render_hires_line (with_emulation E false) line).data.length)
    ∧ ((render_dhires_line (with_emulation E false) line).data = dhires_body E line
      ∧ (render_dhires_line (with_emulation E false) line).length
          = (dhires_body E line).length
      ∧ (render_dhires_line (with_emulation E false) line).repeat_count = some 1
      ∧ (render_dhires_line (with_emulation E true) line).data
          = dhires_body E line ++ [u32 E.THEN_WAIT_HSYNC]
      ∧ (render_dhires_line (with_emulation E true) line).length
          = (dhires_body E line).length + 1
      ∧ (render_dhires_line (with_emulation E true) line).repeat_count = none
      ∧ (∀ b, dhires_body (with_emulation E b) line = dhires_body E line)
      ∧ (dhires_body E line).length = dhires_word_count E line
      ∧ (render_dhires_line (with_emulation E true) line).data
          = (render_dhires_line (with_emulation E false) line).data ++ [u32 E.THEN_WAIT_HSYNC]
      ∧ (render_dhires_line (with_emulation E true) line).length
          = (render_dhires_line (with_emulation E true) line).data.length
      ∧ (render_dhires_line (with_emulation E false) line).length
          = (render_dhires_line (with_emulation E false) line).data.length) := by
  have h1 : (for_loop (hires_byte E line) 40 1 (hires_start E line)).sl_pos
      = (hires_body E line).length := hires_loop_synced E line
  have h2 : (dhires_decode E line (dhires_pad E dhires_start)).sl_pos
      = (dhires_body E line).length := dhires_decode_synced E line
  have hb1 : (for_loop (hires_byte E line) 40 1 (hires_start E line)).data
      = hires_body E line := rfl
  have hb2 : (dhires_decode E line (dhires_pad E dhires_start)).data
      = dhires_body E line := rfl
  have hs := hires_body_shape E line
  have hf1 : ∀ b, hires_body (with_emulation E b) line = hires_body E line := by
    intro b
    unfold hires_body
    rw [hires_loop_flag]
  have hf2 : ∀ b, dhires_body (with_emulation E b) line = dhires_body E line := by
    intro b
    unfold dhires_body
    rw [dhires_decode_flag]
  constructor
  · rw [render_hires_line_flag E true, render_hires_line_flag E false, finish_scanline_on,
      finish_scanline_off, hb1, h1]
    refine ⟨?_, ?_, ?_, ?_, ?_, ?_, hf1, hs.1, hs.2, ?_, ?_, ?_⟩
    · simp only
    · simp only
    · simp only
    · simp only
    · simp only
    · simp only
    · simp only
    · simp only [List.length_append, List.length_singleton]
    · simp only
  · rw [render_dhires_line_flag E true, render_dhires_line_flag E false, finish_scanline_on,
      finish_scanline_off, hb2, h2]
    refine ⟨?_, ?_, ?_, ?_, ?_, ?_, hf2, dhires_body_length E line, ?_, ?_, ?_⟩
    · simp only
    · simp only
    · simp only
    · simp only
    · simp only
    · simp only
    · simp only
    · simp only [List.length_append, List.length_singleton]
    · simp only

set_option maxRecDepth 1000000 in
/-- C7 as stated fails: in the concrete environment the flag is clear, and the
call writes 283 words with no marker and sets `repeat_count` to 1; with the flag
set it writes a 284th word, the marker, and leaves `repeat_count` alone. -/
theorem finalization_polarity_counterexample :
    demo_env.soft_scanline_emulation = false
      ∧ (render_hires_line demo_env 0).length = 283
      ∧ (render_hires_line demo_env 0).data.getLast? ≠ some (u32 demo_env.THEN_WAIT_HSYNC)
      ∧ (render_hires_line demo_env 0).repeat_count = some 1
      ∧ (render_hires_line (with_emulation demo_env true) 0).length = 284
      ∧ (render_hires_line (with_emulation demo_env true) 0).data.getLast?
          = some (u32 demo_env.THEN_WAIT_HSYNC)
      ∧ (render_hires_line (with_emulation demo_env true) 0).repeat_count = none := by
  decide

/-! ## The all-zero page, frame and widths -/

/-- When the colour-table entries 0 and 0x100 are plain pixel pairs, every data
word of the zero line carries no extend code and the line is 600 slots wide: the
40 slots of the padding and 2 for each of the 280 data words. -/
theorem zero_scanline_plain (E : Env) (ext : Nat → Nat)
    (h7 : E.THEN_EXTEND_7 < 2 ^ 16) (h3 : E.THEN_EXTEND_3 < 2 ^ 16)
    (e7 : ext E.THEN_EXTEND_7 = 7) (e3 : ext E.THEN_EXTEND_3 = 3)
    (m7 : pad_word_7 E ≠ u32 E.THEN_WAIT_HSYNC) (m3 : pad_word_3 E ≠ u32 E.THEN_WAIT_HSYNC)
    (hC : ∀ p, p = 0 ∨ p = 0x100 →
      u32 (E.hires_color_patterns p) ≠ u32 E.THEN_WAIT_HSYNC
        ∧ ext (halfword (u32 (E.hires_color_patterns p)) 0) = 0
        ∧ ext (halfword (u32 (E.hires_color_patterns p)) 1) = 0) :
    (∀ k < 280, ∃ w, (zero_scanline E).data[3 + k]? = some w
        ∧ w = u32 (E.hires_color_patterns (if k % 2 = 0 then 0 else 0x100))
        ∧ ext (halfword w 0) = 0 ∧ ext (halfword w 1) = 0 ∧ word_width E ext w = 2)
      ∧ buffer_width E ext (zero_scanline E).data = 600 := by
  have hpad : (left_padding E).length = 3 := rfl
  have hd : (zero_scanline E).data
      = left_padding E
        ++ (List.range 280).map
            (fun k => u32 (E.hires_color_patterns (if k % 2 = 0 then 0 else 0x100)))
        ++ line_hold_tail E := rfl
  have hidx : ∀ k : Nat, (if k % 2 = 0 then 0 else 0x100) = 0
      ∨ (if k % 2 = 0 then 0 else 0x100) = 0x100 := by
    intro k
    split
    · exact Or.inl rfl
    · exact Or.inr rfl
  have hword : ∀ k : Nat,
      ext (halfword (u32 (E.hires_color_patterns (if k % 2 = 0 then 0 else 0x100))) 0) = 0
        ∧ ext (halfword (u32 (E.hires_color_patterns (if k % 2 = 0 then 0 else 0x100))) 1) = 0
        ∧ word_width E ext (u32 (E.hires_color_patterns (if k % 2 = 0 then 0 else 0x100)))
          = 2 := by
    intro k
    obtain ⟨c1, c2, c3⟩ := hC _ (hidx k)
    refine ⟨c2, c3, ?_⟩
    unfold word_width
    rw [if_neg c1, c2, c3]
  constructor
  · intro k hk
    refine ⟨u32 (E.hires_color_patterns (if k % 2 = 0 then 0 else 0x100)), ?_, rfl,
      (hword k).1, (hword k).2.1, (hword k).2.2⟩
    rw [hd, List.append_assoc, List.getElem?_append_right (by omega), hpad,
      show 3 + k - 3 = k by omega,
      List.getElem?_append_left (by rw [List.length_map, List.length_range]; exact hk),
      List.getElem?_map, List.getElem?_range hk]
    rfl
  · have hw := buffer_width_const E ext 2
      ((List.range 280).map
        (fun k => u32 (E.hires_color_patterns (if k % 2 = 0 then 0 else 0x100)))) (by
      intro w hmem
      obtain ⟨k, _, rfl⟩ := List.mem_map.1 hmem
      exact (hword k).2.2)
    rw [hd, buffer_width_append, buffer_width_append,
      left_padding_width E ext h7 h3 e7 e3 m7 m3, buffer_width_tail, hw, List.length_map,
      List.length_range]

/-- C9. All-zero page: if the displayed page is all zero bytes and
`hires_dot_patterns[0] = 0`, the full-screen single-resolution render submits 192
scanline buffers that are all the same buffer: the 3 padding words, then exactly
280 data words, `hires_color_patterns[0]` for even pixels and
`hires_color_patterns[0x100]` for odd ones, then the common tail.  The padding
covers 16 + 16 + 8 = 40 slots when the driver reads 7 and 3 from the two extend
flags; and when the two colour-table entries are plain pixel pairs, as the
colour table is described, no data word carries an extend code, so the padding
holds the only extend codes and every submitted buffer is 40 + 560 = 600 slots
wide. -/
theorem render_hires_zero_page (E : Env) (hsingle : use_dhires E = false)
    (hzero : ∀ a < 8192, display_page E a % 256 = 0) (hP0 : E.hires_dot_patterns 0 = 0) :
    render_hires E
        = [vga_call.vga_prepare_frame, vga_call.vga_skip_lines 48]
          ++ List.replicate 192 (vga_call.vga_submit_scanline (zero_scanline E))
      ∧ (zero_scanline E).data
        = left_padding E
          ++ (List.range 280).map
              (fun k => u32 (E.hires_color_patterns (if k % 2 = 0 then 0 else 0x100)))
          ++ line_hold_tail E
      ∧ (zero_scanline E).length = (zero_scanline E).data.length
      ∧ (∀ ext : Nat → Nat, E.THEN_EXTEND_7 < 2 ^ 16 → E.THEN_EXTEND_3 < 2 ^ 16 →
          ext E.THEN_EXTEND_7 = 7 → ext E.THEN_EXTEND_3 = 3 →
          pad_word_7 E ≠ u32 E.THEN_WAIT_HSYNC → pad_word_3 E ≠ u32 E.THEN_WAIT_HSYNC →
          buffer_width E ext (left_padding E) = 40)
      ∧ (∀ sl, vga_call.vga_submit_scanline sl ∈ render_hires E → sl = zero_scanline E)
      ∧ (∀ line < 192, render_hires_line E line = zero_scanline E)
      ∧ ∀ ext : Nat → Nat, E.THEN_EXTEND_7 < 2 ^ 16 → E.THEN_EXTEND_3 < 2 ^ 16 →
          ext E.THEN_EXTEND_7 = 7 → ext E.THEN_EXTEND_3 = 3 →
          pad_word_7 E ≠ u32 E.THEN_WAIT_HSYNC → pad_word_3 E ≠ u32 E.THEN_WAIT_HSYNC →
          (∀ p, p = 0 ∨ p = 0x100 →
            u32 (E.hires_color_patterns p) ≠ u32 E.THEN_WAIT_HSYNC
              ∧ ext (halfword (u32 (E.hires_color_patterns p)) 0) = 0
              ∧ ext (halfword (u32 (E.hires_color_patterns p)) 1) = 0) →
          (∀ line < 192, ∀ k < 280, ∃ w, (render_hires_line E line).data[3 + k]? = some w
              ∧ w = u32 (E.hires_color_patterns (if k % 2 = 0 then 0 else 0x100))
              ∧ ext (halfword w 0) = 0 ∧ ext (halfword w 1) = 0 ∧ word_width E ext w = 2)
            ∧ (∀ line < 192, buffer_width E ext (render_hires_line E line).data = 600)
            ∧ buffer_width E ext (zero_scanline E).data = 600 := by
  have hcalls : render_hires E
      = [vga_call.vga_prepare_frame, vga_call.vga_skip_lines 48]
        ++ List.replicate 192 (vga_call.vga_submit_scanline (zero_scanline E)) := by
    unfold render_hires
    rw [render_lines_single E hsingle]
    congr 1
    apply List.ext_getElem
    · rw [List.length_map, List.length_range, List.length_replicate]
    · intro i h1 h2
      rw [List.length_map, List.length_range] at h1
      rw [List.getElem_map, List.getElem_range, List.getElem_replicate]
      rw [zero_page_line E i h1 hzero hP0]
  refine ⟨hcalls, rfl, ?_,
    fun ext h7 h3 e7 e3 m7 m3 => left_padding_width E ext h7 h3 e7 e3 m7 m3, ?_,
    fun line hl => zero_page_line E line hl hzero hP0, ?_⟩
  · have hpad : (left_padding E).length = 3 := rfl
    have hd : (zero_scanline E).data
        = left_padding E
          ++ (List.range 280).map
              (fun k => u32 (E.hires_color_patterns (if k % 2 = 0 then 0 else 0x100)))
          ++ line_hold_tail E := rfl
    rw [hd, List.length_append, List.length_append, List.length_map, List.length_range, hpad]
    rfl
  · intro sl hmem
    rw [hcalls, List.mem_append] at hmem
    rcases hmem with h | h
    · rw [List.mem_cons, List.mem_singleton] at h
      rcases h with h | h <;> cases h
    · have := List.eq_of_mem_replicate h
      cases this
      rfl
  · intro ext h7 h3 e7 e3 m7 m3 hC
    have hz := zero_scanline_plain E ext h7 h3 e7 e3 m7 m3 hC
    refine ⟨?_, ?_, hz.2⟩
    · intro line hl
      rw [zero_page_line E line hl hzero hP0]
      exact hz.1
    · intro line hl
      rw [zero_page_line E line hl hzero hP0]
      exact hz.2

/-- Instance of C9 in the concrete environment with a zero page: the 192
submitted buffers are the zero line, which is 600 slots wide. -/
theorem render_hires_zero_page_witness :
    render_hires zero_env
        = [vga_call.vga_prepare_frame, vga_call.vga_skip_lines 48]
          ++ List.replicate 192 (vga_call.vga_submit_scanline (zero_scanline zero_env))
      ∧ buffer_width zero_env demo_ext (zero_scanline zero_env).data = 600 :=
  ⟨(render_hires_zero_page zero_env rfl (fun _ _ => rfl) rfl).1,
    ((render_hires_zero_page zero_env rfl (fun _ _ => rfl) rfl).2.2.2.2.2.2 demo_ext
      (by decide) (by decide) (by decide) (by decide) (by decide) (by decide)
      (fun p _ => demo_env_plain_colors p)).2.2⟩

end AppleVGA
